import Mathlib

/-!
# The Agon windowed codec (`compress.c`, `decompress.c`)

A shallow embedding of the encoder (`agon_compress_byte`, `agon_finish_compression`
and the bit packer) and of the decoder (`agon_decompress_byte`), followed by the
properties of the codec that are proved about them.

Conventions of the embedding:
* a `uint8_t` datum is a `Byte` (`Fin 256`); a cast to `uint8_t` is `toByte`;
* `uint32_t`, `uint16_t` and `uint8_t` counters are `Nat`, reduced explicitly where
  the C arithmetic can wrap;
* the arrays `window_data` and `string_data` are functions from the index;
* the byte sink `write_fcn(context, b)` appends `b` to the field `written`;
* `codes` (encoder) and `dispatched` (decoder) are ghost logs of the code words
  written and interpreted; no program decision reads them;
* loops are recursive functions on the number of iterations left.

The definitions come first (the code, then the notions used to state properties),
the lemmas and the claims' theorems follow.
-/

namespace Agon

/-- One `uint8_t`. -/
abbrev Byte := Fin 256

/-- The cast `(uint8_t) n`. -/
def toByte (n : Nat) : Byte := ⟨n % 256, Nat.mod_lt n (by decide)⟩

/-- The constant `COMPRESSION_WINDOW_SIZE`. -/
def COMPRESSION_WINDOW_SIZE : Nat := 256

/-- The constant `COMPRESSION_STRING_SIZE`. -/
def COMPRESSION_STRING_SIZE : Nat := 16

/-- The store `a[i] = v`. -/
def store (a : Nat → Byte) (i : Nat) (v : Byte) : Nat → Byte :=
  fun j => if j = i then v else a j

/-! ## Encoder state and bit packer (`compress.c`) -/

/-- The struct `CompressionData`; `written` is what the sink has received through
`write_fcn`, `codes` the ghost log of code words (tag, payload). -/
structure CompressionData where
  window_size : Nat
  window_write_index : Nat
  string_size : Nat
  string_read_index : Nat
  string_write_index : Nat
  input_count : Nat
  output_count : Nat
  window_data : Nat → Byte
  string_data : Nat → Byte
  out_byte : Byte
  out_bits : Nat
  written : List Byte
  codes : List (Nat × Byte)

/-- The function `agon_init_compression`: `memset` to zero, empty sink. -/
def agon_init_compression : CompressionData where
  window_size := 0
  window_write_index := 0
  string_size := 0
  string_read_index := 0
  string_write_index := 0
  input_count := 0
  output_count := 0
  window_data := fun _ => 0
  string_data := fun _ => 0
  out_byte := 0
  out_bits := 0
  written := []
  codes := []

/-- The function `agon_write_compressed_bit`. -/
def agon_write_compressed_bit (cd : CompressionData) (comp_bit : Byte) : CompressionData :=
  let out_byte := toByte ((cd.out_byte.val <<< 1) ||| comp_bit.val)
  let out_bits := (cd.out_bits + 1) % 256
  if out_bits ≥ 8 then
    { cd with
      written := cd.written ++ [out_byte]
      out_byte := 0
      out_bits := 0
      output_count := (cd.output_count + 1) % 2 ^ 32 }
  else
    { cd with out_byte := out_byte, out_bits := out_bits }

/-- The `for` loop of `agon_write_compressed_byte`, `n` iterations left. -/
def write_byte_loop : Nat → CompressionData → Byte → CompressionData
  | 0, cd, _ => cd
  | n + 1, cd, comp_byte =>
    write_byte_loop n
      (agon_write_compressed_bit cd (if comp_byte.val &&& 0x80 ≠ 0 then 1 else 0))
      (toByte (comp_byte.val <<< 1))

/-- The function `agon_write_compressed_byte`. -/
def agon_write_compressed_byte (cd : CompressionData) (comp_byte : Byte) : CompressionData :=
  write_byte_loop 8 cd comp_byte

/-- The three calls that write one code word: two tag bits, then the payload byte.
The ghost log records the code word as (tag, payload). -/
def emit_code (cd : CompressionData) (b1 b0 : Byte) (payload : Byte) : CompressionData :=
  let cd := agon_write_compressed_bit cd b1
  let cd := agon_write_compressed_bit cd b0
  let cd := agon_write_compressed_byte cd payload
  { cd with codes := cd.codes ++ [(2 * b1.val + b0.val, payload)] }

/-! ## Encoder (`agon_compress_byte`, `agon_finish_compression`) -/

/-- Lines 102-108: add the new original byte to the string. -/
def push_string (cd : CompressionData) (orig_byte : Byte) : CompressionData :=
  let cd := { cd with
    string_data := store cd.string_data cd.string_write_index orig_byte
    string_write_index := (cd.string_write_index + 1) % COMPRESSION_STRING_SIZE }
  if cd.string_size < COMPRESSION_STRING_SIZE then
    { cd with string_size := cd.string_size + 1 }
  else
    { cd with string_read_index := (cd.string_read_index + 1) % COMPRESSION_STRING_SIZE }

/-- The inner comparison loop (`for i < length`), `n` iterations left, at window
index `wi` and string index `si`; the result is the flag `match`. -/
def string_matches : CompressionData → Nat → Nat → Nat → Bool
  | _, 0, _, _ => true
  | cd, n + 1, wi, si =>
    if cd.window_data wi ≠ cd.string_data si then false
    else string_matches cd n ((wi + 1) % COMPRESSION_WINDOW_SIZE)
      ((si + 1) % COMPRESSION_STRING_SIZE)

/-- The outer search loop (`for start ...`), `n` candidate starts left from `start`;
the result is the first start whose comparison succeeds. -/
def search_from (cd : CompressionData) (length : Nat) : Nat → Nat → Option Nat
  | 0, _ => none
  | n + 1, start =>
    if string_matches cd length start cd.string_read_index then some start
    else search_from cd length n (start + 1)

/-- One search block: guarded by `window_size >= length`, starts
`0 .. window_size - length`. -/
def find_match (cd : CompressionData) (length : Nat) : Option Nat :=
  if cd.window_size ≥ length then search_from cd length (cd.window_size - length + 1) 0
  else none

/-- Lines 185-198: emit the oldest byte as a literal and add it to the window. -/
def emit_literal (cd : CompressionData) : CompressionData :=
  let old_byte := cd.string_data cd.string_read_index
  let cd := emit_code cd 0 0 old_byte
  let cd := { cd with
    string_size := cd.string_size - 1
    string_read_index := (cd.string_read_index + 1) % COMPRESSION_STRING_SIZE }
  let cd := { cd with
    window_data := store cd.window_data cd.window_write_index old_byte
    window_write_index := (cd.window_write_index + 1) % COMPRESSION_WINDOW_SIZE }
  if cd.window_size < COMPRESSION_WINDOW_SIZE then
    { cd with window_size := cd.window_size + 1 }
  else cd

/-- Lines 110-199: the decision taken once the byte has been pushed. -/
def decide_code (cd : CompressionData) : CompressionData :=
  if cd.string_size ≥ 16 then
    match find_match cd 16 with
    | some start =>
      let cd := emit_code cd 1 1 (toByte start)
      { cd with string_size := 0 }
    | none =>
      match find_match cd 8 with
      | some start =>
        let cd := emit_code cd 1 0 (toByte start)
        { cd with
          string_size := cd.string_size - 8
          string_read_index := (cd.string_read_index + 8) % COMPRESSION_STRING_SIZE }
      | none =>
        match find_match cd 4 with
        | some start =>
          let cd := emit_code cd 0 1 (toByte start)
          { cd with
            string_size := cd.string_size - 4
            string_read_index := (cd.string_read_index + 4) % COMPRESSION_STRING_SIZE }
        | none => emit_literal cd
  else cd

/-- The function `agon_compress_byte`. -/
def agon_compress_byte (cd : CompressionData) (orig_byte : Byte) : CompressionData :=
  decide_code (push_string cd orig_byte)

/-- The `while (cd->string_size)` loop of `agon_finish_compression`; the fuel bounds
the number of iterations. -/
def drain_string : Nat → CompressionData → CompressionData
  | 0, cd => cd
  | fuel + 1, cd =>
    if cd.string_size ≠ 0 then
      let cd1 := emit_code cd 0 0 (cd.string_data cd.string_read_index)
      drain_string fuel { cd1 with
        string_size := cd1.string_size - 1
        string_read_index := (cd1.string_read_index + 1) % COMPRESSION_STRING_SIZE }
    else cd

/-- Lines 210-213: output the final bits. -/
def flush_bits (cd : CompressionData) : CompressionData :=
  if cd.out_bits ≠ 0 then
    { cd with
      written := cd.written ++ [toByte (cd.out_byte.val <<< (8 - cd.out_bits))]
      output_count := (cd.output_count + 1) % 2 ^ 32 }
  else cd

/-- The function `agon_finish_compression`; each iteration of the loop lowers
`string_size` by one, so `string_size` iterations of fuel run it to its end. -/
def agon_finish_compression (cd : CompressionData) : CompressionData :=
  flush_bits (drain_string cd.string_size cd)

/-- Feed the bytes of `X` to `agon_compress_byte`, in order. -/
def compress_bytes (cd : CompressionData) (X : List Byte) : CompressionData :=
  X.foldl agon_compress_byte cd

/-- The whole encoder run on `X`: init, one `agon_compress_byte` per byte, finish. -/
def encode (X : List Byte) : CompressionData :=
  agon_finish_compression (compress_bytes agon_init_compression X)

/-! ## Decoder (`decompress.c`) -/

/-- The struct `DecompressionData`; `written` is what the sink has received,
`dispatched` the ghost log of interpreted code words (command, value). -/
structure DecompressionData where
  window_size : Nat
  window_write_index : Nat
  input_count : Nat
  output_count : Nat
  window_data : Nat → Byte
  code : Nat
  code_bits : Nat
  written : List Byte
  dispatched : List (Nat × Byte)

/-- The function `agon_init_decompression`: it resets the scalar fields of the
struct it is given and leaves `window_data` as it finds it. -/
def agon_init_decompression (dd : DecompressionData) : DecompressionData :=
  { dd with
    window_size := 0
    window_write_index := 0
    input_count := 0
    output_count := 0
    code := 0
    code_bits := 0
    written := []
    dispatched := [] }

/-- Lines 111-120: extract a byte string from the window, `n` bytes left from
window index `wi`. -/
def extract_string : Nat → Nat → DecompressionData → DecompressionData
  | 0, _, dd => dd
  | n + 1, wi, dd =>
    let out_byte := dd.window_data wi
    extract_string n ((wi + 1) % COMPRESSION_WINDOW_SIZE)
      { dd with
        written := dd.written ++ [out_byte]
        output_count := (dd.output_count + 1) % 2 ^ 32 }

/-- Lines 79-120: interpret the incoming code. A command above 3 cannot arise from
a 10-bit code; the C code leaves `size` unset there, the embedding copies nothing. -/
def interpret_code (dd : DecompressionData) : DecompressionData :=
  let command := dd.code >>> 8
  let value := toByte dd.code
  let dd := { dd with
    code := 0
    code_bits := 0
    dispatched := dd.dispatched ++ [(command, value)] }
  match command with
  | 0 =>
    let dd := { dd with
      window_data := store dd.window_data dd.window_write_index value
      window_write_index := (dd.window_write_index + 1) % COMPRESSION_WINDOW_SIZE }
    let dd := if dd.window_size < COMPRESSION_WINDOW_SIZE then
      { dd with window_size := dd.window_size + 1 } else dd
    { dd with
      written := dd.written ++ [value]
      output_count := (dd.output_count + 1) % 2 ^ 32 }
  | 1 => extract_string 4 value.val dd
  | 2 => extract_string 8 value.val dd
  | 3 => extract_string 16 value.val dd
  | _ => dd

/-- One iteration of the `for` loop of `agon_decompress_byte` on the bit `b`. -/
def agon_decompress_bit (dd : DecompressionData) (b : Nat) : DecompressionData :=
  let dd := { dd with
    code := ((dd.code <<< 1) ||| b) % 65536
    code_bits := (dd.code_bits + 1) % 256 }
  if dd.code_bits ≥ 10 then interpret_code dd else dd

/-- The `for` loop of `agon_decompress_byte`, `n` iterations left. -/
def decompress_loop : Nat → DecompressionData → Byte → DecompressionData
  | 0, dd, _ => dd
  | n + 1, dd, comp_byte =>
    decompress_loop n
      (agon_decompress_bit dd (if comp_byte.val &&& 0x80 ≠ 0 then 1 else 0))
      (toByte (comp_byte.val <<< 1))

/-- The function `agon_decompress_byte`. -/
def agon_decompress_byte (dd : DecompressionData) (comp_byte : Byte) : DecompressionData :=
  decompress_loop 8 dd comp_byte

/-- Feed the bytes of `Y` to `agon_decompress_byte`, in order. -/
def decompress_bytes (dd : DecompressionData) (Y : List Byte) : DecompressionData :=
  Y.foldl agon_decompress_byte dd

/-- The whole decoder run on `Y` from the struct `dd0`: init, then one
`agon_decompress_byte` per byte. -/
def decode (dd0 : DecompressionData) (Y : List Byte) : DecompressionData :=
  decompress_bytes (agon_init_decompression dd0) Y

/-! ## Bit streams, code words and window slices used to state the properties -/

/-- The bit `b` as the `uint8_t` the packer receives. -/
def bit_byte (b : Bool) : Byte := if b then 1 else 0

/-- The `n` low bits of `v`, most significant first. -/
def low_bits : Nat → Nat → List Bool
  | 0, _ => []
  | n + 1, v => low_bits n (v / 2) ++ [decide (v % 2 = 1)]

/-- The 8 bits of a byte, most significant first. -/
def byte_bits (b : Byte) : List Bool := low_bits 8 b.val

/-- The bits of a byte sequence, each byte most significant bit first. -/
def bits_of_bytes : List Byte → List Bool
  | [] => []
  | b :: bs => byte_bits b ++ bits_of_bytes bs

/-- The 10 bits of a code word: 2-bit tag, then 8-bit payload, most significant
bit first. -/
def code_word_bits (c : Nat × Byte) : List Bool := low_bits 2 c.1 ++ byte_bits c.2

/-- The bits of a sequence of code words, without padding between them. -/
def codes_bits : List (Nat × Byte) → List Bool
  | [] => []
  | c :: cs => code_word_bits c ++ codes_bits cs

/-- The value of a bit string read most significant bit first. -/
def bits_value (bs : List Bool) : Nat := bs.foldl (fun v b => 2 * v + (if b then 1 else 0)) 0

/-- Cut a bit string into 8-bit bytes; a last group of fewer than 8 bits is filled
with zero bits on the low-order side. -/
def pack_bits : List Bool → List Byte
  | b7 :: b6 :: b5 :: b4 :: b3 :: b2 :: b1 :: b0 :: rest =>
    toByte (bits_value [b7, b6, b5, b4, b3, b2, b1, b0]) :: pack_bits rest
  | [] => []
  | b :: bs => [toByte (bits_value (b :: bs) <<< (8 - (b :: bs).length))]

/-- The bits that the loops of `agon_write_compressed_byte` and
`agon_decompress_byte` take from `comp_byte` in `n` iterations. -/
def loop_bits : Nat → Byte → List Bool
  | 0, _ => []
  | n + 1, comp_byte =>
    decide (comp_byte.val &&& 0x80 ≠ 0) :: loop_bits n (toByte (comp_byte.val <<< 1))

/-- The bits the packer has taken so far: those of the bytes written, then the
`out_bits` pending bits of `out_byte`. -/
def stream (cd : CompressionData) : List Bool :=
  bits_of_bytes cd.written ++ low_bits cd.out_bits cd.out_byte.val

/-- The packer holds fewer than 8 pending bits and nothing above them. -/
def PackerOk (cd : CompressionData) : Prop :=
  cd.out_bits < 8 ∧ cd.out_byte.val < 2 ^ cd.out_bits

/-- The run of `n` slots of the circular array `a` (of `m` slots) read from index
`i` the way the C loops read it: `a[i++]`, then `i &= m - 1`. -/
def slice (a : Nat → Byte) (m : Nat) : Nat → Nat → List Byte
  | _, 0 => []
  | i, n + 1 => a i :: slice a m ((i + 1) % m) n

/-- The content of the lookahead buffer, oldest byte first. -/
def lookahead (cd : CompressionData) : List Byte :=
  slice cd.string_data COMPRESSION_STRING_SIZE cd.string_read_index cd.string_size

/-- Feed single bits to the decoder loop body. -/
def feed_bits (dd : DecompressionData) (bs : List Bool) : DecompressionData :=
  bs.foldl (fun dd b => agon_decompress_bit dd (if b then 1 else 0)) dd

/-- The accumulator `code` after shifting in the bits `bs`. -/
def accum (code : Nat) (bs : List Bool) : Nat :=
  bs.foldl (fun c b => ((c <<< 1) ||| (if b then 1 else 0)) % 65536) code

/-- The decoder's interpretation of the code word (command, value). -/
def dispatch_code (dd : DecompressionData) (c : Nat × Byte) : DecompressionData :=
  interpret_code { dd with code := c.1 * 256 + c.2.val }

/-- The decoder's interpretation of a sequence of code words. -/
def decode_codes (dd : DecompressionData) (cs : List (Nat × Byte)) : DecompressionData :=
  cs.foldl dispatch_code dd

/-- The number of original bytes a code word with this tag stands for. -/
def code_length (tag : Nat) : Nat :=
  match tag with
  | 0 => 1
  | 1 => 4
  | 2 => 8
  | _ => 16

/-- Pack code words with the encoder's bit packer from the initial state and flush. -/
def pack_codes (cs : List (Nat × Byte)) : CompressionData :=
  flush_bits (cs.foldl (fun cd c => emit_code cd (toByte (c.1 / 2)) (toByte (c.1 % 2)) c.2)
    agon_init_compression)

/-- A match of length `len` at start `s`: the `len` window slots from `s` equal the `len`
oldest bytes of the lookahead buffer. -/
def MatchAt (cd : CompressionData) (len s : Nat) : Prop :=
  ∀ i, i < len → cd.window_data (s + i) = cd.string_data ((cd.string_read_index + i) % 16)

instance (cd : CompressionData) (len s : Nat) : Decidable (MatchAt cd len s) := by
  unfold MatchAt; infer_instance

/-- The packer fields of the encoder state together with the ghost log. -/
def packer_view (cd : CompressionData) : List Byte × Byte × Nat × Nat × List (Nat × Byte) :=
  (cd.written, cd.out_byte, cd.out_bits, cd.output_count, cd.codes)

/-- Invariant of the packer: the bits taken so far are those of the code words
written, every tag is a 2-bit value and `output_count` counts the bytes written
(as a `uint32_t`). -/
def PackInv (cd : CompressionData) : Prop :=
  PackerOk cd ∧ stream cd = codes_bits cd.codes ∧ (∀ c ∈ cd.codes, c.1 < 4) ∧
  cd.output_count = cd.written.length % 2 ^ 32

/-- Shape of the encoder states reachable from `agon_init_compression`: the lookahead
holds at most 15 bytes between calls, the cursors are in range and consistent, and
the window fills slot by slot until it holds 256 bytes. -/
def EncoderOk (cd : CompressionData) : Prop :=
  cd.string_size ≤ 15 ∧ cd.string_read_index < 16 ∧
  cd.string_write_index = (cd.string_read_index + cd.string_size) % 16 ∧
  cd.window_size ≤ 256 ∧ cd.window_write_index < 256 ∧
  (cd.window_size < 256 → cd.window_write_index = cd.window_size)

/-- The tag that encodes a copy length. -/
def length_tag (len : Nat) : Nat :=
  match len with
  | 16 => 3
  | 8 => 2
  | _ => 1

/-- The decoder that has interpreted the code words written so far, started from
`d0`, mirrors the encoder: same window (on the slots in use), same cursors, and its
output followed by the lookahead content is the input consumed so far. -/
def Sim (d0 : DecompressionData) (cd : CompressionData) (X : List Byte) : Prop :=
  EncoderOk cd ∧
  (decode_codes d0 cd.codes).window_size = cd.window_size ∧
  (decode_codes d0 cd.codes).window_write_index = cd.window_write_index ∧
  (∀ j, j < cd.window_size → (decode_codes d0 cd.codes).window_data j = cd.window_data j) ∧
  (decode_codes d0 cd.codes).written ++ lookahead cd = X

/-- The literal code word of a byte. -/
def literal (b : Byte) : Nat × Byte := (0, b)

/-- The number of original bytes a sequence of code words stands for. -/
def codes_length (cs : List (Nat × Byte)) : Nat := (cs.map (fun c => code_length c.1)).sum

/-- A `DecompressionData` struct before `agon_init_decompression`, all zero. -/
def blank_decompression : DecompressionData where
  window_size := 0
  window_write_index := 0
  input_count := 0
  output_count := 0
  window_data := fun _ => 0
  code := 0
  code_bits := 0
  written := []
  dispatched := []

/-- The all-zero input of 2^36 bytes. -/
def long_input : List Byte := List.replicate (2 ^ 36) 0

/-- Some start in range has a matching run of `len` window slots. -/
def HasMatch (cd : CompressionData) (len : Nat) : Prop :=
  ∃ s, s + len ≤ cd.window_size ∧ MatchAt cd len s

/-! ## The wire-format table, as the specification words it -/

/-- The decoder as the wire-format table sees it: the history window and the bytes
sunk so far. -/
structure TableState where
  window_data : Nat → Byte
  window_size : Nat
  window_write_index : Nat
  written : List Byte

/-- The table view of a decoder state. -/
def table_view (dd : DecompressionData) : TableState :=
  ⟨dd.window_data, dd.window_size, dd.window_write_index, dd.written⟩

/-- One row of the wire-format table: command 0 sinks the payload and appends it to
the window; commands 1, 2, 3 sink 4, 8, 16 bytes, the `i`-th being
`window_data[(payload + i) mod 256]`. -/
def table_step (s : TableState) (c : Nat × Byte) : TableState :=
  match c.1 with
  | 0 =>
    { window_data := store s.window_data s.window_write_index c.2
      window_size := if s.window_size < 256 then s.window_size + 1 else s.window_size
      window_write_index := (s.window_write_index + 1) % 256
      written := s.written ++ [c.2] }
  | 1 => { s with
      written := s.written ++ (List.range 4).map (fun i => s.window_data ((c.2.val + i) % 256)) }
  | 2 => { s with
      written := s.written ++ (List.range 8).map (fun i => s.window_data ((c.2.val + i) % 256)) }
  | _ => { s with
      written := s.written ++ (List.range 16).map (fun i => s.window_data ((c.2.val + i) % 256)) }

/-- Group a bit string, most significant bit first, into consecutive 10-bit code
words: top 2 bits the command, low 8 bits the payload; fewer than 10 trailing bits
form no code word. -/
def unpack_codes : List Bool → List (Nat × Byte)
  | c1 :: c0 :: b7 :: b6 :: b5 :: b4 :: b3 :: b2 :: b1 :: b0 :: rest =>
    (bits_value [c1, c0], toByte (bits_value [b7, b6, b5, b4, b3, b2, b1, b0])) ::
      unpack_codes rest
  | _ => []

/-- The all-zero compressed stream of 5 * 2^30 bytes. -/
def long_stream : List Byte := List.replicate (5 * 2 ^ 30) 0

/-- No substring of length 4 or more occurs at two different positions of `X`. -/
def NoRepeat (X : List Byte) : Prop :=
  ∀ len i j, 4 ≤ len → i < j → j + len ≤ X.length → (X.drop i).take len ≠ (X.drop j).take len

/-- The substrings of length 4 of a byte sequence, each as one number, in order of
position. -/
def gram_keys : List Byte → List Nat
  | a :: b :: c :: d :: rest =>
    (a.val + 256 * (b.val + 256 * (c.val + 256 * d.val))) :: gram_keys (b :: c :: d :: rest)
  | _ => []

/-- Whether a list of numbers is strictly increasing. -/
def ascending : List Nat → Bool
  | a :: b :: rest => decide (a < b) && ascending (b :: rest)
  | _ => true

/-- The bytes 0..255 in order, then 7, 7, 1, 2, 3 and eleven further bytes. -/
def seam_head : List Byte :=
  (List.range 256).map toByte ++ [7, 7, 1, 2, 3, 100, 90, 80, 70, 60, 50, 40, 30, 20, 10, 0]

/-- An input of 273 bytes without a repeated substring of length 4. -/
def seam_input : List Byte := seam_head ++ [200]

/-- An encoder state with 15 bytes 1..15 in the lookahead and a window of 21 bytes
that holds 1, 2, 3, 4 at index 0 and the run 1..16 at index 5. -/
def priority_state : CompressionData :=
  { agon_init_compression with
    window_size := 21
    window_write_index := 21
    window_data := fun j => if j < 4 then toByte (j + 1) else if j = 4 then 9
      else if j < 21 then toByte (j - 4) else 0
    string_size := 15
    string_read_index := 0
    string_write_index := 15
    string_data := fun j => if j < 15 then toByte (j + 1) else 0 }

/-! ## Notions used for the invariants of the encoder run and for `main` -/

/-- The encoder state after `agon_init_compression` and one `agon_compress_byte` call
for each byte of `X`, before `agon_finish_compression`. -/
def reached (X : List Byte) : CompressionData := compress_bytes agon_init_compression X

/-- The number of literal code words (tag 0) in a sequence of code words. -/
def literal_count : List (Nat × Byte) → Nat
  | [] => 0
  | c :: cs => (if c.1 = 0 then 1 else 0) + literal_count cs

/-- The ratio line of both `main` functions, `(output_count * 100) / input_count` on
`uint32_t`; a division by zero has no result. -/
def ratio_percent (output_count input_count : Nat) : Option Nat :=
  if input_count = 0 then none else some ((output_count * 100) % 2 ^ 32 / input_count)

/-- The function `main` of `compress.c`, lines 231-253, on the bytes of the input file:
`output_count` starts at `sizeof(hdr)`, which is 8 (the header bytes go to the file
directly), `input_count` is incremented before every `agon_compress_byte`, and the
result is the percentage that is printed. -/
def compress_main (file : List Byte) : Option Nat :=
  let cd := { agon_init_compression with output_count := 8 }
  let cd := file.foldl (fun cd input =>
    agon_compress_byte { cd with input_count := (cd.input_count + 1) % 2 ^ 32 } input) cd
  let cd := agon_finish_compression cd
  ratio_percent cd.output_count cd.input_count

/-- The function `main` of `decompress.c`, lines 136-147, on the bytes of the input
file, from the struct `dd` as it lies on the stack. -/
def decompress_main (dd : DecompressionData) (file : List Byte) : Option Nat :=
  let dd := agon_init_decompression dd
  let dd := file.foldl (fun dd input =>
    agon_decompress_byte { dd with input_count := (dd.input_count + 1) % 2 ^ 32 } input) dd
  ratio_percent dd.output_count dd.input_count

/-- A decoder state about to interpret the code word 01 00000000 (copy 4 bytes from
index 0) with four bytes in its window. -/
def copy_state : DecompressionData :=
  { blank_decompression with
    window_size := 4
    window_write_index := 4
    window_data := fun j => if j < 4 then toByte (j + 1) else 0
    code := 256
    code_bits := 10 }

/-- The bytes a code word stands for, read from the window array `w`: the payload for
a literal, the 4, 8 or 16 window bytes from the payload index for a back-reference. -/
def code_bytes (w : Nat → Byte) (c : Nat × Byte) : List Byte :=
  if c.1 = 0 then [c.2]
  else (List.range (code_length c.1)).map (fun i => w ((c.2.val + i) % 256))

/-- The bytes accounted for by the code words that `agon_compress_byte` writes for
the bytes of an input, from the state `cd` on: each code word is decoded with the
encoder's window as it is when the call that writes it begins. -/
def emitted_bytes : CompressionData → List Byte → List Byte
  | _, [] => []
  | cd, b :: bs =>
    ((agon_compress_byte cd b).codes.drop cd.codes.length).foldr
      (fun c acc => code_bytes cd.window_data c ++ acc) [] ++
    emitted_bytes (agon_compress_byte cd b) bs

/-- The comparison loop of the search without its line
`wi &= (COMPRESSION_WINDOW_SIZE - 1)`. -/
def string_matches_unmasked : CompressionData → Nat → Nat → Nat → Bool
  | _, 0, _, _ => true
  | cd, n + 1, wi, si =>
    if cd.window_data wi ≠ cd.string_data si then false
    else string_matches_unmasked cd n (wi + 1) ((si + 1) % COMPRESSION_STRING_SIZE)

/-- The outer search loop over the unmasked comparison loop. -/
def search_from_unmasked (cd : CompressionData) (length : Nat) : Nat → Nat → Option Nat
  | 0, _ => none
  | n + 1, start =>
    if string_matches_unmasked cd length start cd.string_read_index then some start
    else search_from_unmasked cd length n (start + 1)

/-- One search block over the unmasked comparison loop. -/
def find_match_unmasked (cd : CompressionData) (length : Nat) : Option Nat :=
  if cd.window_size ≥ length then
    search_from_unmasked cd length (cd.window_size - length + 1) 0
  else none

/-- An encoder state with a full window, slot `j` holding the byte `j`, and the 15
bytes 10..24 in the lookahead. -/
def full_state : CompressionData :=
  { agon_init_compression with
    window_size := 256
    window_write_index := 0
    window_data := fun j => toByte j
    string_size := 15
    string_read_index := 0
    string_write_index := 15
    string_data := fun j => if j < 15 then toByte (j + 10) else 0 }

/-- The bytes 0..255 in order, then 254, 255, 0, 1 and eleven further bytes. -/
def wrap_head : List Byte :=
  (List.range 256).map toByte ++ [254, 255, 0, 1, 100, 90, 80, 70, 60, 50, 40, 30, 20, 10, 5]

/-! ## Window runs across the write position -/

/-- The input position of the byte that window slot `j` holds once the first `k` input
bytes have entered the window as literals: the slots below the write position
`k mod 256` hold the newest bytes, the slots from it on hold the bytes written one
round of the array earlier. -/
def window_source (k j : Nat) : Nat :=
  if j < k % 256 then k - k % 256 + j else k - k % 256 - 256 + j

/-- Some run of four window slots, as the search with `k` literals in the window tries
them (start `s` with `s + 4` at most the window size, no wrap), holds the four input
bytes at position `k`. -/
def WindowRun (X : List Byte) (k : Nat) : Prop :=
  ∃ s, s + 4 ≤ k ∧ s + 4 ≤ 256 ∧ ∀ i, i < 4 → X[window_source k (s + i)]? = X[k + i]?

/-- The four input bytes at position `k` are the `a` bytes just before `k` followed by
the `4 - a` bytes that start 256 positions before `k`. In the window array these are
four adjacent slots, `a` below the write position and `4 - a` from it on. -/
def SeamRun (X : List Byte) (k a : Nat) : Prop :=
  ∀ i, i < 4 → X[k + i]? = if i < a then X[k - a + i]? else X[k - 256 + (i - a)]?

instance (X : List Byte) (k a : Nat) : Decidable (SeamRun X k a) :=
  inferInstanceAs (Decidable
    (∀ i, i < 4 → X[k + i]? = if i < a then X[k - a + i]? else X[k - 256 + (i - a)]?))

/-- No search of the encoder can meet a run of four window slots across the write
position that equals its first four lookahead bytes: for no position `k` above 256
with a full lookahead (`k + 16` at most the length) and no `a` in 1..3 with the run
inside the array (`a <= k mod 256 <= 252 + a`) the input has a seam run at `k`. -/
def NoSeamRun (X : List Byte) : Prop :=
  ∀ k, k < X.length → ∀ a, a < 4 → 256 < k → k + 16 ≤ X.length → 1 ≤ a → a ≤ k % 256 →
    k % 256 ≤ 252 + a → ¬ SeamRun X k a

set_option synthInstance.maxSize 1000 in
instance (X : List Byte) : Decidable (NoSeamRun X) :=
  inferInstanceAs (Decidable
    (∀ k, k < X.length → ∀ a, a < 4 → 256 < k → k + 16 ≤ X.length → 1 ≤ a → a ≤ k % 256 →
      k % 256 ≤ 252 + a → ¬ SeamRun X k a))

/-- An input of 300 bytes without a repeated substring of length 4: the bytes 0..255
in order, then the 44 even numbers 0, 2, .., 86. -/
def plain_input : List Byte :=
  (List.range 256).map toByte ++ (List.range 44).map (fun i => toByte (2 * i))

/-! ## Two concrete runs of the encoder -/

set_option maxRecDepth 100000 in
theorem encode_20_aa :
    (encode (List.replicate 20 0xAA)).codes =
      [(0, 0xAA), (0, 0xAA), (0, 0xAA), (0, 0xAA), (1, 0), (0, 0xAA), (0, 0xAA), (0, 0xAA),
        (0, 0xAA), (0, 0xAA), (0, 0xAA), (0, 0xAA), (0, 0xAA), (0, 0xAA), (0, 0xAA), (0, 0xAA),
        (0, 0xAA)] := by decide

set_option maxRecDepth 100000 in
theorem priority_state_emits :
    (agon_compress_byte priority_state 16).codes = priority_state.codes ++ [(3, 5)] := by decide

set_option maxRecDepth 100000 in
theorem reached_19_aa_emits :
    (agon_compress_byte (reached (List.replicate 19 0xAA)) 0xAA).codes =
      (reached (List.replicate 19 0xAA)).codes ++ [(1, 0)] := by decide

set_option maxRecDepth 100000 in
/-- Counterexample to C12 as stated: after 20 bytes of 0xAA the lookahead holds 12
bytes and the window 4 (the 4 bytes covered by the back-reference are in neither), so
`string_size + window_size` is 16, not 20. -/
theorem accounting_20_aa :
    (reached (List.replicate 20 0xAA)).string_size = 12 ∧
    (reached (List.replicate 20 0xAA)).window_size = 4 ∧
    (reached (List.replicate 20 0xAA)).string_size +
      (reached (List.replicate 20 0xAA)).window_size ≠ (List.replicate 20 (0xAA : Byte)).length := by
  decide

/-! ## Bit-level lemmas -/

theorem toByte_val (n : Nat) : (toByte n).val = n % 256 := rfl

theorem toByte_of_lt {n : Nat} (h : n < 256) : (toByte n).val = n := by
  simp [toByte, Nat.mod_eq_of_lt h]

theorem toByte_self (b : Byte) : toByte b.val = b := by
  apply Fin.ext
  simp [toByte, Nat.mod_eq_of_lt b.isLt]

theorem shift_or_bit (v : Nat) (b : Bool) :
    (v <<< 1) ||| (if b then 1 else 0) = 2 * v + (if b then 1 else 0) := by
  have h : v <<< 1 = 2 ^ 1 * v := by simp [Nat.shiftLeft_eq, Nat.mul_comm]
  have hb : (if b then 1 else 0) < 2 ^ 1 := by cases b <;> simp
  rw [h, ← Nat.mul_add_lt_is_or hb v]

theorem low_bits_length (n v : Nat) : (low_bits n v).length = n := by
  induction n generalizing v with
  | zero => rfl
  | succ k ih => simp [low_bits, ih]

theorem low_bits_push (n v : Nat) (b : Bool) :
    low_bits (n + 1) (2 * v + (if b then 1 else 0)) = low_bits n v ++ [b] := by
  have h1 : (2 * v + (if b then 1 else 0)) / 2 = v := by
    cases b
    · simp
    · simp; omega
  have h2 : decide ((2 * v + (if b then 1 else 0)) % 2 = 1) = b := by
    cases b
    · simp
    · simp; omega
  simp only [low_bits, h1, h2]

theorem bit_byte_val (b : Bool) : (bit_byte b).val = if b then 1 else 0 := by
  cases b <;> rfl

theorem bits_of_bytes_append (xs ys : List Byte) :
    bits_of_bytes (xs ++ ys) = bits_of_bytes xs ++ bits_of_bytes ys := by
  induction xs with
  | nil => rfl
  | cons x xs ih => simp [bits_of_bytes, ih]

theorem bits_of_bytes_length (xs : List Byte) : (bits_of_bytes xs).length = 8 * xs.length := by
  induction xs with
  | nil => rfl
  | cons x xs ih => simp [bits_of_bytes, byte_bits, low_bits_length, ih]; omega

theorem codes_bits_append (xs ys : List (Nat × Byte)) :
    codes_bits (xs ++ ys) = codes_bits xs ++ codes_bits ys := by
  induction xs with
  | nil => rfl
  | cons x xs ih => simp [codes_bits, ih]

theorem codes_bits_length (xs : List (Nat × Byte)) :
    (codes_bits xs).length = 10 * xs.length := by
  induction xs with
  | nil => rfl
  | cons x xs ih =>
    simp [codes_bits, code_word_bits, byte_bits, low_bits_length, ih]; omega

set_option maxRecDepth 100000 in
theorem loop_bits_eight : ∀ c : Byte, loop_bits 8 c = byte_bits c := by decide

/-! ## The encoder's bit packer -/

/-- What `agon_write_compressed_bit` does to a packer with `n < 8` pending bits. -/
theorem write_bit_eq (cd : CompressionData) (b : Bool) (h : PackerOk cd) :
    agon_write_compressed_bit cd (bit_byte b) =
      if cd.out_bits + 1 = 8 then
        { cd with
          written := cd.written ++ [toByte (2 * cd.out_byte.val + (if b then 1 else 0))]
          out_byte := 0
          out_bits := 0
          output_count := (cd.output_count + 1) % 2 ^ 32 }
      else
        { cd with
          out_byte := toByte (2 * cd.out_byte.val + (if b then 1 else 0))
          out_bits := cd.out_bits + 1 } := by
  obtain ⟨h1, h2⟩ := h
  have hm : (cd.out_bits + 1) % 256 = cd.out_bits + 1 := Nat.mod_eq_of_lt (by omega)
  unfold agon_write_compressed_bit
  simp only [bit_byte_val, shift_or_bit, hm]
  by_cases h8 : cd.out_bits + 1 = 8
  · simp [h8]
  · have : ¬ (cd.out_bits + 1 ≥ 8) := by omega
    simp [h8, this]

theorem write_bit_ok (cd : CompressionData) (b : Bool) (h : PackerOk cd) :
    PackerOk (agon_write_compressed_bit cd (bit_byte b)) := by
  rw [write_bit_eq cd b h]
  obtain ⟨h1, h2⟩ := h
  by_cases h8 : cd.out_bits + 1 = 8
  · simp [h8, PackerOk]
  · simp only [h8, if_false, PackerOk]
    have hlt : 2 * cd.out_byte.val + (if b then 1 else 0) < 2 ^ (cd.out_bits + 1) := by
      rw [Nat.pow_succ]; cases b <;> simp <;> omega
    have hle : 2 ^ (cd.out_bits + 1) ≤ 2 ^ 7 := Nat.pow_le_pow_right (by decide) (by omega)
    refine ⟨by omega, ?_⟩
    rw [toByte_of_lt (by omega)]
    exact hlt

theorem write_bit_stream (cd : CompressionData) (b : Bool) (h : PackerOk cd) :
    stream (agon_write_compressed_bit cd (bit_byte b)) = stream cd ++ [b] := by
  rw [write_bit_eq cd b h]
  obtain ⟨h1, h2⟩ := h
  have hlt : 2 * cd.out_byte.val + (if b then 1 else 0) < 2 ^ (cd.out_bits + 1) := by
    rw [Nat.pow_succ]; cases b <;> simp <;> omega
  have hle : 2 ^ (cd.out_bits + 1) ≤ 2 ^ 8 := Nat.pow_le_pow_right (by decide) (by omega)
  have hv : (toByte (2 * cd.out_byte.val + (if b then 1 else 0))).val =
      2 * cd.out_byte.val + (if b then 1 else 0) := toByte_of_lt (by omega)
  by_cases h8 : cd.out_bits + 1 = 8
  · have h7 : cd.out_bits = 7 := by omega
    simp only [h8, if_true, stream, bits_of_bytes_append, bits_of_bytes, byte_bits, hv]
    rw [low_bits_push 7 _ b, h7]
    simp [low_bits]
  · simp only [h8, if_false, stream, hv]
    rw [low_bits_push, List.append_assoc]

/-- The bit writer leaves every field outside the packer as it is. -/
theorem write_bit_frame (cd : CompressionData) (b : Byte) :
    (agon_write_compressed_bit cd b).window_size = cd.window_size ∧
    (agon_write_compressed_bit cd b).window_write_index = cd.window_write_index ∧
    (agon_write_compressed_bit cd b).string_size = cd.string_size ∧
    (agon_write_compressed_bit cd b).string_read_index = cd.string_read_index ∧
    (agon_write_compressed_bit cd b).string_write_index = cd.string_write_index ∧
    (agon_write_compressed_bit cd b).input_count = cd.input_count ∧
    (agon_write_compressed_bit cd b).window_data = cd.window_data ∧
    (agon_write_compressed_bit cd b).string_data = cd.string_data ∧
    (agon_write_compressed_bit cd b).codes = cd.codes := by
  unfold agon_write_compressed_bit
  by_cases h : (cd.out_bits + 1) % 256 ≥ 8 <;> simp [h]

theorem write_byte_loop_frame (n : Nat) (cd : CompressionData) (c : Byte) :
    (write_byte_loop n cd c).window_size = cd.window_size ∧
    (write_byte_loop n cd c).window_write_index = cd.window_write_index ∧
    (write_byte_loop n cd c).string_size = cd.string_size ∧
    (write_byte_loop n cd c).string_read_index = cd.string_read_index ∧
    (write_byte_loop n cd c).string_write_index = cd.string_write_index ∧
    (write_byte_loop n cd c).input_count = cd.input_count ∧
    (write_byte_loop n cd c).window_data = cd.window_data ∧
    (write_byte_loop n cd c).string_data = cd.string_data ∧
    (write_byte_loop n cd c).codes = cd.codes := by
  induction n generalizing cd c with
  | zero => simp [write_byte_loop]
  | succ k ih =>
    simp only [write_byte_loop]
    obtain ⟨h1, h2, h3, h4, h5, h6, h7, h8, h9⟩ := ih (agon_write_compressed_bit cd
      (if c.val &&& 0x80 ≠ 0 then 1 else 0)) (toByte (c.val <<< 1))
    obtain ⟨g1, g2, g3, g4, g5, g6, g7, g8, g9⟩ := write_bit_frame cd
      (if c.val &&& 0x80 ≠ 0 then 1 else 0)
    exact ⟨h1.trans g1, h2.trans g2, h3.trans g3, h4.trans g4, h5.trans g5, h6.trans g6,
      h7.trans g7, h8.trans g8, h9.trans g9⟩

/-- Writing a code word leaves every field outside the packer as it is and logs the
code word. -/
theorem emit_code_frame (cd : CompressionData) (b1 b0 v : Byte) :
    (emit_code cd b1 b0 v).window_size = cd.window_size ∧
    (emit_code cd b1 b0 v).window_write_index = cd.window_write_index ∧
    (emit_code cd b1 b0 v).string_size = cd.string_size ∧
    (emit_code cd b1 b0 v).string_read_index = cd.string_read_index ∧
    (emit_code cd b1 b0 v).string_write_index = cd.string_write_index ∧
    (emit_code cd b1 b0 v).input_count = cd.input_count ∧
    (emit_code cd b1 b0 v).window_data = cd.window_data ∧
    (emit_code cd b1 b0 v).string_data = cd.string_data ∧
    (emit_code cd b1 b0 v).codes = cd.codes ++ [(2 * b1.val + b0.val, v)] := by
  unfold emit_code agon_write_compressed_byte
  obtain ⟨h1, h2, h3, h4, h5, h6, h7, h8, h9⟩ := write_byte_loop_frame 8
    (agon_write_compressed_bit (agon_write_compressed_bit cd b1) b0) v
  obtain ⟨g1, g2, g3, g4, g5, g6, g7, g8, g9⟩ := write_bit_frame
    (agon_write_compressed_bit cd b1) b0
  obtain ⟨f1, f2, f3, f4, f5, f6, f7, f8, f9⟩ := write_bit_frame cd b1
  simp only []
  exact ⟨h1.trans (g1.trans f1), h2.trans (g2.trans f2), h3.trans (g3.trans f3),
    h4.trans (g4.trans f4), h5.trans (g5.trans f5), h6.trans (g6.trans f6),
    h7.trans (g7.trans f7), h8.trans (g8.trans f8), by rw [h9, g9, f9]⟩

theorem bit_byte_of_msb (c : Byte) :
    (if c.val &&& 0x80 ≠ 0 then (1 : Byte) else 0) = bit_byte (decide (c.val &&& 0x80 ≠ 0)) := by
  by_cases h : c.val &&& 0x80 ≠ 0 <;> simp [h, bit_byte]

theorem write_byte_loop_stream (n : Nat) (cd : CompressionData) (c : Byte) (h : PackerOk cd) :
    PackerOk (write_byte_loop n cd c) ∧
    stream (write_byte_loop n cd c) = stream cd ++ loop_bits n c := by
  induction n generalizing cd c with
  | zero => simp [write_byte_loop, loop_bits, h]
  | succ k ih =>
    simp only [write_byte_loop, loop_bits, bit_byte_of_msb]
    have hk := ih (agon_write_compressed_bit cd (bit_byte (decide (c.val &&& 0x80 ≠ 0))))
      (toByte (c.val <<< 1)) (write_bit_ok cd _ h)
    refine ⟨hk.1, ?_⟩
    rw [hk.2, write_bit_stream cd _ h]
    simp

theorem byte_one_zero (b : Byte) (h : b.val ≤ 1) : b = bit_byte (decide (b.val = 1)) := by
  apply Fin.ext
  rw [bit_byte_val]
  by_cases h1 : b.val = 1
  · simp [h1]
  · simp [h1]; omega

theorem emit_code_eq (cd : CompressionData) (b1 b0 v : Byte) :
    emit_code cd b1 b0 v =
      { agon_write_compressed_byte (agon_write_compressed_bit (agon_write_compressed_bit cd b1) b0) v
        with codes := (agon_write_compressed_byte
          (agon_write_compressed_bit (agon_write_compressed_bit cd b1) b0) v).codes ++
            [(2 * b1.val + b0.val, v)] } := by
  unfold emit_code
  rfl

theorem stream_with_codes (cd : CompressionData) (cs : List (Nat × Byte)) :
    stream { cd with codes := cs } = stream cd := rfl

theorem packerOk_with_codes (cd : CompressionData) (cs : List (Nat × Byte)) :
    PackerOk { cd with codes := cs } ↔ PackerOk cd := Iff.rfl

theorem emit_code_packer (cd : CompressionData) (b1 b0 v : Byte) :
    stream (emit_code cd b1 b0 v) =
      stream (write_byte_loop 8 (agon_write_compressed_bit (agon_write_compressed_bit cd b1) b0) v) ∧
    (PackerOk (emit_code cd b1 b0 v) ↔
      PackerOk (write_byte_loop 8
        (agon_write_compressed_bit (agon_write_compressed_bit cd b1) b0) v)) := by
  rw [emit_code_eq, stream_with_codes, packerOk_with_codes]
  unfold agon_write_compressed_byte
  exact ⟨rfl, Iff.rfl⟩

theorem emit_code_stream_bool (cd : CompressionData) (c1 c0 : Bool) (v : Byte)
    (h : PackerOk cd) :
    PackerOk (emit_code cd (bit_byte c1) (bit_byte c0) v) ∧
    stream (emit_code cd (bit_byte c1) (bit_byte c0) v) =
      stream cd ++ code_word_bits (2 * (bit_byte c1).val + (bit_byte c0).val, v) := by
  have ok1 := write_bit_ok cd c1 h
  have ok0 := write_bit_ok _ c0 ok1
  have hl := write_byte_loop_stream 8 _ v ok0
  have hbits : low_bits 2 (2 * (bit_byte c1).val + (bit_byte c0).val) = [c1, c0] := by
    cases c1 <;> cases c0 <;> rfl
  obtain ⟨hs, hp⟩ := emit_code_packer cd (bit_byte c1) (bit_byte c0) v
  refine ⟨hp.2 hl.1, ?_⟩
  rw [hs, hl.2, write_bit_stream _ _ ok1, write_bit_stream _ _ h, loop_bits_eight,
    code_word_bits, hbits]
  simp

/-- Writing a code word appends its 10 bits to the packer's bit stream. -/
theorem emit_code_stream (cd : CompressionData) (b1 b0 v : Byte) (h1 : b1.val ≤ 1)
    (h0 : b0.val ≤ 1) (h : PackerOk cd) :
    PackerOk (emit_code cd b1 b0 v) ∧
    stream (emit_code cd b1 b0 v) = stream cd ++ code_word_bits (2 * b1.val + b0.val, v) := by
  rw [byte_one_zero b1 h1, byte_one_zero b0 h0]
  exact emit_code_stream_bool cd _ _ v h

theorem write_bit_count (cd : CompressionData) (b : Byte)
    (h : cd.output_count = cd.written.length % 2 ^ 32) :
    (agon_write_compressed_bit cd b).output_count =
      (agon_write_compressed_bit cd b).written.length % 2 ^ 32 := by
  unfold agon_write_compressed_bit
  by_cases h8 : (cd.out_bits + 1) % 256 ≥ 8
  · simp only [h8, if_true, List.length_append, List.length_singleton, h]
    omega
  · simp only [h8, if_false, h]

theorem write_byte_loop_count (n : Nat) (cd : CompressionData) (c : Byte)
    (h : cd.output_count = cd.written.length % 2 ^ 32) :
    (write_byte_loop n cd c).output_count = (write_byte_loop n cd c).written.length % 2 ^ 32 := by
  induction n generalizing cd c with
  | zero => exact h
  | succ k ih => exact ih _ _ (write_bit_count cd _ h)

theorem emit_code_count (cd : CompressionData) (b1 b0 v : Byte)
    (h : cd.output_count = cd.written.length % 2 ^ 32) :
    (emit_code cd b1 b0 v).output_count = (emit_code cd b1 b0 v).written.length % 2 ^ 32 := by
  have h8 := write_byte_loop_count 8 _ v (write_bit_count _ b0 (write_bit_count cd b1 h))
  rw [emit_code_eq]
  unfold agon_write_compressed_byte
  generalize write_byte_loop 8 (agon_write_compressed_bit (agon_write_compressed_bit cd b1) b0) v
    = X at h8 ⊢
  exact h8

attribute [irreducible] emit_code

/-! ## The decoder's code accumulator -/

theorem feed_bits_append (dd : DecompressionData) (xs ys : List Bool) :
    feed_bits dd (xs ++ ys) = feed_bits (feed_bits dd xs) ys := by
  simp [feed_bits, List.foldl_append]

theorem decompress_loop_eq (n : Nat) (dd : DecompressionData) (c : Byte) :
    decompress_loop n dd c = feed_bits dd (loop_bits n c) := by
  induction n generalizing dd c with
  | zero => rfl
  | succ k ih =>
    simp only [decompress_loop, loop_bits, ih, feed_bits, List.foldl_cons]
    congr 2
    by_cases h : c.val &&& 0x80 ≠ 0 <;> simp [h]

/-- One compressed byte is its 8 bits, most significant first, given to the loop body. -/
theorem decompress_byte_eq (dd : DecompressionData) (c : Byte) :
    agon_decompress_byte dd c = feed_bits dd (byte_bits c) := by
  rw [agon_decompress_byte, decompress_loop_eq, loop_bits_eight]

theorem decompress_bytes_eq (dd : DecompressionData) (Y : List Byte) :
    decompress_bytes dd Y = feed_bits dd (bits_of_bytes Y) := by
  induction Y generalizing dd with
  | nil => rfl
  | cons y ys ih =>
    simp only [decompress_bytes, List.foldl_cons, bits_of_bytes, feed_bits_append]
    rw [← decompress_byte_eq]
    exact ih _

/-- Below 10 accumulated bits a bit is only shifted into `code`. -/
theorem decompress_bit_lt (dd : DecompressionData) (b : Nat) (h : dd.code_bits + 1 < 10) :
    agon_decompress_bit dd b =
      { dd with code := ((dd.code <<< 1) ||| b) % 65536, code_bits := dd.code_bits + 1 } := by
  have hm : (dd.code_bits + 1) % 256 = dd.code_bits + 1 := Nat.mod_eq_of_lt (by omega)
  unfold agon_decompress_bit
  have : ¬ (dd.code_bits + 1 ≥ 10) := by omega
  simp [hm, this]

/-- The 10th bit triggers the interpretation of the code. -/
theorem decompress_bit_tenth (dd : DecompressionData) (b : Nat) (h : dd.code_bits = 9) :
    agon_decompress_bit dd b =
      interpret_code { dd with code := ((dd.code <<< 1) ||| b) % 65536, code_bits := 10 } := by
  unfold agon_decompress_bit
  simp [h]

theorem feed_bits_lt (bs : List Bool) (dd : DecompressionData)
    (h : dd.code_bits + bs.length < 10) :
    feed_bits dd bs =
      { dd with code := accum dd.code bs, code_bits := dd.code_bits + bs.length } := by
  induction bs generalizing dd with
  | nil => rfl
  | cons b bs ih =>
    simp only [List.length_cons] at h
    have hstep : feed_bits dd (b :: bs) =
        feed_bits (agon_decompress_bit dd (if b then 1 else 0)) bs := rfl
    rw [hstep, decompress_bit_lt dd _ (by omega), ih _ (by simp; omega)]
    simp only [accum, List.foldl_cons, List.length_cons]
    congr 1
    omega

/-- Ten bits given to an empty accumulator are interpreted as one code. -/
theorem feed_bits_ten (bs : List Bool) (dd : DecompressionData) (h0 : dd.code_bits = 0)
    (h : bs.length = 10) :
    feed_bits dd bs = interpret_code { dd with code := accum dd.code bs } := by
  have hne : bs ≠ [] := by intro e; simp [e] at h
  have hlen : bs.dropLast.length = 9 := by simp [h]
  rw [← List.dropLast_append_getLast hne, feed_bits_append,
    feed_bits_lt _ dd (by omega)]
  have hstep : ∀ (d : DecompressionData) (b : Bool),
      feed_bits d [b] = agon_decompress_bit d (if b then 1 else 0) := fun _ _ => rfl
  rw [hstep, decompress_bit_tenth _ _ (by simp [h0, hlen])]
  simp only [accum, List.foldl_append, List.foldl_cons, List.foldl_nil]
  rfl

theorem accum_snoc (a : Nat) (l : List Bool) (b : Bool) :
    accum a (l ++ [b]) = ((accum a l <<< 1) ||| (if b then 1 else 0)) % 65536 := by
  simp [accum, List.foldl_append]

/-- The accumulator shifts in the `n` low bits of `v` while the result fits 16 bits. -/
theorem accum_low_bits (n : Nat) : ∀ a v : Nat, v < 2 ^ n → a * 2 ^ n + v < 65536 →
    accum a (low_bits n v) = a * 2 ^ n + v := by
  induction n with
  | zero =>
    intro a v hv _
    have : v = 0 := by simpa using hv
    subst this
    simp [low_bits, accum]
  | succ k ih =>
    intro a v hv hb
    have h2 : 2 * (v / 2) + v % 2 = v := Nat.div_add_mod v 2
    have hv2 : v / 2 < 2 ^ k := by
      rw [Nat.pow_succ] at hv
      omega
    have hp : a * 2 ^ (k + 1) = 2 * (a * 2 ^ k) := by rw [Nat.pow_succ]; ring
    have hb2 : a * 2 ^ k + v / 2 < 65536 := by omega
    have hbit : (if decide (v % 2 = 1) = true then 1 else 0) = v % 2 := by
      rcases Nat.mod_two_eq_zero_or_one v with h | h <;> simp [h]
    rw [low_bits, accum_snoc, ih a (v / 2) hv2 hb2, shift_or_bit, hbit, Nat.mod_eq_of_lt (by omega)]
    omega

theorem accum_code_word : ∀ (t : Fin 4) (v : Byte),
    accum 0 (code_word_bits (t.val, v)) = t.val * 256 + v.val := by
  intro t v
  have ht := t.isLt
  have hv := v.isLt
  have h1 : accum 0 (low_bits 2 t.val) = t.val := by
    simpa using accum_low_bits 2 0 t.val (by omega) (by omega)
  have h2 := accum_low_bits 8 t.val v.val (by omega) (by omega)
  have h3 : accum 0 (low_bits 2 t.val ++ low_bits 8 v.val) =
      accum (accum 0 (low_bits 2 t.val)) (low_bits 8 v.val) := by
    simp [accum, List.foldl_append]
  rw [code_word_bits, byte_bits, h3, h1, h2]
  norm_num

theorem code_word_bits_length (c : Nat × Byte) : (code_word_bits c).length = 10 := by
  simp [code_word_bits, byte_bits, low_bits_length]

/-- The 10 bits of a code word, given to an empty accumulator, dispatch that code
word. -/
theorem feed_code_word (dd : DecompressionData) (c : Nat × Byte) (h0 : dd.code_bits = 0)
    (hc : dd.code = 0) (ht : c.1 < 4) :
    feed_bits dd (code_word_bits c) = dispatch_code dd c := by
  rw [feed_bits_ten _ dd h0 (code_word_bits_length c), hc]
  have := accum_code_word ⟨c.1, ht⟩ c.2
  simp only at this
  rw [this]
  rfl

/-! ## The decoder's dispatch -/

/-- The copy loop sinks the slice of the window it reads and counts each byte. -/
theorem extract_string_eq (n wi : Nat) (dd : DecompressionData) :
    extract_string (n + 1) wi dd =
      { dd with
        written := dd.written ++ slice dd.window_data COMPRESSION_WINDOW_SIZE wi (n + 1)
        output_count := (dd.output_count + (n + 1)) % 2 ^ 32 } := by
  induction n generalizing wi dd with
  | zero => simp [extract_string, slice]
  | succ k ih =>
    rw [extract_string, ih]
    simp only [slice, List.append_assoc, List.singleton_append, Nat.reducePow, Nat.mod_add_mod,
      DecompressionData.mk.injEq, true_and, and_true]
    omega

theorem dispatch_literal (dd : DecompressionData) (v : Byte) :
    dispatch_code dd (0, v) =
      { dd with
        code := 0
        code_bits := 0
        dispatched := dd.dispatched ++ [(0, v)]
        window_data := store dd.window_data dd.window_write_index v
        window_write_index := (dd.window_write_index + 1) % COMPRESSION_WINDOW_SIZE
        window_size := if dd.window_size < COMPRESSION_WINDOW_SIZE then dd.window_size + 1
          else dd.window_size
        written := dd.written ++ [v]
        output_count := (dd.output_count + 1) % 2 ^ 32 } := by
  have h1 : (0 * 256 + v.val) >>> 8 = 0 := by
    rw [Nat.shiftRight_eq_div_pow]; have := v.isLt; omega
  have h2 : toByte (0 * 256 + v.val) = v := by simpa using toByte_self v
  unfold dispatch_code interpret_code
  simp only [h1, h2]
  by_cases h : dd.window_size < COMPRESSION_WINDOW_SIZE <;> simp [h]

theorem dispatch_copy (dd : DecompressionData) (t : Nat) (v : Byte) (h1 : 1 ≤ t) (h3 : t ≤ 3) :
    dispatch_code dd (t, v) =
      { dd with
        code := 0
        code_bits := 0
        dispatched := dd.dispatched ++ [(t, v)]
        written := dd.written ++ slice dd.window_data COMPRESSION_WINDOW_SIZE v.val (code_length t)
        output_count := (dd.output_count + code_length t) % 2 ^ 32 } := by
  have hv := v.isLt
  have e2 : toByte (t * 256 + v.val) = v := by
    apply Fin.ext; rw [toByte_val]; omega
  have e1 : (t * 256 + v.val) >>> 8 = t := by
    rw [Nat.shiftRight_eq_div_pow]; omega
  unfold dispatch_code interpret_code
  simp only [e1, e2]
  have : t = 1 ∨ t = 2 ∨ t = 3 := by omega
  rcases this with rfl | rfl | rfl <;> simp [extract_string_eq, code_length]

/-! ## Slices of the circular arrays -/

theorem slice_length (a : Nat → Byte) (m i n : Nat) : (slice a m i n).length = n := by
  induction n generalizing i with
  | zero => rfl
  | succ k ih => simp [slice, ih]

theorem slice_getElem (a : Nat → Byte) (m i n k : Nat) (hi : i < m) (hk : k < n) :
    (slice a m i n)[k]?  = some (a ((i + k) % m)) := by
  induction n generalizing i k with
  | zero => omega
  | succ n ih =>
    cases k with
    | zero => simp [slice, Nat.mod_eq_of_lt hi]
    | succ j =>
      have hm : 0 < m := by omega
      simp only [slice, List.getElem?_cons_succ]
      rw [ih ((i + 1) % m) j (Nat.mod_lt _ hm) (by omega)]
      congr 2
      rw [Nat.mod_add_mod]
      congr 1
      omega

theorem slice_ext (a b : Nat → Byte) (m i j n : Nat) (hi : i < m) (hj : j < m)
    (h : ∀ k, k < n → a ((i + k) % m) = b ((j + k) % m)) :
    slice a m i n = slice b m j n := by
  apply List.ext_getElem?
  intro k
  by_cases hk : k < n
  · rw [slice_getElem a m i n k hi hk, slice_getElem b m j n k hj hk, h k hk]
  · rw [List.getElem?_eq_none (by rw [slice_length]; omega),
      List.getElem?_eq_none (by rw [slice_length]; omega)]

theorem slice_eq_iff (a : Nat → Byte) (m : Nat) (b : Nat → Byte) (m2 i j n : Nat) (hi : i < m)
    (hj : j < m2) :
    slice a m i n = slice b m2 j n ↔ ∀ k, k < n → a ((i + k) % m) = b ((j + k) % m2) := by
  constructor
  · intro h k hk
    have h1 := slice_getElem a m i n k hi hk
    have h2 := slice_getElem b m2 j n k hj hk
    rw [h] at h1
    rw [h1] at h2
    exact Option.some.inj h2
  · intro h
    apply List.ext_getElem?
    intro k
    by_cases hk : k < n
    · rw [slice_getElem a m i n k hi hk, slice_getElem b m2 j n k hj hk, h k hk]
    · rw [List.getElem?_eq_none (by rw [slice_length]; omega),
        List.getElem?_eq_none (by rw [slice_length]; omega)]

theorem slice_append (a : Nat → Byte) (m i p q : Nat) (hi : i < m) :
    slice a m i (p + q) = slice a m i p ++ slice a m ((i + p) % m) q := by
  induction p generalizing i with
  | zero => simp [slice, Nat.mod_eq_of_lt hi]
  | succ p ih =>
    have hm : 0 < m := by omega
    have e : p + 1 + q = (p + q) + 1 := by omega
    rw [e]
    simp only [slice, List.cons_append]
    rw [ih ((i + 1) % m) (Nat.mod_lt _ hm)]
    congr 3
    rw [Nat.mod_add_mod]
    congr 1
    omega

/-! ## The match search -/

/-- The comparison loop succeeds exactly when the two slices it reads are equal. -/
theorem string_matches_iff (cd : CompressionData) (n wi si : Nat) :
    string_matches cd n wi si = true ↔
      slice cd.window_data COMPRESSION_WINDOW_SIZE wi n =
        slice cd.string_data COMPRESSION_STRING_SIZE si n := by
  induction n generalizing wi si with
  | zero => simp [string_matches, slice]
  | succ k ih =>
    simp only [string_matches, slice, List.cons.injEq]
    by_cases h : cd.window_data wi = cd.string_data si
    · simp [h, ih]
    · simp [h]

/-- With the run inside the array, the comparison loop decides `MatchAt`. -/
theorem string_matches_matchAt (cd : CompressionData) (len s : Nat) (hs : s + len ≤ 256)
    (hr : cd.string_read_index < 16) :
    string_matches cd len s cd.string_read_index = true ↔ MatchAt cd len s := by
  by_cases hl : len = 0
  · subst hl
    simp [string_matches, MatchAt]
  · rw [string_matches_iff]
    unfold COMPRESSION_WINDOW_SIZE COMPRESSION_STRING_SIZE
    rw [slice_eq_iff _ _ _ _ _ _ _ (by show s < 256; omega) hr]
    unfold MatchAt
    constructor
    · intro h i hi
      have := h i hi
      rwa [Nat.mod_eq_of_lt (by omega)] at this
    · intro h i hi
      rw [Nat.mod_eq_of_lt (by omega)]
      exact h i hi

theorem search_from_some (cd : CompressionData) (len n start s : Nat) :
    search_from cd len n start = some s ↔
      start ≤ s ∧ s < start + n ∧ string_matches cd len s cd.string_read_index = true ∧
      ∀ s', start ≤ s' → s' < s → string_matches cd len s' cd.string_read_index = false := by
  induction n generalizing start with
  | zero => simp [search_from]; omega
  | succ k ih =>
    simp only [search_from]
    by_cases hm : string_matches cd len start cd.string_read_index = true
    · simp only [hm, if_true, Option.some.injEq]
      constructor
      · intro e
        subst e
        exact ⟨le_refl _, by omega, hm, fun s' h1 h2 => by omega⟩
      · rintro ⟨h1, _, _, h4⟩
        by_contra hne
        have := h4 start (le_refl _) (by omega)
        rw [hm] at this
        exact Bool.noConfusion this
    · have hf : string_matches cd len start cd.string_read_index = false := by
        simpa using hm
      simp only [hf, Bool.false_eq_true, if_false]
      rw [ih (start + 1)]
      constructor
      · rintro ⟨h1, h2, h3, h4⟩
        refine ⟨by omega, by omega, h3, fun s' a b => ?_⟩
        by_cases e : s' = start
        · rw [e]; exact hf
        · exact h4 s' (by omega) b
      · rintro ⟨h1, h2, h3, h4⟩
        have hne : s ≠ start := by
          intro e; rw [e] at h3; exact hm h3
        exact ⟨by omega, by omega, h3, fun s' a b => h4 s' (by omega) b⟩

theorem search_from_none (cd : CompressionData) (len n start : Nat) :
    search_from cd len n start = none ↔
      ∀ s, start ≤ s → s < start + n → string_matches cd len s cd.string_read_index = false := by
  induction n generalizing start with
  | zero => simp [search_from]; intro s h1 h2; omega
  | succ k ih =>
    simp only [search_from]
    by_cases hm : string_matches cd len start cd.string_read_index = true
    · simp only [hm, if_true]
      constructor
      · intro h; exact Option.noConfusion h
      · intro h
        have := h start (le_refl _) (by omega)
        rw [hm] at this
        exact Bool.noConfusion this
    · have hf : string_matches cd len start cd.string_read_index = false := by
        simpa using hm
      simp only [hf, Bool.false_eq_true, if_false]
      rw [ih (start + 1)]
      constructor
      · intro h s a b
        by_cases e : s = start
        · rw [e]; exact hf
        · exact h s (by omega) (by omega)
      · intro h s a b
        exact h s (by omega) (by omega)

/-- The search returns the smallest start whose run matches, if it returns one. -/
theorem find_match_some (cd : CompressionData) (len s : Nat) (hw : cd.window_size ≤ 256)
    (hr : cd.string_read_index < 16) :
    find_match cd len = some s ↔
      s + len ≤ cd.window_size ∧ MatchAt cd len s ∧
      ∀ s', s' < s → ¬ MatchAt cd len s' := by
  unfold find_match
  by_cases hl : cd.window_size ≥ len
  · simp only [hl, if_true]
    rw [search_from_some]
    constructor
    · rintro ⟨_, h2, h3, h4⟩
      refine ⟨by omega, (string_matches_matchAt cd len s (by omega) hr).1 h3, fun s' hs' hm => ?_⟩
      have := h4 s' (Nat.zero_le _) hs'
      rw [(string_matches_matchAt cd len s' (by omega) hr).2 hm] at this
      exact Bool.noConfusion this
    · rintro ⟨h1, h2, h3⟩
      refine ⟨Nat.zero_le _, by omega, (string_matches_matchAt cd len s (by omega) hr).2 h2,
        fun s' _ hs' => ?_⟩
      have := h3 s' hs'
      rw [← string_matches_matchAt cd len s' (by omega) hr] at this
      simpa using this
  · simp only [hl, if_false]
    constructor
    · intro h; exact Option.noConfusion h
    · rintro ⟨h1, _, _⟩
      omega

/-- The search fails exactly when no start in range has a matching run. -/
theorem find_match_none (cd : CompressionData) (len : Nat) (hw : cd.window_size ≤ 256)
    (hr : cd.string_read_index < 16) :
    find_match cd len = none ↔ ∀ s, s + len ≤ cd.window_size → ¬ MatchAt cd len s := by
  unfold find_match
  by_cases hl : cd.window_size ≥ len
  · simp only [hl, if_true]
    rw [search_from_none]
    constructor
    · intro h s hs hm
      have := h s (Nat.zero_le _) (by omega)
      rw [(string_matches_matchAt cd len s (by omega) hr).2 hm] at this
      exact Bool.noConfusion this
    · intro h s _ hs
      have := h s (by omega)
      rw [← string_matches_matchAt cd len s (by omega) hr] at this
      simpa using this
  · simp only [hl, if_false, true_iff]
    intro s hs
    omega

/-! ## The packer invariant along the encoder -/

theorem packInv_of_view (cd cd' : CompressionData) (h : packer_view cd' = packer_view cd)
    (hi : PackInv cd) : PackInv cd' := by
  simp only [packer_view, Prod.mk.injEq] at h
  obtain ⟨h1, h2, h3, h4, h5⟩ := h
  unfold PackInv PackerOk stream at *
  rw [h1, h2, h3, h4, h5]
  exact hi

/-- Writing a code word with two proper tag bits keeps the packer invariant. -/
theorem emit_code_packInv (cd : CompressionData) (b1 b0 v : Byte) (h1 : b1.val ≤ 1)
    (h0 : b0.val ≤ 1) (h : PackInv cd) : PackInv (emit_code cd b1 b0 v) := by
  obtain ⟨hok, hs, ht, hc⟩ := h
  obtain ⟨hok', hs'⟩ := emit_code_stream cd b1 b0 v h1 h0 hok
  refine ⟨hok', ?_, ?_, emit_code_count cd b1 b0 v hc⟩
  · rw [hs', (emit_code_frame cd b1 b0 v).2.2.2.2.2.2.2.2, codes_bits_append, hs]
    simp [codes_bits]
  · rw [(emit_code_frame cd b1 b0 v).2.2.2.2.2.2.2.2]
    intro c hcmem
    rcases List.mem_append.1 hcmem with hm | hm
    · exact ht c hm
    · simp only [List.mem_singleton] at hm
      rw [hm]
      show 2 * b1.val + b0.val < 4
      omega

theorem push_string_view (cd : CompressionData) (b : Byte) :
    packer_view (push_string cd b) = packer_view cd := by
  unfold push_string
  simp only []
  split <;> rfl

theorem packer_view_with (cd : CompressionData) (a b : Nat) :
    packer_view { cd with string_size := a, string_read_index := b } = packer_view cd := rfl

theorem emit_literal_eq (cd : CompressionData) :
    emit_literal cd =
      { emit_code cd 0 0 (cd.string_data cd.string_read_index) with
        string_size := (emit_code cd 0 0 (cd.string_data cd.string_read_index)).string_size - 1
        string_read_index :=
          ((emit_code cd 0 0 (cd.string_data cd.string_read_index)).string_read_index + 1) % 16
        window_data := store (emit_code cd 0 0 (cd.string_data cd.string_read_index)).window_data
          (emit_code cd 0 0 (cd.string_data cd.string_read_index)).window_write_index
          (cd.string_data cd.string_read_index)
        window_write_index :=
          ((emit_code cd 0 0 (cd.string_data cd.string_read_index)).window_write_index + 1) % 256
        window_size :=
          if (emit_code cd 0 0 (cd.string_data cd.string_read_index)).window_size < 256 then
            (emit_code cd 0 0 (cd.string_data cd.string_read_index)).window_size + 1
          else (emit_code cd 0 0 (cd.string_data cd.string_read_index)).window_size } := by
  unfold emit_literal COMPRESSION_WINDOW_SIZE COMPRESSION_STRING_SIZE
  simp only []
  generalize emit_code cd 0 0 (cd.string_data cd.string_read_index) = X
  split <;> simp [*]

theorem packer_view_with_window (cd : CompressionData) (a b c d : Nat) (w : Nat → Byte) :
    packer_view { cd with
      string_size := a
      string_read_index := b
      window_data := w
      window_write_index := c
      window_size := d } = packer_view cd := rfl

/-- A decision either writes nothing or writes exactly one code word. -/
theorem decide_code_view (cd : CompressionData) :
    (cd.string_size < 16 ∧ packer_view (decide_code cd) = packer_view cd) ∨
    (16 ≤ cd.string_size ∧ ∃ b1 b0 v : Byte, b1.val ≤ 1 ∧ b0.val ≤ 1 ∧
      packer_view (decide_code cd) = packer_view (emit_code cd b1 b0 v)) := by
  unfold decide_code
  by_cases hs : cd.string_size ≥ 16
  · right
    refine ⟨hs, ?_⟩
    simp only [hs, if_true]
    cases h16 : find_match cd 16 with
    | some s => exact ⟨1, 1, toByte s, by decide, by decide, packer_view_with _ _ _⟩
    | none =>
      cases h8 : find_match cd 8 with
      | some s => exact ⟨1, 0, toByte s, by decide, by decide, packer_view_with _ _ _⟩
      | none =>
        cases h4 : find_match cd 4 with
        | some s => exact ⟨0, 1, toByte s, by decide, by decide, packer_view_with _ _ _⟩
        | none =>
          refine ⟨0, 0, cd.string_data cd.string_read_index, by decide, by decide, ?_⟩
          simp only []
          rw [emit_literal_eq]
          exact packer_view_with_window _ _ _ _ _ _
  · left
    refine ⟨by omega, ?_⟩
    rw [if_neg hs]

theorem compress_byte_packInv (cd : CompressionData) (b : Byte) (h : PackInv cd) :
    PackInv (agon_compress_byte cd b) := by
  unfold agon_compress_byte
  have hp := packInv_of_view cd _ (push_string_view cd b) h
  rcases decide_code_view (push_string cd b) with ⟨_, hv⟩ | ⟨_, b1, b0, v, h1, h0, hv⟩
  · exact packInv_of_view _ _ hv hp
  · exact packInv_of_view _ _ hv (emit_code_packInv _ b1 b0 v h1 h0 hp)

theorem init_packInv : PackInv agon_init_compression := by
  refine ⟨⟨by decide, by decide⟩, rfl, ?_, rfl⟩
  intro c hc
  cases hc

theorem compress_bytes_append (cd : CompressionData) (X Y : List Byte) :
    compress_bytes cd (X ++ Y) = compress_bytes (compress_bytes cd X) Y := by
  simp [compress_bytes, List.foldl_append]

theorem compress_bytes_packInv (cd : CompressionData) (X : List Byte) (h : PackInv cd) :
    PackInv (compress_bytes cd X) := by
  induction X generalizing cd with
  | nil => exact h
  | cons x xs ih => exact ih _ (compress_byte_packInv cd x h)

theorem drain_string_packInv (fuel : Nat) (cd : CompressionData) (h : PackInv cd) :
    PackInv (drain_string fuel cd) := by
  induction fuel generalizing cd with
  | zero => exact h
  | succ k ih =>
    unfold drain_string
    by_cases hs : cd.string_size ≠ 0
    · rw [if_pos hs]
      apply ih
      exact packInv_of_view _ _ (packer_view_with _ _ _)
        (emit_code_packInv cd 0 0 (cd.string_data cd.string_read_index) (by decide) (by decide) h)
    · rw [if_neg hs]
      exact h

/-! ## One call of `agon_compress_byte` -/

theorem store_same (a : Nat → Byte) (i : Nat) (v : Byte) : store a i v i = v := by
  simp [store]

theorem store_other (a : Nat → Byte) (i j : Nat) (v : Byte) (h : j ≠ i) :
    store a i v j = a j := by
  simp [store, h]

/-- With room in the lookahead, the push appends the byte at the write cursor. -/
theorem push_string_eq (cd : CompressionData) (b : Byte) (h : cd.string_size < 16) :
    push_string cd b =
      { cd with
        string_data := store cd.string_data cd.string_write_index b
        string_write_index := (cd.string_write_index + 1) % 16
        string_size := cd.string_size + 1 } := by
  unfold push_string COMPRESSION_STRING_SIZE
  simp [h]

theorem lookahead_push (cd : CompressionData) (b : Byte) (h : EncoderOk cd) :
    lookahead (push_string cd b) = lookahead cd ++ [b] := by
  obtain ⟨h1, h2, h3, _⟩ := h
  rw [push_string_eq cd b (by omega)]
  unfold lookahead COMPRESSION_STRING_SIZE
  simp only []
  rw [slice_append _ 16 _ _ 1 h2, h3]
  congr 1
  · apply slice_ext _ _ 16 _ _ _ h2 h2
    intro k hk
    apply store_other
    intro e
    have := Nat.mod_lt (cd.string_read_index + k) (show 0 < 16 by decide)
    omega
  · simp [slice, store_same]

theorem push_string_ok (cd : CompressionData) (b : Byte) (h : EncoderOk cd) :
    (push_string cd b).string_size = cd.string_size + 1 ∧
    (push_string cd b).string_read_index = cd.string_read_index ∧
    (push_string cd b).string_write_index = (cd.string_read_index + cd.string_size + 1) % 16 ∧
    (push_string cd b).window_size = cd.window_size ∧
    (push_string cd b).window_write_index = cd.window_write_index ∧
    (push_string cd b).window_data = cd.window_data ∧
    (push_string cd b).codes = cd.codes := by
  obtain ⟨h1, h2, h3, _⟩ := h
  rw [push_string_eq cd b (by omega)]
  simp only [true_and, and_true]
  rw [h3]
  omega

/-- A successful search of length 16, 8 or 4 from a full lookahead: the code word and
the new state. -/
theorem decide_code_match (c : CompressionData) (hs : c.string_size = 16)
    (hr : c.string_read_index < 16) (len s : Nat)
    (hlen : len = 16 ∨ len = 8 ∨ len = 4)
    (hprio : ∀ l, (l = 16 ∨ l = 8 ∨ l = 4) → len < l → find_match c l = none)
    (hm : find_match c len = some s) :
    (decide_code c).codes = c.codes ++ [(length_tag len, toByte s)] ∧
    (decide_code c).string_size = 16 - len ∧
    (decide_code c).string_read_index = (c.string_read_index + len) % 16 ∧
    (decide_code c).string_write_index = c.string_write_index ∧
    (decide_code c).string_data = c.string_data ∧
    (decide_code c).window_data = c.window_data ∧
    (decide_code c).window_size = c.window_size ∧
    (decide_code c).window_write_index = c.window_write_index ∧
    (decide_code c).input_count = c.input_count := by
  have hge : c.string_size ≥ 16 := by omega
  unfold decide_code COMPRESSION_STRING_SIZE
  rw [if_pos hge]
  rcases hlen with rfl | rfl | rfl
  · rw [hm]
    obtain ⟨f1, f2, f3, f4, f5, f6, f7, f8, f9⟩ := emit_code_frame c 1 1 (toByte s)
    simp only [f1, f2, f4, f5, f6, f7, f8, f9, true_and, and_true]
    refine ⟨rfl, ?_⟩
    omega
  · rw [hprio 16 (by simp) (by decide), hm]
    obtain ⟨f1, f2, f3, f4, f5, f6, f7, f8, f9⟩ := emit_code_frame c 1 0 (toByte s)
    simp only [f1, f2, f3, f4, f5, f6, f7, f8, f9, true_and, and_true]
    refine ⟨rfl, ?_⟩
    omega
  · rw [hprio 16 (by simp) (by decide), hprio 8 (by simp) (by decide), hm]
    obtain ⟨f1, f2, f3, f4, f5, f6, f7, f8, f9⟩ := emit_code_frame c 0 1 (toByte s)
    simp only [f1, f2, f3, f4, f5, f6, f7, f8, f9, true_and, and_true]
    refine ⟨rfl, ?_⟩
    omega

/-- No search succeeds from a full lookahead: the oldest byte leaves as a literal and
enters the window. -/
theorem decide_code_literal (c : CompressionData) (hs : c.string_size = 16)
    (h16 : find_match c 16 = none) (h8 : find_match c 8 = none) (h4 : find_match c 4 = none) :
    (decide_code c).codes = c.codes ++ [(0, c.string_data c.string_read_index)] ∧
    (decide_code c).string_size = 15 ∧
    (decide_code c).string_read_index = (c.string_read_index + 1) % 16 ∧
    (decide_code c).string_write_index = c.string_write_index ∧
    (decide_code c).string_data = c.string_data ∧
    (decide_code c).window_data =
      store c.window_data c.window_write_index (c.string_data c.string_read_index) ∧
    (decide_code c).window_size = (if c.window_size < 256 then c.window_size + 1
      else c.window_size) ∧
    (decide_code c).window_write_index = (c.window_write_index + 1) % 256 ∧
    (decide_code c).input_count = c.input_count := by
  have hge : c.string_size ≥ 16 := by omega
  unfold decide_code
  rw [if_pos hge, h16, h8, h4]
  simp only []
  rw [emit_literal_eq]
  obtain ⟨f1, f2, f3, f4, f5, f6, f7, f8, f9⟩ :=
    emit_code_frame c 0 0 (c.string_data c.string_read_index)
  simp only [f1, f2, f3, f4, f5, f6, f7, f8, f9, hs, true_and, and_true]
  rfl

/-- From a full lookahead exactly one of the four outcomes applies, in the priority
16, 8, 4, literal. -/
theorem decide_code_outcome (c : CompressionData) :
    (∃ len s, (len = 16 ∨ len = 8 ∨ len = 4) ∧
      (∀ l, (l = 16 ∨ l = 8 ∨ l = 4) → len < l → find_match c l = none) ∧
      find_match c len = some s) ∨
    (find_match c 16 = none ∧ find_match c 8 = none ∧ find_match c 4 = none) := by
  cases h16 : find_match c 16 with
  | some s =>
    left
    exact ⟨16, s, by simp, fun l hl hlt => by omega, h16⟩
  | none =>
    cases h8 : find_match c 8 with
    | some s =>
      left
      refine ⟨8, s, by simp, fun l hl hlt => ?_, h8⟩
      have : l = 16 := by omega
      rw [this]; exact h16
    | none =>
      cases h4 : find_match c 4 with
      | some s =>
        left
        refine ⟨4, s, by simp, fun l hl hlt => ?_, h4⟩
        rcases hl with rfl | rfl | rfl
        · exact h16
        · exact h8
        · omega
      | none =>
        right
        exact ⟨rfl, rfl, rfl⟩

theorem decide_code_idle (c : CompressionData) (hs : c.string_size < 16) :
    decide_code c = c := by
  unfold decide_code
  rw [if_neg (by omega)]

/-! ## The decoder mirrors the encoder -/

theorem decode_codes_append (d : DecompressionData) (xs ys : List (Nat × Byte)) :
    decode_codes d (xs ++ ys) = decode_codes (decode_codes d xs) ys := by
  simp [decode_codes, List.foldl_append]

theorem decode_codes_snoc (d : DecompressionData) (xs : List (Nat × Byte)) (c : Nat × Byte) :
    decode_codes d (xs ++ [c]) = dispatch_code (decode_codes d xs) c := by
  simp [decode_codes, List.foldl_append]

theorem length_tag_cases (len : Nat) (hlen : len = 16 ∨ len = 8 ∨ len = 4) :
    1 ≤ length_tag len ∧ length_tag len ≤ 3 ∧ code_length (length_tag len) = len := by
  rcases hlen with rfl | rfl | rfl <;> simp [length_tag, code_length]

theorem init_sim (dd : DecompressionData) :
    Sim (agon_init_decompression dd) agon_init_compression [] := by
  refine ⟨⟨by decide, by decide, by decide, by decide, by decide, fun _ => rfl⟩, rfl, rfl, ?_, rfl⟩
  intro j hj
  exact absurd hj (Nat.not_lt_zero j)

/-- One call of `agon_compress_byte` keeps the decoder in step with the encoder. -/
theorem compress_byte_sim (d0 : DecompressionData) (cd : CompressionData) (X : List Byte)
    (b : Byte) (h : Sim d0 cd X) : Sim d0 (agon_compress_byte cd b) (X ++ [b]) := by
  obtain ⟨hok, hws, hwi, hwd, hout⟩ := h
  have hla := lookahead_push cd b hok
  obtain ⟨p1, p2, p3, p4, p5, p6, p7⟩ := push_string_ok cd b hok
  obtain ⟨o1, o2, o3, o4, o5, o6⟩ := hok
  unfold agon_compress_byte
  generalize hc : push_string cd b = c at *
  by_cases hfull : c.string_size < 16
  · -- pure accumulation
    rw [decide_code_idle c hfull]
    refine ⟨⟨by omega, by omega, ?_, by omega, by omega, by omega⟩, ?_, ?_, ?_, ?_⟩
    · rw [p3, p1, p2]; congr 1
    · rw [p7, p4]; exact hws
    · rw [p7, p5]; exact hwi
    · rw [p7, p4, p6]; exact hwd
    · rw [p7, hla, ← List.append_assoc, hout]
  · have hs : c.string_size = 16 := by omega
    have hr : c.string_read_index < 16 := by omega
    have hw : c.window_size ≤ 256 := by omega
    have hlook : lookahead c = slice c.string_data 16 c.string_read_index 16 := by
      unfold lookahead COMPRESSION_STRING_SIZE; rw [hs]
    rcases decide_code_outcome c with ⟨len, s, hlen, hprio, hm⟩ | ⟨h16, h8, h4⟩
    · -- back-reference
      obtain ⟨e1, e2, e3, e4, e5, e6, e7, e8, _⟩ := decide_code_match c hs hr len s hlen hprio hm
      obtain ⟨m1, m2, _⟩ := (find_match_some c len s hw hr).1 hm
      obtain ⟨t1, t3, tl⟩ := length_tag_cases len hlen
      have hlen16 : len ≤ 16 := by omega
      have hs256 : s < 256 := by omega
      have hsv : (toByte s).val = s := toByte_of_lt hs256
      have hwin : slice (decode_codes d0 cd.codes).window_data 256 s len =
          slice c.string_data 16 c.string_read_index len := by
        rw [slice_eq_iff _ _ _ _ _ _ _ hs256 hr]
        intro k hk
        rw [Nat.mod_eq_of_lt (by omega), hwd (s + k) (by omega), ← p6]
        exact m2 k hk
      refine ⟨⟨by omega, ?_, ?_, by omega, by omega, by omega⟩, ?_, ?_, ?_, ?_⟩
      · rw [e3]; exact Nat.mod_lt _ (by decide)
      · rw [e4, e3, e2, p3]
        omega
      · rw [e1, e7, p7, decode_codes_snoc, dispatch_copy _ _ _ t1 t3, p4]; exact hws
      · rw [e1, e8, p7, decode_codes_snoc, dispatch_copy _ _ _ t1 t3, p5]; exact hwi
      · rw [e1, e7, e6, p7, decode_codes_snoc, dispatch_copy _ _ _ t1 t3, p4, p6]
        exact hwd
      · rw [e1, p7, decode_codes_snoc, dispatch_copy _ _ _ t1 t3]
        simp only []
        unfold COMPRESSION_WINDOW_SIZE
        rw [tl, hsv, hwin]
        unfold lookahead COMPRESSION_STRING_SIZE
        rw [e2, e3, e5, List.append_assoc]
        have hsplit := slice_append c.string_data 16 c.string_read_index len (16 - len) hr
        rw [show len + (16 - len) = 16 by omega] at hsplit
        rw [← hsplit, ← hlook, hla, ← List.append_assoc, hout]
    · -- literal
      obtain ⟨e1, e2, e3, e4, e5, e6, e7, e8, _⟩ := decide_code_literal c hs h16 h8 h4
      refine ⟨⟨by omega, ?_, ?_, ?_, ?_, ?_⟩, ?_, ?_, ?_, ?_⟩
      · rw [e3]; exact Nat.mod_lt _ (by decide)
      · rw [e4, e3, e2, p3]
        omega
      · rw [e7]; split <;> omega
      · rw [e8]; exact Nat.mod_lt _ (by decide)
      · rw [e7, e8]
        intro hlt
        split at hlt
        · rename_i hlt2
          rw [if_pos hlt2, p5, o6 (by omega), p4]
          omega
        · omega
      · rw [e1, e7, p7, decode_codes_snoc, dispatch_literal, p4]
        simp only []
        unfold COMPRESSION_WINDOW_SIZE
        rw [hws]
      · rw [e1, e8, p7, decode_codes_snoc, dispatch_literal, p5]
        simp only []
        unfold COMPRESSION_WINDOW_SIZE
        rw [hwi]
      · rw [e1, e7, e6, p7, decode_codes_snoc, dispatch_literal, p4, p5, p6]
        simp only []
        intro j hj
        rw [hwi]
        by_cases hjw : j = cd.window_write_index
        · rw [hjw, store_same, store_same]
        · rw [store_other _ _ _ _ hjw, store_other _ _ _ _ hjw]
          apply hwd
          split at hj
          · have := o6 (by omega)
            omega
          · omega
      · rw [e1, p7, decode_codes_snoc, dispatch_literal]
        simp only []
        unfold lookahead COMPRESSION_STRING_SIZE
        rw [e2, e3, e5, List.append_assoc]
        have hcons : [c.string_data c.string_read_index] ++
            slice c.string_data 16 ((c.string_read_index + 1) % 16) 15 = lookahead c := by
          rw [hlook]; rfl
        rw [hcons, hla, ← List.append_assoc, hout]

theorem compress_bytes_sim (d0 : DecompressionData) (cd : CompressionData) (X Y : List Byte)
    (h : Sim d0 cd X) : Sim d0 (compress_bytes cd Y) (X ++ Y) := by
  induction Y generalizing cd X with
  | nil => simpa [compress_bytes] using h
  | cons y ys ih =>
    have := ih (agon_compress_byte cd y) (X ++ [y]) (compress_byte_sim d0 cd X y h)
    simpa [compress_bytes] using this

/-- Every state reached from `agon_init_compression` by `agon_compress_byte` calls has
the shape `EncoderOk`. -/
theorem reachable_ok (X : List Byte) : EncoderOk (compress_bytes agon_init_compression X) :=
  (compress_bytes_sim (agon_init_decompression blank_decompression) agon_init_compression []
    X (init_sim blank_decompression)).1

/-! ## The drain loop and the final flush -/

/-- The drain loop writes the lookahead as literals, oldest first, and empties it;
it touches neither the window nor the string data. -/
theorem drain_string_eq (fuel : Nat) (cd : CompressionData) (h : cd.string_size ≤ fuel) :
    (drain_string fuel cd).codes = cd.codes ++ (lookahead cd).map literal ∧
    (drain_string fuel cd).string_size = 0 ∧
    (drain_string fuel cd).window_data = cd.window_data ∧
    (drain_string fuel cd).window_size = cd.window_size ∧
    (drain_string fuel cd).window_write_index = cd.window_write_index ∧
    (drain_string fuel cd).string_data = cd.string_data ∧
    (drain_string fuel cd).string_write_index = cd.string_write_index ∧
    (drain_string fuel cd).input_count = cd.input_count := by
  induction fuel generalizing cd with
  | zero =>
    have h0 : cd.string_size = 0 := by omega
    simp [drain_string, lookahead, h0, slice]
  | succ k ih =>
    unfold drain_string
    by_cases hs : cd.string_size ≠ 0
    · rw [if_pos hs]
      obtain ⟨f1, f2, f3, f4, f5, f6, f7, f8, f9⟩ :=
        emit_code_frame cd 0 0 (cd.string_data cd.string_read_index)
      obtain ⟨g1, g2, g3, g4, g5, g6, g7, g8⟩ := ih
        { emit_code cd 0 0 (cd.string_data cd.string_read_index) with
          string_size := (emit_code cd 0 0 (cd.string_data cd.string_read_index)).string_size - 1
          string_read_index :=
            ((emit_code cd 0 0 (cd.string_data cd.string_read_index)).string_read_index + 1) %
              COMPRESSION_STRING_SIZE }
        (by simp only [f3]; omega)
      refine ⟨?_, g2, g3.trans f7, g4.trans f1, g5.trans f2, g6.trans f8, g7.trans f5,
        g8.trans f6⟩
      rw [g1]
      simp only [f9, f3, f4, f8, lookahead]
      obtain ⟨n, hn⟩ : ∃ n, cd.string_size = n + 1 := ⟨cd.string_size - 1, by omega⟩
      rw [hn]
      simp [slice, literal]
    · rw [if_neg hs]
      have h0 : cd.string_size = 0 := by omega
      simp [lookahead, h0, slice]

theorem flush_bits_frame (cd : CompressionData) :
    (flush_bits cd).codes = cd.codes ∧ (flush_bits cd).string_size = cd.string_size ∧
    (flush_bits cd).window_data = cd.window_data ∧
    (flush_bits cd).window_size = cd.window_size ∧
    (flush_bits cd).window_write_index = cd.window_write_index := by
  unfold flush_bits
  split <;> simp

/-- The code words of a whole encoder run: those of the byte-by-byte phase, then the
lookahead as literals. -/
theorem finish_codes (cd : CompressionData) :
    (agon_finish_compression cd).codes = cd.codes ++ (lookahead cd).map literal := by
  unfold agon_finish_compression
  rw [(flush_bits_frame _).1]
  exact (drain_string_eq cd.string_size cd (le_refl _)).1

/-! ## Decoding code words -/

theorem decode_literals (d : DecompressionData) (bs : List Byte) :
    (decode_codes d (bs.map literal)).written = d.written ++ bs := by
  induction bs generalizing d with
  | nil => simp [decode_codes]
  | cons b bs ih =>
    simp only [List.map_cons, decode_codes, List.foldl_cons]
    have := ih (dispatch_code d (literal b))
    unfold decode_codes at this
    rw [this, literal, dispatch_literal]
    simp

theorem interpret_code_reset (dd : DecompressionData) :
    (interpret_code dd).code = 0 ∧ (interpret_code dd).code_bits = 0 := by
  unfold interpret_code
  simp only []
  split
  · split <;> simp
  all_goals simp [extract_string_eq]

theorem decode_codes_reset (d : DecompressionData) (cs : List (Nat × Byte))
    (h : d.code = 0 ∧ d.code_bits = 0) :
    (decode_codes d cs).code = 0 ∧ (decode_codes d cs).code_bits = 0 := by
  induction cs generalizing d with
  | nil => exact h
  | cons c cs ih =>
    simp only [decode_codes, List.foldl_cons]
    exact ih _ (interpret_code_reset _)

/-- The concatenated bits of code words, given to an empty accumulator, dispatch the
code words in order. -/
theorem feed_codes_bits (d : DecompressionData) (cs : List (Nat × Byte))
    (h : d.code = 0 ∧ d.code_bits = 0) (ht : ∀ c ∈ cs, c.1 < 4) :
    feed_bits d (codes_bits cs) = decode_codes d cs := by
  induction cs generalizing d with
  | nil => rfl
  | cons c cs ih =>
    simp only [codes_bits, feed_bits_append]
    rw [feed_code_word d c h.2 h.1 (ht c (List.mem_cons_self _ _))]
    simp only [decode_codes, List.foldl_cons]
    exact ih _ (interpret_code_reset _) (fun c' hc' => ht c' (List.mem_cons_of_mem _ hc'))

/-- Fewer than 10 bits after the last code word stay in the accumulator: they
dispatch nothing and produce no output. -/
theorem feed_padding (d : DecompressionData) (pad : List Bool) (h : d.code_bits = 0)
    (hp : pad.length < 10) :
    (feed_bits d pad).dispatched = d.dispatched ∧ (feed_bits d pad).written = d.written ∧
    (feed_bits d pad).output_count = d.output_count ∧
    (feed_bits d pad).window_data = d.window_data ∧
    (feed_bits d pad).window_size = d.window_size ∧
    (feed_bits d pad).window_write_index = d.window_write_index ∧
    (feed_bits d pad).code_bits = pad.length := by
  rw [feed_bits_lt pad d (by omega)]
  simp [h]

/-! ## Cutting a bit string into bytes -/

theorem pack_bits_eight (l rest : List Bool) (h : l.length = 8) :
    pack_bits (l ++ rest) = toByte (bits_value l) :: pack_bits rest := by
  rcases l with _ | ⟨b7, _ | ⟨b6, _ | ⟨b5, _ | ⟨b4, _ | ⟨b3, _ | ⟨b2, _ | ⟨b1, _ | ⟨b0, _ | ⟨x, l⟩⟩⟩⟩⟩⟩⟩⟩⟩
  all_goals first
    | (exfalso; simp at h; done)
    | simp [pack_bits]

set_option maxRecDepth 100000 in
theorem value_byte_bits : ∀ b : Byte, toByte (bits_value (byte_bits b)) = b := by decide

theorem pack_bits_bytes (w : List Byte) (p : List Bool) :
    pack_bits (bits_of_bytes w ++ p) = w ++ pack_bits p := by
  induction w with
  | nil => rfl
  | cons b w ih =>
    simp only [bits_of_bytes, List.append_assoc, List.cons_append]
    rw [pack_bits_eight _ _ (by simp [byte_bits, low_bits_length]), value_byte_bits, ih]

set_option maxRecDepth 100000 in
theorem pack_bits_pending : ∀ (n : Fin 8) (v : Fin 128), v.val < 2 ^ n.val →
    pack_bits (low_bits n.val v.val) =
      if n.val ≠ 0 then [toByte (v.val <<< (8 - n.val))] else [] := by decide

/-- The bytes written after the flush are the packer's bit stream cut into bytes, the
last one filled with zero bits on the low-order side. -/
theorem flush_bits_pack (cd : CompressionData) (h : PackerOk cd) :
    (flush_bits cd).written = pack_bits (stream cd) := by
  obtain ⟨h1, h2⟩ := h
  have hv : cd.out_byte.val < 128 := by
    have : 2 ^ cd.out_bits ≤ 2 ^ 7 := Nat.pow_le_pow_right (by decide) (by omega)
    omega
  have := pack_bits_pending ⟨cd.out_bits, h1⟩ ⟨cd.out_byte.val, hv⟩ h2
  simp only at this
  unfold stream
  rw [pack_bits_bytes, this]
  unfold flush_bits
  split <;> simp

/-! ## The whole encoder run -/

set_option maxRecDepth 100000 in
theorem pad_byte_bits : ∀ (n : Fin 8) (v : Fin 128), n.val ≠ 0 → v.val < 2 ^ n.val →
    byte_bits (toByte (v.val <<< (8 - n.val))) =
      low_bits n.val v.val ++ List.replicate (8 - n.val) false := by decide

/-- The bytes written after the flush carry the packer's bit stream followed by fewer
than 8 zero bits. -/
theorem flush_bits_stream (cd : CompressionData) (h : PackerOk cd) :
    bits_of_bytes (flush_bits cd).written =
      stream cd ++ List.replicate ((8 - cd.out_bits) % 8) false := by
  obtain ⟨h1, h2⟩ := h
  unfold flush_bits stream
  by_cases h0 : cd.out_bits ≠ 0
  · rw [if_pos h0]
    simp only [bits_of_bytes_append, bits_of_bytes, List.append_nil]
    have hv : cd.out_byte.val < 128 := by
      have : 2 ^ cd.out_bits ≤ 2 ^ 7 := Nat.pow_le_pow_right (by decide) (by omega)
      omega
    have := pad_byte_bits ⟨cd.out_bits, h1⟩ ⟨cd.out_byte.val, hv⟩ h0 h2
    simp only at this
    rw [this, Nat.mod_eq_of_lt (by omega), List.append_assoc]
  · rw [if_neg h0]
    have : cd.out_bits = 0 := by omega
    simp [this, low_bits]

theorem flush_bits_length (cd : CompressionData) (h : PackerOk cd) :
    8 * (flush_bits cd).written.length = (stream cd).length + (8 - cd.out_bits) % 8 := by
  have := congrArg List.length (flush_bits_stream cd h)
  rw [bits_of_bytes_length, List.length_append, List.length_replicate] at this
  exact this

theorem flush_bits_count (cd : CompressionData)
    (h : cd.output_count = cd.written.length % 2 ^ 32) :
    (flush_bits cd).output_count = (flush_bits cd).written.length % 2 ^ 32 := by
  unfold flush_bits
  split
  · simp only [List.length_append, List.length_singleton, h]
    omega
  · exact h

/-- Facts about the state in which a run of the encoder on `X` ends. -/
theorem encode_facts (dd : DecompressionData) (X : List Byte) :
    (decode_codes (agon_init_decompression dd) (encode X).codes).written = X ∧
    (∀ c ∈ (encode X).codes, c.1 < 4) ∧
    (∃ pad : List Bool, pad.length < 8 ∧ (10 * (encode X).codes.length + pad.length) % 8 = 0 ∧
      pad = List.replicate pad.length false ∧
      bits_of_bytes (encode X).written = codes_bits (encode X).codes ++ pad) ∧
    (encode X).output_count = (encode X).written.length % 2 ^ 32 ∧
    (encode X).written = pack_bits (codes_bits (encode X).codes) := by
  have hsim := compress_bytes_sim (agon_init_decompression dd) agon_init_compression [] X
    (init_sim dd)
  rw [List.nil_append] at hsim
  obtain ⟨_, _, _, _, hout⟩ := hsim
  have hinv := drain_string_packInv (compress_bytes agon_init_compression X).string_size _
    (compress_bytes_packInv agon_init_compression X init_packInv)
  obtain ⟨hok, hstream, htags, hcount⟩ := hinv
  have hcodes : (encode X).codes = (drain_string
      (compress_bytes agon_init_compression X).string_size
      (compress_bytes agon_init_compression X)).codes := (flush_bits_frame _).1
  refine ⟨?_, ?_, ?_, flush_bits_count _ hcount, ?_⟩
  · unfold encode
    rw [finish_codes, decode_codes_append, decode_literals, hout]
  · rw [hcodes]; exact htags
  · refine ⟨List.replicate ((8 - (drain_string
      (compress_bytes agon_init_compression X).string_size
      (compress_bytes agon_init_compression X)).out_bits) % 8) false, ?_, ?_, ?_, ?_⟩
    · rw [List.length_replicate]; omega
    · have hl := flush_bits_length _ hok
      rw [hstream, codes_bits_length] at hl
      rw [List.length_replicate, hcodes]
      omega
    · rw [List.length_replicate]
    · rw [hcodes, ← hstream]
      exact flush_bits_stream _ hok
  · rw [hcodes, ← hstream]
    exact flush_bits_pack _ hok

theorem decode_eq_feed (dd : DecompressionData) (Y : List Byte) :
    decode dd Y = feed_bits (agon_init_decompression dd) (bits_of_bytes Y) := by
  unfold decode
  exact decompress_bytes_eq _ _

/-- Claim C1. Round trip: for every byte sequence `X` (the empty one included) and
every decoder struct, the bytes the encoder writes for `X` (byte-by-byte calls, then
finish), fed byte by byte to the initialised decoder, make the decoder write exactly
`X`. -/
theorem roundtrip_identity (dd : DecompressionData) (X : List Byte) :
    (decode dd (encode X).written).written = X := by
  obtain ⟨hdec, htags, ⟨pad, hpad, _, _, hbits⟩, _, _⟩ := encode_facts dd X
  rw [decode_eq_feed, hbits, feed_bits_append,
    feed_codes_bits _ _ ⟨rfl, rfl⟩ htags,
    (feed_padding _ pad (decode_codes_reset _ _ ⟨rfl, rfl⟩).2 (by omega)).2.1]
  exact hdec

/-- Instance of C1 at 20 bytes of 0xAA, decoded from the all-zero struct. -/
theorem roundtrip_identity_witness :
    (decode blank_decompression (encode (List.replicate 20 0xAA)).written).written =
      List.replicate 20 0xAA :=
  roundtrip_identity blank_decompression (List.replicate 20 0xAA)

/-! ## Counting code words and bytes -/

theorem dispatch_code_effect (d : DecompressionData) (c : Nat × Byte) (h : c.1 < 4) :
    (dispatch_code d c).written.length = d.written.length + code_length c.1 ∧
    (dispatch_code d c).dispatched = d.dispatched ++ [c] := by
  obtain ⟨t, v⟩ := c
  simp only at h
  by_cases h0 : t = 0
  · subst h0
    rw [dispatch_literal]
    simp [code_length]
  · rw [dispatch_copy d t v (by omega) (by omega)]
    simp [slice_length, COMPRESSION_WINDOW_SIZE]

theorem decode_codes_effect (d : DecompressionData) (cs : List (Nat × Byte))
    (h : ∀ c ∈ cs, c.1 < 4) :
    (decode_codes d cs).written.length = d.written.length + codes_length cs ∧
    (decode_codes d cs).dispatched = d.dispatched ++ cs := by
  induction cs generalizing d with
  | nil => simp [decode_codes, codes_length]
  | cons c cs ih =>
    have hc := dispatch_code_effect d c (h c (List.mem_cons_self _ _))
    have := ih (dispatch_code d c) (fun c' hc' => h c' (List.mem_cons_of_mem _ hc'))
    simp only [decode_codes, List.foldl_cons] at this ⊢
    rw [this.1, this.2, hc.1, hc.2]
    simp [codes_length]
    omega

theorem code_length_bounds (t : Nat) : 1 ≤ code_length t ∧ code_length t ≤ 16 ∧
    (t ≠ 0 → 4 ≤ code_length t) ∧ (t = 0 → code_length t = 1) := by
  unfold code_length
  split <;> simp_all

theorem codes_length_bounds (cs : List (Nat × Byte)) :
    cs.length ≤ codes_length cs ∧ codes_length cs ≤ 16 * cs.length ∧
    ((∀ c ∈ cs, c.1 = 0) → codes_length cs = cs.length) ∧
    ((∃ c ∈ cs, c.1 ≠ 0) → cs.length + 3 ≤ codes_length cs) := by
  induction cs with
  | nil => simp [codes_length]
  | cons c cs ih =>
    obtain ⟨i1, i2, i3, i4⟩ := ih
    obtain ⟨b1, b2, b3, b4⟩ := code_length_bounds c.1
    have hcons : codes_length (c :: cs) = code_length c.1 + codes_length cs := by
      simp [codes_length]
    rw [hcons]
    refine ⟨by simp; omega, by simp; omega, ?_, ?_⟩
    · intro hall
      have h0 := hall c (List.mem_cons_self _ _)
      have := i3 (fun c' hc' => hall c' (List.mem_cons_of_mem _ hc'))
      simp; omega
    · rintro ⟨c', hc', hne⟩
      rcases List.mem_cons.1 hc' with e | hmem
      · subst e
        have := b3 hne
        simp; omega
      · have := i4 ⟨c', hmem, hne⟩
        simp; omega

/-- The code words of a run stand for exactly the input bytes. -/
theorem encode_codes_length (X : List Byte) : codes_length (encode X).codes = X.length := by
  obtain ⟨hdec, htags, _⟩ := encode_facts blank_decompression X
  have := (decode_codes_effect (agon_init_decompression blank_decompression) _ htags).1
  rw [hdec] at this
  simpa [agon_init_decompression] using this.symm

theorem encode_written_length (X : List Byte) :
    (encode X).written.length = (10 * (encode X).codes.length + 7) / 8 := by
  obtain ⟨_, _, ⟨pad, hpad, hmod, _, hbits⟩, _⟩ := encode_facts blank_decompression X
  have := congrArg List.length hbits
  rw [bits_of_bytes_length, List.length_append, codes_bits_length] at this
  omega

/-- Claim C2 (as amended). Bit packing: the bytes the encoder writes for an input are
exactly the concatenation of the 10-bit code words it emitted (2-bit tag, 8-bit
payload, most significant bit first, no padding in between) cut into 8-bit bytes,
the last one zero-filled on the low-order side; the sink receives `ceil(10k/8)` bytes
for `k` code words, nothing for `k = 0`, and `output_count` has grown by that amount
modulo 2^32. -/
theorem bit_packing (X : List Byte) :
    (encode X).written = pack_bits (codes_bits (encode X).codes) ∧
    (encode X).written.length = (10 * (encode X).codes.length + 7) / 8 ∧
    ((encode X).codes = [] → (encode X).written = []) ∧
    (encode X).output_count = ((10 * (encode X).codes.length + 7) / 8) % 2 ^ 32 := by
  obtain ⟨_, _, _, hcount, hpack⟩ := encode_facts blank_decompression X
  refine ⟨hpack, encode_written_length X, ?_, ?_⟩
  · intro h
    rw [hpack, h]
    rfl
  · rw [hcount, encode_written_length]

/-- Counterexample to C2 as stated: on the all-zero input of 2^36 bytes the encoder
writes at least 2^32 bytes, so the 32-bit `output_count` has not grown by the number
of bytes written. -/
theorem output_count_wraps :
    (encode long_input).output_count ≠ (10 * (encode long_input).codes.length + 7) / 8 := by
  have hlen := encode_codes_length long_input
  have hb := (codes_length_bounds (encode long_input).codes).2.1
  have hc := (encode_facts blank_decompression long_input).2.2.2.1
  have hX : long_input.length = 2 ^ 36 := List.length_replicate _ _
  have hlt : (encode long_input).output_count < 2 ^ 32 := by
    rw [hc]; exact Nat.mod_lt _ (by decide)
  rw [hX] at hlen
  intro h
  rw [h] at hlt
  omega

/-- Claim C9. Worst-case expansion: for an input of `n` bytes the encoder emits at most
`n` code words, so it writes at most `ceil(10n/8)` bytes; the bound is attained exactly
when every code word is a literal. -/
theorem expansion_bound (X : List Byte) :
    (encode X).codes.length ≤ X.length ∧
    (encode X).written.length ≤ (10 * X.length + 7) / 8 ∧
    ((encode X).written.length = (10 * X.length + 7) / 8 ↔
      ∀ c ∈ (encode X).codes, c.1 = 0) := by
  have hlen := encode_codes_length X
  obtain ⟨b1, _, b3, b4⟩ := codes_length_bounds (encode X).codes
  have hw := encode_written_length X
  refine ⟨by omega, by omega, ?_⟩
  constructor
  · intro h
    by_contra hne
    have hex : ∃ c ∈ (encode X).codes, c.1 ≠ 0 := by
      by_contra hno
      apply hne
      intro c hc
      by_contra h0
      exact hno ⟨c, hc, h0⟩
    have := b4 hex
    omega
  · intro h
    have := b3 h
    omega

/-! ## Framing of code words -/

theorem pack_fold_inv (cs : List (Nat × Byte)) (cd : CompressionData) (hi : PackInv cd)
    (h : ∀ c ∈ cs, c.1 < 4) :
    PackInv (cs.foldl (fun cd c => emit_code cd (toByte (c.1 / 2)) (toByte (c.1 % 2)) c.2) cd) ∧
    (cs.foldl (fun cd c => emit_code cd (toByte (c.1 / 2)) (toByte (c.1 % 2)) c.2) cd).codes =
      cd.codes ++ cs := by
  induction cs generalizing cd with
  | nil => simp [hi]
  | cons c cs ih =>
    have hc := h c (List.mem_cons_self _ _)
    have v1 : (toByte (c.1 / 2)).val = c.1 / 2 := toByte_of_lt (by omega)
    have v0 : (toByte (c.1 % 2)).val = c.1 % 2 := toByte_of_lt (by omega)
    have hinv := emit_code_packInv cd (toByte (c.1 / 2)) (toByte (c.1 % 2)) c.2
      (by rw [v1]; omega) (by rw [v0]; omega) hi
    have hcodes := (emit_code_frame cd (toByte (c.1 / 2)) (toByte (c.1 % 2)) c.2).2.2.2.2.2.2.2.2
    obtain ⟨r1, r2⟩ := ih _ hinv (fun c' hc' => h c' (List.mem_cons_of_mem _ hc'))
    simp only [List.foldl_cons]
    refine ⟨r1, ?_⟩
    rw [r2, hcodes, v1, v0, show 2 * (c.1 / 2) + c.1 % 2 = c.1 by omega]
    simp

/-- Claim C3. Framing round trip: for every sequence of code words with tags in 0..3,
the bytes produced by the encoder's bit packer and its final zero-padded flush make
the decoder dispatch exactly these code words, in order; the fewer than 8 padding
bits stay in the accumulator and add no output. -/
theorem framing_roundtrip (dd : DecompressionData) (cs : List (Nat × Byte))
    (h : ∀ c ∈ cs, c.1 < 4) :
    (decode dd (pack_codes cs).written).dispatched = cs ∧
    (decode dd (pack_codes cs).written).written =
      (decode_codes (agon_init_decompression dd) cs).written ∧
    (decode dd (pack_codes cs).written).code_bits < 8 := by
  obtain ⟨hinv, hcodes⟩ := pack_fold_inv cs agon_init_compression init_packInv h
  obtain ⟨hok, hstream, _, _⟩ := hinv
  have hbits := flush_bits_stream _ hok
  rw [hstream, hcodes] at hbits
  have hinit : agon_init_compression.codes ++ cs = cs := rfl
  rw [hinit] at hbits
  have hpad : (List.replicate ((8 - (cs.foldl (fun cd c =>
      emit_code cd (toByte (c.1 / 2)) (toByte (c.1 % 2)) c.2) agon_init_compression).out_bits) % 8)
      false).length < 8 := by
    rw [List.length_replicate]; omega
  have hfeed : decode dd (pack_codes cs).written =
      feed_bits (decode_codes (agon_init_decompression dd) cs)
        (List.replicate ((8 - (cs.foldl (fun cd c =>
          emit_code cd (toByte (c.1 / 2)) (toByte (c.1 % 2)) c.2)
            agon_init_compression).out_bits) % 8) false) := by
    rw [decode_eq_feed]
    unfold pack_codes
    rw [hbits, feed_bits_append, feed_codes_bits _ _ ⟨rfl, rfl⟩ h]
  obtain ⟨p1, p2, _, _, _, _, p7⟩ := feed_padding _ _
    (decode_codes_reset (agon_init_decompression dd) cs ⟨rfl, rfl⟩).2
    (Nat.lt_trans hpad (by decide))
  rw [hfeed]
  refine ⟨?_, p2, by rw [p7]; exact hpad⟩
  rw [p1, (decode_codes_effect _ cs h).2]
  rfl

/-- Instance of C3 at three code words. -/
theorem framing_roundtrip_witness :
    (decode blank_decompression (pack_codes [(3, 5), (0, 170), (1, 0)]).written).dispatched =
      [(3, 5), (0, 170), (1, 0)] ∧
    (decode blank_decompression (pack_codes [(3, 5), (0, 170), (1, 0)]).written).written =
      (decode_codes (agon_init_decompression blank_decompression)
        [(3, 5), (0, 170), (1, 0)]).written ∧
    (decode blank_decompression (pack_codes [(3, 5), (0, 170), (1, 0)]).written).code_bits < 8 :=
  framing_roundtrip blank_decompression [(3, 5), (0, 170), (1, 0)] (by decide)

/-! ## Draining the lookahead -/

theorem slice_eq_map (a : Nat → Byte) (m i n : Nat) (hi : i < m) :
    slice a m i n = (List.range n).map (fun k => a ((i + k) % m)) := by
  apply List.ext_getElem?
  intro k
  by_cases hk : k < n
  · rw [slice_getElem a m i n k hi hk, List.getElem?_map, List.getElem?_range hk]
    rfl
  · rw [List.getElem?_eq_none (by rw [slice_length]; omega),
      List.getElem?_eq_none (by simp; omega)]

/-- Claim C6. Drain as literals: from every encoder state (read cursor in range) with
`m` bytes in the lookahead, `agon_finish_compression` emits exactly `m` code words,
all with tag 00, whose payloads are the resident bytes oldest first, whatever the
window holds; it leaves the lookahead empty and the window untouched. -/
theorem drain_as_literals (cd : CompressionData) (hr : cd.string_read_index < 16) :
    (agon_finish_compression cd).codes =
      cd.codes ++ (List.range cd.string_size).map
        (fun i => (0, cd.string_data ((cd.string_read_index + i) % 16))) ∧
    (agon_finish_compression cd).codes.length = cd.codes.length + cd.string_size ∧
    (agon_finish_compression cd).string_size = 0 ∧
    (agon_finish_compression cd).window_data = cd.window_data ∧
    (agon_finish_compression cd).window_size = cd.window_size ∧
    (agon_finish_compression cd).window_write_index = cd.window_write_index := by
  have hc := finish_codes cd
  obtain ⟨_, d2, d3, d4, d5, _⟩ := drain_string_eq cd.string_size cd (le_refl _)
  obtain ⟨_, f2, f3, f4, f5⟩ := flush_bits_frame (drain_string cd.string_size cd)
  have hl : lookahead cd = (List.range cd.string_size).map
      (fun k => cd.string_data ((cd.string_read_index + k) % 16)) :=
    slice_eq_map _ 16 _ _ hr
  refine ⟨?_, ?_, ?_, ?_, ?_, ?_⟩
  · rw [hc, hl, List.map_map]
    rfl
  · rw [hc, List.length_append, List.length_map, lookahead, slice_length]
  · exact f2.trans d2
  · exact f3.trans d3
  · exact f4.trans d4
  · exact f5.trans d5

/-! ## The decision of `agon_compress_byte` -/

theorem find_match_none_iff (c : CompressionData) (len : Nat) (hw : c.window_size ≤ 256)
    (hr : c.string_read_index < 16) : find_match c len = none ↔ ¬ HasMatch c len := by
  rw [find_match_none c len hw hr]
  unfold HasMatch
  constructor
  · rintro h ⟨s, hs, hm⟩
    exact h s hs hm
  · intro h s hs hm
    exact h ⟨s, hs, hm⟩

/-- The code word emitted from a full lookahead, with what the searches found. -/
theorem compress_byte_decision (cd : CompressionData) (b : Byte) (hsize : cd.string_size = 15)
    (hr : cd.string_read_index < 16) (hw : cd.window_size ≤ 256) :
    (∃ len s, (len = 16 ∨ len = 8 ∨ len = 4) ∧
      (∀ l, (l = 16 ∨ l = 8 ∨ l = 4) → len < l → ¬ HasMatch (push_string cd b) l) ∧
      s + len ≤ (push_string cd b).window_size ∧ MatchAt (push_string cd b) len s ∧
      (∀ s', s' < s → ¬ MatchAt (push_string cd b) len s') ∧
      (agon_compress_byte cd b).codes = cd.codes ++ [(length_tag len, toByte s)] ∧
      (toByte s).val = s ∧ (agon_compress_byte cd b).string_size = 16 - len) ∨
    (¬ HasMatch (push_string cd b) 16 ∧ ¬ HasMatch (push_string cd b) 8 ∧
      ¬ HasMatch (push_string cd b) 4 ∧
      (agon_compress_byte cd b).codes =
        cd.codes ++ [(0, (push_string cd b).string_data (push_string cd b).string_read_index)] ∧
      (agon_compress_byte cd b).string_size = 15) := by
  have hpush := push_string_eq cd b (by omega)
  have c1 : (push_string cd b).string_size = 16 := by rw [hpush]; simp [hsize]
  have c2 : (push_string cd b).string_read_index < 16 := by rw [hpush]; exact hr
  have c3 : (push_string cd b).window_size ≤ 256 := by rw [hpush]; exact hw
  have c4 : (push_string cd b).codes = cd.codes := by rw [hpush]
  unfold agon_compress_byte
  generalize push_string cd b = c at *
  rcases decide_code_outcome c with ⟨len, s, hlen, hprio, hm⟩ | ⟨h16, h8, h4⟩
  · left
    obtain ⟨e1, e2, _⟩ := decide_code_match c c1 c2 len s hlen hprio hm
    obtain ⟨m1, m2, m3⟩ := (find_match_some c len s c3 c2).1 hm
    refine ⟨len, s, hlen, ?_, m1, m2, m3, by rw [e1, c4], toByte_of_lt (by omega), e2⟩
    intro l hl hlt
    rw [← find_match_none_iff c l c3 c2]
    exact hprio l hl hlt
  · right
    obtain ⟨e1, e2, _⟩ := decide_code_literal c c1 h16 h8 h4
    rw [find_match_none_iff c _ c3 c2] at h16 h8 h4
    exact ⟨h16, h8, h4, by rw [e1, c4], e2⟩

theorem snoc_inj {α : Type} (l : List α) (a b : α) (h : l ++ [a] = l ++ [b]) : a = b := by
  have := List.append_cancel_left h
  simpa using this

/-- Claim C4. Match-length priority: with a full 16-byte lookahead (15 bytes before
the call), a length-16 match anywhere in range makes the code word carry tag 11,
whatever shorter matches exist at smaller starts; tag 10 appears only without a
length-16 match, tag 01 only without a length-16 and a length-8 match, and tag 00
only when none of the three lengths matches. -/
theorem match_length_priority (cd : CompressionData) (b : Byte)
    (hsize : cd.string_size = 15) (hr : cd.string_read_index < 16)
    (hw : cd.window_size ≤ 256) :
    (HasMatch (push_string cd b) 16 →
      ∃ p, (agon_compress_byte cd b).codes = cd.codes ++ [(3, p)]) ∧
    (∀ p, (agon_compress_byte cd b).codes = cd.codes ++ [(2, p)] →
      ¬ HasMatch (push_string cd b) 16) ∧
    (∀ p, (agon_compress_byte cd b).codes = cd.codes ++ [(1, p)] →
      ¬ HasMatch (push_string cd b) 16 ∧ ¬ HasMatch (push_string cd b) 8) ∧
    (∀ p, (agon_compress_byte cd b).codes = cd.codes ++ [(0, p)] →
      ¬ HasMatch (push_string cd b) 16 ∧ ¬ HasMatch (push_string cd b) 8 ∧
      ¬ HasMatch (push_string cd b) 4) := by
  rcases compress_byte_decision cd b hsize hr hw with
    ⟨len, s, hlen, hprio, _, _, _, hcodes, _, _⟩ | ⟨n16, n8, n4, hcodes, _⟩
  · rcases hlen with rfl | rfl | rfl
    · refine ⟨fun _ => ⟨toByte s, hcodes⟩, ?_, ?_, ?_⟩ <;>
      · intro p hp
        rw [hcodes] at hp
        have := congrArg Prod.fst (snoc_inj _ _ _ hp)
        simp [length_tag] at this
    · have n16 := hprio 16 (by simp) (by decide)
      refine ⟨fun h => absurd h n16, fun _ _ => n16, ?_, ?_⟩ <;>
      · intro p hp
        rw [hcodes] at hp
        have := congrArg Prod.fst (snoc_inj _ _ _ hp)
        simp [length_tag] at this
    · have n16 := hprio 16 (by simp) (by decide)
      have n8 := hprio 8 (by simp) (by decide)
      refine ⟨fun h => absurd h n16, fun _ _ => n16, fun _ _ => ⟨n16, n8⟩, ?_⟩
      intro p hp
      rw [hcodes] at hp
      have := congrArg Prod.fst (snoc_inj _ _ _ hp)
      simp [length_tag] at this
  · exact ⟨fun h => absurd h n16, fun _ _ => n16, fun _ _ => ⟨n16, n8⟩, fun _ _ => ⟨n16, n8, n4⟩⟩

/-- Claim C5. Earliest-position tie-break: whenever `agon_compress_byte` emits a
back-reference (tag 1, 2 or 3, length 4, 8 or 16), its payload is a start index whose
window run equals the oldest bytes of the lookahead, the run lies inside the window,
and no smaller start index has a matching run. -/
theorem earliest_match (cd : CompressionData) (b : Byte) (hsize : cd.string_size ≤ 15)
    (hr : cd.string_read_index < 16) (hw : cd.window_size ≤ 256) (t : Nat) (p : Byte)
    (ht : t ≠ 0) (hemit : (agon_compress_byte cd b).codes = cd.codes ++ [(t, p)]) :
    (t = 1 ∨ t = 2 ∨ t = 3) ∧
    p.val + code_length t ≤ (push_string cd b).window_size ∧
    MatchAt (push_string cd b) (code_length t) p.val ∧
    ∀ s, s < p.val → ¬ MatchAt (push_string cd b) (code_length t) s := by
  by_cases h15 : cd.string_size = 15
  · rcases compress_byte_decision cd b h15 hr hw with
      ⟨len, s, hlen, _, m1, m2, m3, hcodes, hsv, _⟩ | ⟨_, _, _, hcodes, _⟩
    · rw [hcodes] at hemit
      have hpair := snoc_inj _ _ _ hemit
      have ht' : length_tag len = t := congrArg Prod.fst hpair
      have hp' : toByte s = p := congrArg Prod.snd hpair
      obtain ⟨t1, t3, tl⟩ := length_tag_cases len hlen
      rw [← ht', ← hp', tl, hsv]
      exact ⟨by omega, m1, m2, m3⟩
    · rw [hcodes] at hemit
      have := congrArg Prod.fst (snoc_inj _ _ _ hemit)
      exact absurd this.symm ht
  · exfalso
    have hidle : (agon_compress_byte cd b).codes = cd.codes := by
      unfold agon_compress_byte
      rw [decide_code_idle _ (by rw [push_string_eq cd b (by omega)]; simp; omega),
        push_string_eq cd b (by omega)]
    rw [hidle] at hemit
    have := congrArg List.length hemit
    simp at this

/-! ## The decoder against the wire-format table -/

theorem unpack_codes_short (bits : List Bool) (h : bits.length < 10) : unpack_codes bits = [] := by
  rcases bits with _ | ⟨c1, _ | ⟨c0, _ | ⟨b7, _ | ⟨b6, _ | ⟨b5, _ | ⟨b4, _ | ⟨b3, _ | ⟨b2, _ |
    ⟨b1, _ | ⟨b0, rest⟩⟩⟩⟩⟩⟩⟩⟩⟩⟩
  all_goals first
    | rfl
    | (exfalso; simp at h; omega)

set_option maxRecDepth 100000 in
theorem accum_ten : ∀ c1 c0 b7 b6 b5 b4 b3 b2 b1 b0 : Bool,
    accum 0 [c1, c0, b7, b6, b5, b4, b3, b2, b1, b0] =
      bits_value [c1, c0] * 256 + (toByte (bits_value [b7, b6, b5, b4, b3, b2, b1, b0])).val ∧
    bits_value [c1, c0] < 4 := by decide

/-- Ten bits in front of a bit string dispatch one code word; the rest follows. -/
theorem feed_ten_more (d : DecompressionData) (w rest : List Bool) (hw : w.length = 10)
    (h : d.code = 0 ∧ d.code_bits = 0) :
    ∃ c, c.1 < 4 ∧ unpack_codes (w ++ rest) = c :: unpack_codes rest ∧
      feed_bits d (w ++ rest) = feed_bits (dispatch_code d c) rest := by
  rcases w with _ | ⟨c1, _ | ⟨c0, _ | ⟨b7, _ | ⟨b6, _ | ⟨b5, _ | ⟨b4, _ | ⟨b3, _ | ⟨b2, _ |
    ⟨b1, _ | ⟨b0, _ | ⟨x, w⟩⟩⟩⟩⟩⟩⟩⟩⟩⟩⟩
  all_goals first
    | (exfalso; simp at hw; done)
    | skip
  obtain ⟨ha, hlt⟩ := accum_ten c1 c0 b7 b6 b5 b4 b3 b2 b1 b0
  refine ⟨(bits_value [c1, c0], toByte (bits_value [b7, b6, b5, b4, b3, b2, b1, b0])), hlt,
    rfl, ?_⟩
  rw [feed_bits_append, feed_bits_ten _ d h.2 hw, h.1, ha]
  rfl

/-- The decoder's loop dispatches exactly the 10-bit groups of its input bits; what
is left over (fewer than 10 bits) waits in the accumulator. -/
theorem feed_bits_unpack (n : Nat) (bits : List Bool) (d : DecompressionData)
    (hn : bits.length ≤ n) (h : d.code = 0 ∧ d.code_bits = 0) :
    (∀ c ∈ unpack_codes bits, c.1 < 4) ∧
    ∃ pad : List Bool, pad.length < 10 ∧
      feed_bits d bits = feed_bits (decode_codes d (unpack_codes bits)) pad := by
  induction n generalizing bits d with
  | zero =>
    have : bits = [] := List.length_eq_zero.1 (by omega)
    subst this
    exact ⟨fun c hc => absurd hc (List.not_mem_nil c), [], by decide, rfl⟩
  | succ k ih =>
    by_cases hshort : bits.length < 10
    · rw [unpack_codes_short bits hshort]
      exact ⟨fun c hc => absurd hc (List.not_mem_nil c), bits, hshort, rfl⟩
    · have hsplit : bits = bits.take 10 ++ bits.drop 10 := (List.take_append_drop 10 bits).symm
      have htake : (bits.take 10).length = 10 := by
        rw [List.length_take]; omega
      obtain ⟨c, hc, hun, hfeed⟩ := feed_ten_more d (bits.take 10) (bits.drop 10) htake h
      rw [← hsplit] at hun hfeed
      obtain ⟨ht, pad, hpad, hrest⟩ := ih (bits.drop 10) (dispatch_code d c)
        (by rw [List.length_drop]; omega) (interpret_code_reset _)
      rw [hun, hfeed, hrest]
      refine ⟨?_, pad, hpad, rfl⟩
      intro c' hc'
      rcases List.mem_cons.1 hc' with e | hmem
      · rw [e]; exact hc
      · exact ht c' hmem

theorem dispatch_code_table (d : DecompressionData) (c : Nat × Byte) (h : c.1 < 4) :
    table_view (dispatch_code d c) = table_step (table_view d) c := by
  obtain ⟨t, v⟩ := c
  simp only at h
  have hv := v.isLt
  have : t = 0 ∨ t = 1 ∨ t = 2 ∨ t = 3 := by omega
  rcases this with rfl | rfl | rfl | rfl
  · rw [dispatch_literal]
    rfl
  all_goals
    rw [dispatch_copy d _ v (by decide) (by decide)]
    simp only [table_view, table_step, code_length, COMPRESSION_WINDOW_SIZE]
    rw [slice_eq_map _ 256 _ _ hv]

theorem decode_codes_table (d : DecompressionData) (cs : List (Nat × Byte))
    (h : ∀ c ∈ cs, c.1 < 4) :
    table_view (decode_codes d cs) = cs.foldl table_step (table_view d) := by
  induction cs generalizing d with
  | nil => rfl
  | cons c cs ih =>
    simp only [decode_codes, List.foldl_cons]
    rw [← dispatch_code_table d c (h c (List.mem_cons_self _ _))]
    exact ih _ (fun c' hc' => h c' (List.mem_cons_of_mem _ hc'))

theorem dispatch_code_count (d : DecompressionData) (c : Nat × Byte) (h : c.1 < 4)
    (hc : d.output_count = d.written.length % 2 ^ 32) :
    (dispatch_code d c).output_count = (dispatch_code d c).written.length % 2 ^ 32 := by
  obtain ⟨t, v⟩ := c
  simp only at h
  by_cases h0 : t = 0
  · subst h0
    rw [dispatch_literal]
    simp only [List.length_append, List.length_singleton, hc]
    omega
  · rw [dispatch_copy d t v (by omega) (by omega)]
    simp only [List.length_append, slice_length, hc]
    omega

theorem decode_codes_count (d : DecompressionData) (cs : List (Nat × Byte))
    (h : ∀ c ∈ cs, c.1 < 4) (hc : d.output_count = d.written.length % 2 ^ 32) :
    (decode_codes d cs).output_count = (decode_codes d cs).written.length % 2 ^ 32 := by
  induction cs generalizing d with
  | nil => exact hc
  | cons c cs ih =>
    simp only [decode_codes, List.foldl_cons]
    exact ih _ (fun c' hc' => h c' (List.mem_cons_of_mem _ hc'))
      (dispatch_code_count d c (h c (List.mem_cons_self _ _)) hc)

/-- What the decoder has done after a byte stream: the code words dispatched, the
table view of its state and the byte count. -/
theorem decode_facts (dd : DecompressionData) (Y : List Byte) :
    (decode dd Y).dispatched = unpack_codes (bits_of_bytes Y) ∧
    table_view (decode dd Y) =
      (unpack_codes (bits_of_bytes Y)).foldl table_step
        (table_view (agon_init_decompression dd)) ∧
    (decode dd Y).output_count = (decode dd Y).written.length % 2 ^ 32 := by
  obtain ⟨ht, pad, hpad, hfeed⟩ := feed_bits_unpack (bits_of_bytes Y).length (bits_of_bytes Y)
    (agon_init_decompression dd) (le_refl _) ⟨rfl, rfl⟩
  obtain ⟨p1, p2, p3, p4, p5, p6, _⟩ := feed_padding
    (decode_codes (agon_init_decompression dd) (unpack_codes (bits_of_bytes Y))) pad
    (decode_codes_reset _ _ ⟨rfl, rfl⟩).2 hpad
  rw [decode_eq_feed, hfeed]
  refine ⟨?_, ?_, ?_⟩
  · rw [p1, (decode_codes_effect _ _ ht).2]
    rfl
  · rw [← decode_codes_table _ _ ht]
    simp only [table_view, p2, p4, p5, p6]
  · rw [p3, p2]
    exact decode_codes_count _ _ ht rfl

/-- Claim C8 (as amended). Decoder dispatch equals the wire-format table: for every
byte stream and every decoder struct, the decoder dispatches exactly the consecutive
10-bit groups of the stream's bits (top 2 bits command, low 8 bits payload), and its
output and window are those obtained by applying the table row of each code word in
order; `output_count` is the number of bytes sunk modulo 2^32. -/
theorem decoder_follows_table (dd : DecompressionData) (Y : List Byte) :
    (decode dd Y).dispatched = unpack_codes (bits_of_bytes Y) ∧
    table_view (decode dd Y) =
      (unpack_codes (bits_of_bytes Y)).foldl table_step
        (table_view (agon_init_decompression dd)) ∧
    (decode dd Y).output_count = (decode dd Y).written.length % 2 ^ 32 :=
  decode_facts dd Y

theorem bits_of_zero_bytes (n : Nat) :
    bits_of_bytes (List.replicate n 0) = List.replicate (8 * n) false := by
  induction n with
  | zero => rfl
  | succ k ih =>
    rw [List.replicate_succ, bits_of_bytes, ih, show 8 * (k + 1) = 8 + 8 * k by omega,
      List.replicate_add]
    rfl

theorem unpack_zero_bits (n : Nat) :
    unpack_codes (List.replicate (10 * n) false) = List.replicate n (0, 0) := by
  induction n with
  | zero => rfl
  | succ k ih =>
    have h10 : List.replicate 10 false =
        [false, false, false, false, false, false, false, false, false, false] := rfl
    rw [show 10 * (k + 1) = 10 + 10 * k by omega, List.replicate_add, h10, List.replicate_succ,
      ← ih]
    rfl

theorem table_literals_length (cs : List (Nat × Byte)) (s : TableState)
    (h : ∀ c ∈ cs, c.1 = 0) :
    (cs.foldl table_step s).written.length = s.written.length + cs.length := by
  induction cs generalizing s with
  | nil => rfl
  | cons c cs ih =>
    have h0 := h c (List.mem_cons_self _ _)
    simp only [List.foldl_cons, List.length_cons]
    rw [ih _ (fun c' hc' => h c' (List.mem_cons_of_mem _ hc'))]
    simp only [table_step, h0, List.length_append, List.length_singleton]
    omega

theorem table_view_written (d : DecompressionData) : (table_view d).written = d.written := rfl

/-- Counterexample to C8 as stated: on the all-zero stream of 5 * 2^30 bytes the
decoder sinks 2^32 bytes, and the 32-bit `output_count` is not the number of bytes
sunk. -/
theorem decoder_count_wraps :
    (decode blank_decompression long_stream).output_count ≠
      (decode blank_decompression long_stream).written.length := by
  obtain ⟨_, hview, hcount⟩ := decode_facts blank_decompression long_stream
  have hw : (decode blank_decompression long_stream).written.length = 2 ^ 32 := by
    rw [← table_view_written, hview, long_stream, bits_of_zero_bytes,
      show 8 * (5 * 2 ^ 30) = 10 * (2 ^ 32) by norm_num, unpack_zero_bits,
      table_literals_length _ _ (fun c hc => by rw [List.eq_of_mem_replicate hc]),
      List.length_replicate]
    have hz : (table_view (agon_init_decompression blank_decompression)).written.length = 0 :=
      rfl
    rw [hz, Nat.zero_add]
  rw [hcount, hw, Nat.mod_self]
  exact (Nat.pos_pow_of_pos 32 (by decide)).ne

/-! ## Inputs without repeated substrings -/

theorem noRepeat_of_append (P Q : List Byte) (h : NoRepeat (P ++ Q)) : NoRepeat P := by
  intro len i j hlen hij hj heq
  apply h len i j hlen hij (by rw [List.length_append]; omega)
  rw [List.drop_append_of_le_length (by omega), List.drop_append_of_le_length (by omega),
    List.take_append_of_le_length (by rw [List.length_drop]; omega),
    List.take_append_of_le_length (by rw [List.length_drop]; omega)]
  exact heq

theorem take_drop_getElem (X : List Byte) (i len k : Nat) (hk : k < len) :
    ((X.drop i).take len)[k]? = X[i + k]? := by
  rw [List.getElem?_take_of_lt hk, List.getElem?_drop]

theorem noRepeat_four (X : List Byte) (h : NoRepeat X) (i j : Nat) (hij : i < j)
    (hj : j + 4 ≤ X.length) : ¬ ∀ k, k < 4 → X[i + k]? = X[j + k]? := by
  intro hall
  apply h 4 i j (le_refl _) hij hj
  apply List.ext_getElem?
  intro k
  by_cases hk : k < 4
  · rw [take_drop_getElem X i 4 k hk, take_drop_getElem X j 4 k hk]
    exact hall k hk
  · rw [List.getElem?_eq_none (by rw [List.length_take]; omega),
      List.getElem?_eq_none (by rw [List.length_take]; omega)]

theorem gram_keys_getElem (X : List Byte) (i : Nat) (a b c d : Byte) (ha : X[i]? = some a)
    (hb : X[i + 1]? = some b) (hc : X[i + 2]? = some c) (hd : X[i + 3]? = some d) :
    (gram_keys X)[i]? = some (a.val + 256 * (b.val + 256 * (c.val + 256 * d.val))) := by
  induction X generalizing i with
  | nil => simp at ha
  | cons x X ih =>
    cases i with
    | zero =>
      rcases X with _ | ⟨y, _ | ⟨z, _ | ⟨w, rest⟩⟩⟩
      · simp at hb
      · simp at hc
      · simp at hd
      · simp only [List.getElem?_cons_zero, List.getElem?_cons_succ, Option.some.injEq,
          Nat.zero_add] at ha hb hc hd
        subst ha hb hc hd
        simp [gram_keys]
    | succ n =>
      have := ih n (by simpa using ha)
        (by rw [show n + 1 + 1 = (n + 1) + 1 by rfl] at hb; simpa using hb)
        (by rw [show n + 1 + 2 = (n + 2) + 1 by omega] at hc; simpa using hc)
        (by rw [show n + 1 + 3 = (n + 3) + 1 by omega] at hd; simpa using hd)
      rcases X with _ | ⟨y, _ | ⟨z, _ | ⟨w, rest⟩⟩⟩
      · simp at this ha
      · cases n with
        | zero => simp at hb
        | succ m => simp at ha
      · cases n with
        | zero => simp at hc
        | succ m =>
          cases m with
          | zero => simp at hb
          | succ q => simp at ha
      · simp only [gram_keys, List.getElem?_cons_succ]
        exact this

/-- Distinct 4-byte substrings at all positions exclude any repeated substring of
length 4 or more. -/
theorem noRepeat_of_keys (X : List Byte) (h : (gram_keys X).Nodup) : NoRepeat X := by
  intro len i j hlen hij hj heq
  have hget : ∀ k, k < 4 → X[i + k]? = X[j + k]? := by
    intro k hk
    rw [← take_drop_getElem X i len k (by omega), ← take_drop_getElem X j len k (by omega), heq]
  have hval : ∀ n, n < X.length → ∃ v, X[n]? = some v := fun n hn =>
    ⟨X[n], List.getElem?_eq_getElem hn⟩
  obtain ⟨a, ha⟩ := hval j (by omega)
  obtain ⟨b, hb⟩ := hval (j + 1) (by omega)
  obtain ⟨c, hc⟩ := hval (j + 2) (by omega)
  obtain ⟨d, hd⟩ := hval (j + 3) (by omega)
  have kj := gram_keys_getElem X j a b c d ha hb hc hd
  have ki := gram_keys_getElem X i a b c d (by rw [← ha]; exact hget 0 (by decide))
    (by rw [← hb]; exact hget 1 (by decide)) (by rw [← hc]; exact hget 2 (by decide))
    (by rw [← hd]; exact hget 3 (by decide))
  have hjlt : j < (gram_keys X).length := by
    by_contra hnot
    rw [List.getElem?_eq_none (by omega)] at kj
    exact Option.noConfusion kj
  exact (List.nodup_iff_getElem?_ne_getElem?.1 h) i j hij hjlt (by rw [ki, kj])

/-! ## The window after a run of literals -/

/-- After the literals `W` from an empty window, slot `k mod 256` holds `W[k]` for
every `k` that no later literal has overwritten. -/
theorem decode_literals_window (d0 : DecompressionData) (h0 : d0.window_write_index = 0)
    (hs : d0.window_size = 0) (W : List Byte) :
    (decode_codes d0 (W.map literal)).window_write_index = W.length % 256 ∧
    (decode_codes d0 (W.map literal)).window_size = min W.length 256 ∧
    ∀ k, k < W.length → (∀ k', k < k' → k' < W.length → k' % 256 ≠ k % 256) →
      W[k]? = some ((decode_codes d0 (W.map literal)).window_data (k % 256)) := by
  induction W using List.reverseRecOn with
  | nil =>
    refine ⟨h0, by simpa using hs, ?_⟩
    intro k hk
    simp at hk
  | append_singleton W x ih =>
    obtain ⟨i1, i2, i3⟩ := ih
    rw [List.map_append, List.map_singleton, decode_codes_snoc, literal, dispatch_literal]
    simp only [COMPRESSION_WINDOW_SIZE, List.length_append, List.length_singleton]
    refine ⟨by rw [i1]; omega, by rw [i2]; split <;> omega, ?_⟩
    intro k hk hlast
    by_cases hkl : k = W.length
    · subst hkl
      rw [List.getElem?_concat_length, i1, store_same]
    · have hk' : k < W.length := by omega
      have hne : k % 256 ≠ W.length % 256 := by
        intro e
        exact hlast W.length (by omega) (by omega) e.symm
      rw [List.getElem?_append_left hk', i1, store_other _ _ _ _ hne]
      exact i3 k hk' (fun k' a b => hlast k' a (by omega))

/-- While no substring of length 4 repeats and at most 272 bytes have been consumed,
every code word written so far is a literal and the lookahead holds the last 15
bytes. -/
theorem literal_phase (P : List Byte) (hlen : P.length ≤ 272) (hno : NoRepeat P) :
    ∃ W : List Byte, (compress_bytes agon_init_compression P).codes = W.map literal ∧
      (compress_bytes agon_init_compression P).string_size = min P.length 15 := by
  induction P using List.reverseRecOn with
  | nil => exact ⟨[], rfl, rfl⟩
  | append_singleton P b ih =>
    rw [List.length_append, List.length_singleton] at hlen
    obtain ⟨W, hW, hsz⟩ := ih (by omega) (noRepeat_of_append P [b] hno)
    have hsim := compress_bytes_sim (agon_init_decompression blank_decompression)
      agon_init_compression [] P (init_sim blank_decompression)
    rw [List.nil_append] at hsim
    rw [compress_bytes_append]
    have hstep : compress_bytes (compress_bytes agon_init_compression P) [b] =
        agon_compress_byte (compress_bytes agon_init_compression P) b := rfl
    rw [hstep]
    generalize compress_bytes agon_init_compression P = cd at *
    obtain ⟨hok, hws, hwi, hwd, hout⟩ := hsim
    have hla := lookahead_push cd b hok
    obtain ⟨p1, p2, p3, p4, p5, p6, p7⟩ := push_string_ok cd b hok
    obtain ⟨o1, o2, o3, o4, o5, o6⟩ := hok
    rw [List.length_append, List.length_singleton]
    by_cases h15 : cd.string_size = 15
    · have hP15 : 15 ≤ P.length := by omega
      rcases compress_byte_decision cd b h15 o2 o4 with
        ⟨len, s, hlen', _, m1, m2, _, _, _, _⟩ | ⟨_, _, _, hcodes, hsize⟩
      · -- a match would be a repeated substring
        exfalso
        obtain ⟨w1, w2, w3⟩ := decode_literals_window (agon_init_decompression blank_decompression)
          rfl rfl W
        rw [hW] at hws hwd hout
        rw [decode_literals] at hout
        have hout' : W ++ lookahead cd = P := by simpa [agon_init_decompression] using hout
        have hlalen : (lookahead cd).length = 15 := by
          rw [lookahead, slice_length, h15]
        have hWlen : W.length + 15 = P.length := by
          rw [← hout', List.length_append, hlalen]
        have hPb : P ++ [b] = W ++ lookahead (push_string cd b) := by
          rw [hla, ← List.append_assoc, hout']
        apply noRepeat_four (P ++ [b]) hno s W.length (by omega)
          (by rw [List.length_append, List.length_singleton]; omega)
        intro k hk
        have hsk : s + k < W.length := by omega
        rw [hPb, List.getElem?_append_left hsk,
          List.getElem?_append_right (by omega),
          show W.length + k - W.length = k by omega]
        have hwin := w3 (s + k) hsk (fun k' a b' => by omega)
        rw [Nat.mod_eq_of_lt (by omega), hwd (s + k) (by omega)] at hwin
        rw [hwin, ← p6, m2 k (by omega)]
        have hget := slice_getElem (push_string cd b).string_data 16
          (push_string cd b).string_read_index (push_string cd b).string_size k
          (by omega) (by omega)
        exact hget.symm
      · refine ⟨W ++ [(push_string cd b).string_data (push_string cd b).string_read_index], ?_, ?_⟩
        · rw [hcodes, hW, List.map_append]
          rfl
        · rw [hsize]; omega
    · -- the lookahead is not full yet
      have hlt : cd.string_size < 15 := by omega
      have hidle : agon_compress_byte cd b = push_string cd b := by
        unfold agon_compress_byte
        exact decide_code_idle _ (by omega)
      rw [hidle, p7, p1]
      exact ⟨W, hW, by omega⟩

theorem compress_bytes_singleton (cd : CompressionData) (b : Byte) :
    compress_bytes cd [b] = agon_compress_byte cd b := rfl

/-- Once 257 literals have been written the window array has wrapped: slot 0 holds
byte 256 of the input next to bytes 1, 2, 3. If these four bytes equal the next four
input bytes, the encoder finds a match although no substring is repeated. -/
theorem backref_after_wrap (P : List Byte) (b : Byte) (hP : P.length = 272)
    (hno : NoRepeat P) (b0 : P[256]? = (P ++ [b])[257]?) (b1 : P[1]? = (P ++ [b])[258]?)
    (b2 : P[2]? = (P ++ [b])[259]?) (b3 : P[3]? = (P ++ [b])[260]?) :
    ∃ c ∈ (encode (P ++ [b])).codes, c.1 ≠ 0 := by
  obtain ⟨W, hW, hsz⟩ := literal_phase P (by omega) hno
  have hsim := compress_bytes_sim (agon_init_decompression blank_decompression)
    agon_init_compression [] P (init_sim blank_decompression)
  rw [List.nil_append] at hsim
  have henc : encode (P ++ [b]) =
      agon_finish_compression (agon_compress_byte (compress_bytes agon_init_compression P) b) := by
    unfold encode
    rw [compress_bytes_append, compress_bytes_singleton]
  rw [henc, finish_codes]
  generalize compress_bytes agon_init_compression P = cd at *
  obtain ⟨hok, hws, hwi, hwd, hout⟩ := hsim
  have hla := lookahead_push cd b hok
  obtain ⟨p1, p2, p3, p4, p5, p6, p7⟩ := push_string_ok cd b hok
  obtain ⟨o1, o2, o3, o4, o5, o6⟩ := hok
  have h15 : cd.string_size = 15 := by rw [hsz, hP]; rfl
  obtain ⟨w1, w2, w3⟩ := decode_literals_window (agon_init_decompression blank_decompression)
    rfl rfl W
  rw [hW] at hws hwd hout
  rw [decode_literals] at hout
  have hout' : W ++ lookahead cd = P := by
    simpa [agon_init_decompression] using hout
  have hlalen : (lookahead cd).length = 15 := by rw [lookahead, slice_length, h15]
  have hWlen : W.length = 257 := by
    have := congrArg List.length hout'
    rw [List.length_append, hlalen, hP] at this
    omega
  have hsize : cd.window_size = 256 := by rw [← hws, w2, hWlen]; rfl
  have hinput : P ++ [b] = W ++ lookahead (push_string cd b) := by
    rw [hla, ← List.append_assoc, hout']
  have hwin : ∀ k j, k < 257 → j = k % 256 →
      (∀ k', k < k' → k' < 257 → k' % 256 ≠ k % 256) →
      P[k]? = some (cd.window_data j) := by
    intro k j hk hj hlast
    rw [hj, ← hout', List.getElem?_append_left (by omega),
      w3 k (by omega) (fun k' a b => hlast k' a (by omega)),
      hwd (k % 256) (by rw [hsize]; exact Nat.mod_lt _ (by decide))]
  have hlook : ∀ i n, i < 16 → n = 257 + i → (P ++ [b])[n]? =
      some ((push_string cd b).string_data (((push_string cd b).string_read_index + i) % 16)) := by
    intro i n hi hn
    rw [hn, hinput, List.getElem?_append_right (by omega),
      show 257 + i - W.length = i by omega]
    exact slice_getElem _ 16 _ _ i (by omega) (by omega)
  have hmatch : HasMatch (push_string cd b) 4 := by
    refine ⟨0, by rw [p4, hsize]; decide, ?_⟩
    intro i hi
    rw [p6]
    have e0 := hwin 256 (0 + 0) (by decide) (by decide) (fun k' a b => by omega)
    have e1 := hwin 1 (0 + 1) (by decide) (by decide) (fun k' a b => by omega)
    have e2 := hwin 2 (0 + 2) (by decide) (by decide) (fun k' a b => by omega)
    have e3 := hwin 3 (0 + 3) (by decide) (by decide) (fun k' a b => by omega)
    have l0 := hlook 0 257 (by decide) (by decide)
    have l1 := hlook 1 258 (by decide) (by decide)
    have l2 := hlook 2 259 (by decide) (by decide)
    have l3 := hlook 3 260 (by decide) (by decide)
    rw [b0, l0] at e0
    rw [b1, l1] at e1
    rw [b2, l2] at e2
    rw [b3, l3] at e3
    have : i = 0 ∨ i = 1 ∨ i = 2 ∨ i = 3 := by omega
    rcases this with rfl | rfl | rfl | rfl
    · exact (Option.some.inj e0).symm
    · exact (Option.some.inj e1).symm
    · exact (Option.some.inj e2).symm
    · exact (Option.some.inj e3).symm
  rcases compress_byte_decision cd b h15 o2 o4 with
    ⟨len, s, hlen, _, _, _, _, hcodes, _, _⟩ | ⟨_, _, n4, _, _⟩
  · refine ⟨(length_tag len, toByte s), ?_, ?_⟩
    · rw [hcodes]
      simp
    · have := (length_tag_cases len hlen).1
      show length_tag len ≠ 0
      omega
  · exact absurd hmatch n4

/-! ## Concrete runs -/

theorem ascending_chain : ∀ l : List Nat, ascending l = true → l.Chain' (· < ·)
  | [], _ => List.chain'_nil
  | [a], _ => List.chain'_singleton a
  | a :: b :: rest, h => by
    rw [ascending, Bool.and_eq_true, decide_eq_true_eq] at h
    exact List.chain'_cons.2 ⟨h.1, ascending_chain (b :: rest) h.2⟩

/-- A list is free of duplicates when its first `n` entries are strictly increasing,
the rest is free of duplicates, and no entry of the rest occurs among the first `n`. -/
theorem nodup_of_split (l : List Nat) (n : Nat) (h1 : ascending (l.take n) = true)
    (h2 : (l.drop n).Nodup) (h3 : ∀ b ∈ l.drop n, b ∉ l.take n) : l.Nodup := by
  rw [← List.take_append_drop n l, List.nodup_append]
  refine ⟨?_, h2, ?_⟩
  · exact (List.chain'_iff_pairwise.1 (ascending_chain _ h1)).imp (fun h => Nat.ne_of_lt h)
  · intro a ha hb
    exact h3 a hb ha

set_option maxRecDepth 1000000 in
set_option maxHeartbeats 4000000 in
theorem seam_input_keys : (gram_keys seam_input).Nodup :=
  nodup_of_split (gram_keys seam_input) 253 (by decide) (by decide) (by decide)

set_option maxRecDepth 100000 in
theorem seam_input_bytes :
    seam_head.length = 272 ∧ seam_head[256]? = (seam_head ++ [200])[257]? ∧
    seam_head[1]? = (seam_head ++ [200])[258]? ∧
    seam_head[2]? = (seam_head ++ [200])[259]? ∧
    seam_head[3]? = (seam_head ++ [200])[260]? := by decide

/-- Counterexample to C7 as stated: the 273-byte input `seam_input` has no repeated
substring of length 4 or more, yet the encoder emits a back-reference for it: after
257 literals the window array holds byte 256 of the input in slot 0 next to bytes
1, 2, 3 in slots 1..3, and this run of slots equals the next four input bytes. -/
theorem seam_backref :
    NoRepeat seam_input ∧ ∃ c ∈ (encode seam_input).codes, c.1 ≠ 0 :=
  ⟨noRepeat_of_keys _ seam_input_keys,
    backref_after_wrap seam_head 200 seam_input_bytes.1
      (noRepeat_of_append seam_head [200] (noRepeat_of_keys _ seam_input_keys))
      seam_input_bytes.2.1 seam_input_bytes.2.2.1 seam_input_bytes.2.2.2.1
      seam_input_bytes.2.2.2.2⟩

/-- Claim C10 (as amended). Scenario 20 x 0xAA: the encoder emits the first 4 input
bytes as literals, then one length-4 back-reference to window index 0 (written at
the 20th byte, when the window holds 4 bytes), then the remaining 12 bytes as
literals when the lookahead is drained. -/
theorem scenario_20_aa :
    (encode (List.replicate 20 0xAA)).codes =
      List.replicate 4 (0, 0xAA) ++ [(1, 0)] ++ List.replicate 12 (0, 0xAA) := by
  rw [encode_20_aa]
  rfl

/-- Counterexample to C10 as stated: the code words for 20 x 0xAA are not 16 literals
followed by a back-reference. -/
theorem scenario_20_aa_not_sixteen :
    ¬ ∃ t p, t ≠ 0 ∧
      (encode (List.replicate 20 0xAA)).codes = List.replicate 16 (0, 0xAA) ++ [(t, p)] := by
  rintro ⟨t, p, _, h⟩
  rw [encode_20_aa] at h
  have h5 := congrArg (fun l => l[4]?) h
  simp [List.replicate] at h5

set_option maxRecDepth 100000 in
/-- Instance of C4: in `priority_state` a length-4 match lies at index 0 and a
length-16 match at index 5; the code word carries tag 11. -/
theorem match_length_priority_witness :
    HasMatch (push_string priority_state 16) 16 ∧ HasMatch (push_string priority_state 16) 4 ∧
    ∃ p, (agon_compress_byte priority_state 16).codes = priority_state.codes ++ [(3, p)] :=
  ⟨⟨5, by decide, by decide⟩, ⟨0, by decide, by decide⟩,
    (match_length_priority priority_state 16 (by decide) (by decide) (by decide)).1
      ⟨5, by decide, by decide⟩⟩

set_option maxRecDepth 100000 in
/-- Instance of C5: in `priority_state` the length-16 back-reference carries the
start index 5, the only one with a matching run. -/
theorem earliest_match_witness :
    (agon_compress_byte priority_state 16).codes = priority_state.codes ++ [(3, 5)] ∧
    MatchAt (push_string priority_state 16) (code_length 3) 5 ∧
    ∀ s, s < 5 → ¬ MatchAt (push_string priority_state 16) (code_length 3) s :=
  ⟨priority_state_emits,
    (earliest_match priority_state 16 (by decide) (by decide) (by decide) 3 5 (by decide)
      priority_state_emits).2.2⟩

/-- Instance of C6: the 15 resident bytes of `priority_state`, which also stand in
its window, leave as 15 literals. -/
theorem drain_as_literals_witness :
    (agon_finish_compression priority_state).codes =
      priority_state.codes ++ (List.range priority_state.string_size).map
        (fun i => (0, priority_state.string_data ((priority_state.string_read_index + i) % 16))) ∧
    (agon_finish_compression priority_state).string_size = 0 :=
  ⟨(drain_as_literals priority_state (by decide)).1,
    (drain_as_literals priority_state (by decide)).2.2.1⟩

/-! ## Invariants of the encoder run -/

theorem reached_sim (dd : DecompressionData) (X : List Byte) :
    Sim (agon_init_decompression dd) (reached X) X := by
  have := compress_bytes_sim (agon_init_decompression dd) agon_init_compression [] X (init_sim dd)
  rw [List.nil_append] at this
  exact this

theorem reached_packInv (X : List Byte) : PackInv (reached X) :=
  compress_bytes_packInv agon_init_compression X init_packInv

theorem reached_snoc (X : List Byte) (b : Byte) :
    reached (X ++ [b]) = agon_compress_byte (reached X) b := by
  unfold reached
  rw [compress_bytes_append, compress_bytes_singleton]

/-- Claim C19. Lookahead never overflows: in every state reached from
`agon_init_compression` by `agon_compress_byte` calls, `string_size <= 15`, both string
cursors are below 16 and `string_write_index = (string_read_index + string_size) mod 16`;
so the next call finds room and its push takes the growing branch: the read cursor
stays and `string_size` grows by one (the overwrite branch is not taken). -/
theorem lookahead_never_overflows (X : List Byte) :
    (reached X).string_size ≤ 15 ∧
    (reached X).string_read_index < 16 ∧
    (reached X).string_write_index < 16 ∧
    (reached X).string_write_index =
      ((reached X).string_read_index + (reached X).string_size) % 16 ∧
    (reached X).string_size < COMPRESSION_STRING_SIZE ∧
    ∀ b, push_string (reached X) b =
      { reached X with
        string_data := store (reached X).string_data (reached X).string_write_index b
        string_write_index := ((reached X).string_write_index + 1) % 16
        string_size := (reached X).string_size + 1 } := by
  obtain ⟨o1, o2, o3, _⟩ := reachable_ok X
  refine ⟨o1, o2, ?_, o3, ?_, fun b => push_string_eq _ b (by unfold reached; omega)⟩
  · unfold reached
    rw [o3]
    exact Nat.mod_lt _ (by decide)
  · unfold reached COMPRESSION_STRING_SIZE
    omega

/-- Claim C14. One decision per byte: from every state reached from
`agon_init_compression`, a call of `agon_compress_byte` with fewer than 15 bytes in the
lookahead only stores the byte in the lookahead (`string_data`, `string_write_index`,
`string_size`; no bit is written, every other field is unchanged), and a call with 15
bytes in the lookahead writes exactly one code word, 10 bits of the bit stream. -/
theorem one_decision_per_byte (X : List Byte) (b : Byte) :
    (reached X).string_size ≤ 15 ∧
    ((reached X).string_size < 15 →
      agon_compress_byte (reached X) b =
        { reached X with
          string_data := store (reached X).string_data (reached X).string_write_index b
          string_write_index := ((reached X).string_write_index + 1) % 16
          string_size := (reached X).string_size + 1 }) ∧
    ((reached X).string_size = 15 →
      ∃ c, (agon_compress_byte (reached X) b).codes = (reached X).codes ++ [c] ∧
        stream (agon_compress_byte (reached X) b) = stream (reached X) ++ code_word_bits c ∧
        (code_word_bits c).length = 10) := by
  obtain ⟨o1, o2, o3, o4, _⟩ := reachable_ok X
  have hinv := reached_packInv X
  have hinv' := compress_byte_packInv (reached X) b hinv
  refine ⟨o1, ?_, ?_⟩
  · intro hlt
    unfold agon_compress_byte
    rw [decide_code_idle _ (by rw [push_string_eq _ b (by omega)]; simp only []; omega)]
    exact push_string_eq _ b (by omega)
  · intro h15
    have hcodes : ∃ c, (agon_compress_byte (reached X) b).codes = (reached X).codes ++ [c] := by
      rcases compress_byte_decision (reached X) b h15 o2 o4 with
        ⟨len, s, _, _, _, _, _, hc, _, _⟩ | ⟨_, _, _, hc, _⟩
      · exact ⟨_, hc⟩
      · exact ⟨_, hc⟩
    obtain ⟨c, hc⟩ := hcodes
    refine ⟨c, hc, ?_, code_word_bits_length c⟩
    rw [hinv'.2.1, hinv.2.1, hc, codes_bits_append]
    simp [codes_bits]

/-- Claim C16. Encoder and decoder windows stay identical: for every input consumed
so far, the decoder that has been given exactly the bits of the code words written so
far has dispatched exactly these code words and has the same `window_size`, the same
`window_write_index` and the same `window_data` on the slots in use as the encoder,
whatever its struct held before `agon_init_decompression`. -/
theorem windows_identical (dd : DecompressionData) (X : List Byte) :
    (feed_bits (agon_init_decompression dd) (stream (reached X))).dispatched =
      (reached X).codes ∧
    (feed_bits (agon_init_decompression dd) (stream (reached X))).window_size =
      (reached X).window_size ∧
    (feed_bits (agon_init_decompression dd) (stream (reached X))).window_write_index =
      (reached X).window_write_index ∧
    ∀ j, j < (reached X).window_size →
      (feed_bits (agon_init_decompression dd) (stream (reached X))).window_data j =
        (reached X).window_data j := by
  obtain ⟨_, hstream, htags, _⟩ := reached_packInv X
  obtain ⟨_, hws, hwi, hwd, _⟩ := reached_sim dd X
  rw [hstream, feed_codes_bits _ _ ⟨rfl, rfl⟩ htags]
  refine ⟨?_, hws, hwi, hwd⟩
  rw [(decode_codes_effect _ _ htags).2]
  rfl

/-! ## Byte accounting -/

theorem literal_count_bounds (cs : List (Nat × Byte)) :
    literal_count cs ≤ cs.length ∧ ((∀ c ∈ cs, c.1 = 0) → literal_count cs = cs.length) := by
  induction cs with
  | nil => exact ⟨le_refl _, fun _ => rfl⟩
  | cons c cs ih =>
    obtain ⟨i1, i2⟩ := ih
    simp only [literal_count, List.length_cons]
    constructor
    · split <;> omega
    · intro h
      have h0 := h c (List.mem_cons_self _ _)
      have := i2 (fun c' hc' => h c' (List.mem_cons_of_mem _ hc'))
      rw [if_pos h0]
      omega

/-- The decoder's window grows by one slot per literal until it holds 256 bytes. -/
theorem decode_codes_window_size (d : DecompressionData) (cs : List (Nat × Byte))
    (h : ∀ c ∈ cs, c.1 < 4) (hd : d.window_size ≤ 256) :
    (decode_codes d cs).window_size = min (d.window_size + literal_count cs) 256 := by
  induction cs generalizing d with
  | nil => simp [decode_codes, literal_count]; omega
  | cons c cs ih =>
    have hc := h c (List.mem_cons_self _ _)
    have hrest : ∀ c' ∈ cs, c'.1 < 4 := fun c' hc' => h c' (List.mem_cons_of_mem _ hc')
    obtain ⟨t, v⟩ := c
    simp only at hc
    simp only [decode_codes, List.foldl_cons, literal_count]
    by_cases h0 : t = 0
    · subst h0
      have hstep : (dispatch_code d (0, v)).window_size =
          if d.window_size < 256 then d.window_size + 1 else d.window_size := by
        rw [dispatch_literal]; rfl
      have := ih (dispatch_code d (0, v)) hrest (by rw [hstep]; split <;> omega)
      unfold decode_codes at this
      rw [this, hstep]
      split <;> simp <;> omega
    · have hstep : (dispatch_code d (t, v)).window_size = d.window_size := by
        rw [dispatch_copy d t v (by omega) (by omega)]
      have := ih (dispatch_code d (t, v)) hrest (by rw [hstep]; exact hd)
      unfold decode_codes at this
      rw [this, hstep, if_neg h0]
      simp

/-- Claim C12 (as amended). Byte accounting: in every state reached from
`agon_init_compression`, `string_size` plus the number of bytes the code words written so
far stand for (1 per literal, 4, 8 or 16 per back-reference) is the number of input
bytes consumed; `window_size` is the number of literals written, capped at 256; so
`string_size + window_size` is at most the number of bytes consumed, and equal to it
when only literals, and at most 256 of them, have been written. -/
theorem byte_accounting (X : List Byte) :
    (reached X).string_size + codes_length (reached X).codes = X.length ∧
    (reached X).window_size = min (literal_count (reached X).codes) 256 ∧
    (reached X).string_size + (reached X).window_size ≤ X.length ∧
    ((∀ c ∈ (reached X).codes, c.1 = 0) → (reached X).codes.length ≤ 256 →
      (reached X).string_size + (reached X).window_size = X.length) := by
  obtain ⟨_, _, htags, _⟩ := reached_packInv X
  obtain ⟨_, hws, _, _, hout⟩ := reached_sim blank_decompression X
  have hlen := congrArg List.length hout
  rw [List.length_append, (decode_codes_effect _ _ htags).1, lookahead, slice_length] at hlen
  have hinit : (agon_init_decompression blank_decompression).written.length = 0 := rfl
  rw [hinit] at hlen
  have hwin := decode_codes_window_size (agon_init_decompression blank_decompression) _ htags
    (by decide)
  rw [hws] at hwin
  have hzero : (agon_init_decompression blank_decompression).window_size = 0 := rfl
  rw [hzero, Nat.zero_add] at hwin
  obtain ⟨l1, l2⟩ := literal_count_bounds (reached X).codes
  obtain ⟨b1, _, b3, _⟩ := codes_length_bounds (reached X).codes
  refine ⟨by omega, hwin, by rw [hwin]; omega, ?_⟩
  intro hall hle
  have := l2 hall
  have := b3 hall
  rw [hwin]
  omega

/-! ## The decoder's copy -/

/-- Claim C13 (as amended). Decoder copy: when the decoder interprets a code with
command 1, 2 or 3 (copy length 4, 8, 16), each copied byte
`window_data[(value + i) mod 256]` is sunk to the output in read order, and the history
window is left as it is: `window_data`, `window_write_index` and `window_size` do not
change (as in the encoder, where matched bytes do not enter the window). -/
theorem copy_sinks_only (dd : DecompressionData) (h1 : 1 ≤ dd.code >>> 8)
    (h3 : dd.code >>> 8 ≤ 3) :
    (interpret_code dd).written =
      dd.written ++ (List.range (code_length (dd.code >>> 8))).map
        (fun i => dd.window_data (((toByte dd.code).val + i) % 256)) ∧
    (interpret_code dd).window_data = dd.window_data ∧
    (interpret_code dd).window_write_index = dd.window_write_index ∧
    (interpret_code dd).window_size = dd.window_size := by
  have hdiv : dd.code >>> 8 = dd.code / 256 := by rw [Nat.shiftRight_eq_div_pow]
  have hcode : dd.code = (dd.code >>> 8) * 256 + (toByte dd.code).val := by
    rw [hdiv, toByte_val]
    omega
  have hdd : interpret_code dd = dispatch_code dd (dd.code >>> 8, toByte dd.code) := by
    unfold dispatch_code
    simp only []
    rw [← hcode]
  rw [hdd, dispatch_copy dd _ _ h1 h3]
  simp only [COMPRESSION_WINDOW_SIZE, and_self, and_true]
  rw [slice_eq_map _ 256 _ _ (toByte dd.code).isLt]

/-- Instance of C13 (as amended) at `copy_state`. -/
theorem copy_sinks_only_witness :
    (interpret_code copy_state).written =
      copy_state.written ++ (List.range (code_length (copy_state.code >>> 8))).map
        (fun i => copy_state.window_data (((toByte copy_state.code).val + i) % 256)) ∧
    (interpret_code copy_state).window_data = copy_state.window_data ∧
    (interpret_code copy_state).window_write_index = copy_state.window_write_index ∧
    (interpret_code copy_state).window_size = copy_state.window_size :=
  copy_sinks_only copy_state (by decide) (by decide)

set_option maxRecDepth 100000 in
/-- Counterexample to C13 as stated: on the first 7 bytes of the compressed stream of
20 x 0xAA the decoder dispatches four literals and then the copy (1, 0); before the
copy `window_write_index` and `window_size` are 4, after it 8 bytes are sunk and both
are still 4, not 8. -/
theorem copy_leaves_decoder_window :
    (decode blank_decompression [42, 138, 162, 168, 170, 64]).dispatched =
      [(0, 170), (0, 170), (0, 170), (0, 170)] ∧
    (decode blank_decompression [42, 138, 162, 168, 170, 64]).window_write_index = 4 ∧
    (decode blank_decompression [42, 138, 162, 168, 170, 64]).window_size = 4 ∧
    (decode blank_decompression [42, 138, 162, 168, 170, 64, 10]).dispatched =
      [(0, 170), (0, 170), (0, 170), (0, 170), (1, 0)] ∧
    (decode blank_decompression [42, 138, 162, 168, 170, 64, 10]).written.length = 8 ∧
    (decode blank_decompression [42, 138, 162, 168, 170, 64, 10]).window_write_index ≠
      (4 + 4) % 256 ∧
    (decode blank_decompression [42, 138, 162, 168, 170, 64, 10]).window_size ≠
      min (4 + 4) 256 := by decide

/-! ## The ratio line of `main` -/

/-- Claim C11 (defect of the code). For a file of zero bytes both `main` functions
evaluate `(output_count * 100) / input_count` with `input_count = 0`: the read loop
never runs, nothing guards the division, and it has no result. -/
theorem empty_file_divides_by_zero (dd : DecompressionData) :
    compress_main [] = none ∧ decompress_main dd [] = none :=
  ⟨rfl, rfl⟩

/-! ## The effect of one call on a reachable state -/

/-- The two outcomes of a call with 15 bytes in the lookahead, field by field. -/
theorem compress_byte_cases (cd : CompressionData) (b : Byte) (hok : EncoderOk cd)
    (h15 : cd.string_size = 15) :
    (∃ len s, (len = 16 ∨ len = 8 ∨ len = 4) ∧ s + len ≤ cd.window_size ∧
      (toByte s).val = s ∧
      slice cd.window_data 256 s len = (lookahead cd ++ [b]).take len ∧
      (agon_compress_byte cd b).codes = cd.codes ++ [(length_tag len, toByte s)] ∧
      (agon_compress_byte cd b).string_size = 16 - len ∧
      (agon_compress_byte cd b).string_read_index = (cd.string_read_index + len) % 16 ∧
      (agon_compress_byte cd b).window_data = cd.window_data ∧
      (agon_compress_byte cd b).window_size = cd.window_size ∧
      (agon_compress_byte cd b).window_write_index = cd.window_write_index ∧
      lookahead (agon_compress_byte cd b) = (lookahead cd ++ [b]).drop len) ∨
    ((agon_compress_byte cd b).codes = cd.codes ++ [(0, cd.string_data cd.string_read_index)] ∧
      (agon_compress_byte cd b).string_size = 15 ∧
      (agon_compress_byte cd b).string_read_index = (cd.string_read_index + 1) % 16 ∧
      (agon_compress_byte cd b).window_data =
        store cd.window_data cd.window_write_index (cd.string_data cd.string_read_index) ∧
      (agon_compress_byte cd b).window_size =
        (if cd.window_size < 256 then cd.window_size + 1 else cd.window_size) ∧
      (agon_compress_byte cd b).window_write_index = (cd.window_write_index + 1) % 256 ∧
      lookahead cd ++ [b] =
        cd.string_data cd.string_read_index :: lookahead (agon_compress_byte cd b)) := by
  have hla := lookahead_push cd b hok
  obtain ⟨p1, p2, p3, p4, p5, p6, p7⟩ := push_string_ok cd b hok
  have hdata : (push_string cd b).string_data cd.string_read_index =
      cd.string_data cd.string_read_index := by
    obtain ⟨_, o2, o3, _⟩ := hok
    rw [push_string_eq cd b (by omega)]
    apply store_other
    rw [o3, h15]
    omega
  obtain ⟨o1, o2, o3, o4, o5, o6⟩ := hok
  unfold agon_compress_byte
  generalize push_string cd b = c at *
  have hs : c.string_size = 16 := by omega
  have hr : c.string_read_index < 16 := by omega
  have hw : c.window_size ≤ 256 := by omega
  have hlook : lookahead c = slice c.string_data 16 c.string_read_index 16 := by
    unfold lookahead COMPRESSION_STRING_SIZE; rw [hs]
  rcases decide_code_outcome c with ⟨len, s, hlen, hprio, hm⟩ | ⟨h16, h8, h4⟩
  · left
    obtain ⟨e1, e2, e3, _, e5, e6, e7, e8, _⟩ := decide_code_match c hs hr len s hlen hprio hm
    obtain ⟨m1, m2, _⟩ := (find_match_some c len s hw hr).1 hm
    have hlen16 : len ≤ 16 := by omega
    have hs256 : s < 256 := by omega
    have hsplit := slice_append c.string_data 16 c.string_read_index len (16 - len) hr
    rw [show len + (16 - len) = 16 by omega, ← hlook] at hsplit
    have hrun : slice cd.window_data 256 s len =
        slice c.string_data 16 c.string_read_index len := by
      rw [slice_eq_iff _ _ _ _ _ _ _ hs256 hr]
      intro k hk
      rw [Nat.mod_eq_of_lt (by omega), ← p6]
      exact m2 k hk
    refine ⟨len, s, hlen, by omega, toByte_of_lt hs256, ?_, by rw [e1, p7], e2,
      by rw [e3, p2], by rw [e6, p6], by rw [e7, p4], by rw [e8, p5], ?_⟩
    · rw [hrun, ← hla, hsplit, List.take_left' (slice_length _ _ _ _)]
    · rw [← hla, hsplit, List.drop_left' (slice_length _ _ _ _)]
      unfold lookahead COMPRESSION_STRING_SIZE
      rw [e2, e3, e5]
  · right
    obtain ⟨e1, e2, e3, _, e5, e6, e7, e8, _⟩ := decide_code_literal c hs h16 h8 h4
    refine ⟨by rw [e1, p7, p2, hdata], e2, by rw [e3, p2], by rw [e6, p6, p5, p2, hdata],
      by rw [e7, p4], by rw [e8, p5], ?_⟩
    rw [← hla, hlook]
    unfold lookahead COMPRESSION_STRING_SIZE
    rw [e2, e3, e5, ← hdata, ← p2]
    rfl

/-- A call with fewer than 15 bytes in the lookahead only pushes the byte. -/
theorem compress_byte_idle (cd : CompressionData) (b : Byte) (hok : EncoderOk cd)
    (hlt : cd.string_size < 15) :
    agon_compress_byte cd b = push_string cd b ∧
    (agon_compress_byte cd b).codes = cd.codes ∧
    lookahead (agon_compress_byte cd b) = lookahead cd ++ [b] := by
  have hidle : agon_compress_byte cd b = push_string cd b := by
    unfold agon_compress_byte
    exact decide_code_idle _ (by rw [push_string_eq cd b (by omega)]; simp only []; omega)
  refine ⟨hidle, ?_, ?_⟩
  · rw [hidle, (push_string_ok cd b hok).2.2.2.2.2.2]
  · rw [hidle, lookahead_push cd b hok]

/-- Claim C15. Effect of one emission: from a state of the reachable shape, a call
that writes a back-reference of length L (tag 3, 2, 1 for 16, 8, 4) leaves
`window_data`, `window_size` and `window_write_index` unchanged and removes exactly the
L oldest bytes from the lookahead (`string_size` is 16 - L, `string_read_index` advances
by L modulo 16); a call that writes a literal removes exactly the oldest byte, which
is the payload, stores it at `window_write_index`, advances that index modulo 256 and
grows `window_size` by one up to 256. -/
theorem emission_effect (cd : CompressionData) (b : Byte) (hok : EncoderOk cd) (t : Nat)
    (p : Byte) (hemit : (agon_compress_byte cd b).codes = cd.codes ++ [(t, p)]) :
    (t ≠ 0 →
      (agon_compress_byte cd b).window_data = cd.window_data ∧
      (agon_compress_byte cd b).window_size = cd.window_size ∧
      (agon_compress_byte cd b).window_write_index = cd.window_write_index ∧
      (agon_compress_byte cd b).string_size = 16 - code_length t ∧
      (agon_compress_byte cd b).string_read_index =
        (cd.string_read_index + code_length t) % 16 ∧
      lookahead (agon_compress_byte cd b) = (lookahead cd ++ [b]).drop (code_length t)) ∧
    (t = 0 →
      lookahead cd ++ [b] = p :: lookahead (agon_compress_byte cd b) ∧
      (agon_compress_byte cd b).string_size = 15 ∧
      (agon_compress_byte cd b).string_read_index = (cd.string_read_index + 1) % 16 ∧
      (agon_compress_byte cd b).window_data = store cd.window_data cd.window_write_index p ∧
      (agon_compress_byte cd b).window_write_index = (cd.window_write_index + 1) % 256 ∧
      (agon_compress_byte cd b).window_size =
        (if cd.window_size < 256 then cd.window_size + 1 else cd.window_size)) := by
  by_cases h15 : cd.string_size = 15
  · rcases compress_byte_cases cd b hok h15 with
      ⟨len, s, hlen, _, _, _, hc, e2, e3, e6, e7, e8, hl⟩ | ⟨hc, e2, e3, e6, e7, e8, hl⟩
    · rw [hc] at hemit
      have hpair := snoc_inj _ _ _ hemit
      have ht : length_tag len = t := congrArg Prod.fst hpair
      obtain ⟨t1, _, tl⟩ := length_tag_cases len hlen
      rw [ht] at tl t1
      refine ⟨fun _ => ⟨e6, e7, e8, by rw [tl]; exact e2, by rw [tl]; exact e3,
        by rw [tl]; exact hl⟩, fun h0 => ?_⟩
      omega
    · rw [hc] at hemit
      have hpair := snoc_inj _ _ _ hemit
      have ht : 0 = t := congrArg Prod.fst hpair
      have hp : cd.string_data cd.string_read_index = p := congrArg Prod.snd hpair
      refine ⟨fun hne => absurd ht.symm hne, fun _ => ?_⟩
      rw [← hp]
      exact ⟨hl, e2, e3, e6, e8, e7⟩
  · exfalso
    obtain ⟨_, hc, _⟩ := compress_byte_idle cd b hok (by have := hok.1; omega)
    rw [hc] at hemit
    have := congrArg List.length hemit
    simp at this

/-- Instance of C15: `priority_state` writes the back-reference (3, 5). -/
theorem emission_effect_witness :
    (agon_compress_byte priority_state 16).window_data = priority_state.window_data ∧
    (agon_compress_byte priority_state 16).window_size = priority_state.window_size ∧
    (agon_compress_byte priority_state 16).window_write_index =
      priority_state.window_write_index ∧
    (agon_compress_byte priority_state 16).string_size = 16 - code_length 3 ∧
    (agon_compress_byte priority_state 16).string_read_index =
      (priority_state.string_read_index + code_length 3) % 16 ∧
    lookahead (agon_compress_byte priority_state 16) =
      (lookahead priority_state ++ [16]).drop (code_length 3) :=
  (emission_effect priority_state 16 (by unfold EncoderOk; decide) 3 5
    priority_state_emits).1 (by decide)

/-! ## No byte is dropped -/

theorem emitted_bytes_append (cd : CompressionData) (X Y : List Byte) :
    emitted_bytes cd (X ++ Y) = emitted_bytes cd X ++ emitted_bytes (compress_bytes cd X) Y := by
  induction X generalizing cd with
  | nil => rfl
  | cons x xs ih =>
    have e : (x :: xs) ++ Y = x :: (xs ++ Y) := rfl
    have hstep : compress_bytes cd (x :: xs) = compress_bytes (agon_compress_byte cd x) xs := rfl
    rw [e, emitted_bytes, emitted_bytes, ih, hstep, List.append_assoc]

theorem emitted_bytes_singleton (cd : CompressionData) (b : Byte) :
    emitted_bytes cd [b] =
      ((agon_compress_byte cd b).codes.drop cd.codes.length).foldr
        (fun c acc => code_bytes cd.window_data c ++ acc) [] := by
  simp [emitted_bytes]

/-- One call accounts for every byte: what its code word stands for, followed by the
new lookahead, is the old lookahead followed by the new byte. -/
theorem compress_byte_accounts (cd : CompressionData) (b : Byte) (hok : EncoderOk cd) :
    emitted_bytes cd [b] ++ lookahead (agon_compress_byte cd b) = lookahead cd ++ [b] := by
  rw [emitted_bytes_singleton]
  by_cases h15 : cd.string_size = 15
  · rcases compress_byte_cases cd b hok h15 with
      ⟨len, s, hlen, _, hsv, hrun, hc, _, _, _, _, _, hl⟩ | ⟨hc, _, _, _, _, _, hl⟩
    · obtain ⟨t1, _, tl⟩ := length_tag_cases len hlen
      rw [hc, List.drop_left' rfl, hl]
      simp only [List.foldr_cons, List.foldr_nil, List.append_nil]
      have hbytes : code_bytes cd.window_data (length_tag len, toByte s) =
          (lookahead cd ++ [b]).take len := by
        unfold code_bytes
        rw [if_neg (by show length_tag len ≠ 0; omega)]
        simp only []
        rw [tl, hsv, ← slice_eq_map _ 256 _ _ (by omega), hrun]
      rw [hbytes, List.take_append_drop]
    · rw [hc, List.drop_left' rfl, hl]
      simp [code_bytes]
  · obtain ⟨_, hc, hl⟩ := compress_byte_idle cd b hok (by have := hok.1; omega)
    rw [hc, hl, List.drop_length]
    rfl

/-- Claim C18. No byte is dropped or double-counted: in every state reached from
`agon_init_compression`, the bytes the code words written so far stand for (the payload
of a literal, the L window bytes of a back-reference, read from the encoder's window
at the call that writes the code word), followed by the lookahead content oldest
first, are exactly the input bytes consumed; the decoder's output for these code
words is the same bytes. -/
theorem no_byte_dropped (dd : DecompressionData) (X : List Byte) :
    emitted_bytes agon_init_compression X ++ lookahead (reached X) = X ∧
    (decode_codes (agon_init_decompression dd) (reached X).codes).written =
      emitted_bytes agon_init_compression X := by
  have hmain : emitted_bytes agon_init_compression X ++ lookahead (reached X) = X := by
    induction X using List.reverseRecOn with
    | nil => rfl
    | append_singleton P b ih =>
      rw [emitted_bytes_append, reached_snoc, List.append_assoc]
      have := compress_byte_accounts (reached P) b (reachable_ok P)
      unfold reached at this ⊢
      rw [this, ← List.append_assoc]
      unfold reached at ih
      rw [ih]
  refine ⟨hmain, ?_⟩
  obtain ⟨_, _, _, _, hout⟩ := reached_sim dd X
  have h := hout.trans hmain.symm
  exact List.append_cancel_right h

/-! ## Back-references are in bounds -/

theorem string_matches_unmasked_eq (cd : CompressionData) (n wi si : Nat) (h : wi + n ≤ 256) :
    string_matches cd n wi si = string_matches_unmasked cd n wi si := by
  induction n generalizing wi si with
  | zero => rfl
  | succ k ih =>
    simp only [string_matches, string_matches_unmasked, COMPRESSION_WINDOW_SIZE]
    by_cases hk : k = 0
    · subst hk
      simp [string_matches, string_matches_unmasked]
    · rw [Nat.mod_eq_of_lt (by omega), ih (wi + 1) _ (by omega)]

theorem search_from_unmasked_eq (cd : CompressionData) (len n start : Nat)
    (h : n = 0 ∨ start + (n - 1) + len ≤ 256) :
    search_from cd len n start = search_from_unmasked cd len n start := by
  induction n generalizing start with
  | zero => rfl
  | succ k ih =>
    simp only [search_from, search_from_unmasked]
    rw [string_matches_unmasked_eq cd len start _ (by omega), ih (start + 1) (by omega)]

/-- With at most 256 bytes in the window, the search finds the same start with or
without the mask on the window index: the mask never changes an index that is read. -/
theorem find_match_unmasked_eq (cd : CompressionData) (len : Nat) (hw : cd.window_size ≤ 256) :
    find_match cd len = find_match_unmasked cd len := by
  unfold find_match find_match_unmasked
  split
  · exact search_from_unmasked_eq cd len _ 0 (by omega)
  · rfl

/-- Every back-reference among the code words written so far points into the part of
the decoder's window that has been written when the decoder reaches it. -/
theorem reached_backrefs_bounded (dd : DecompressionData) (X : List Byte) :
    ∀ i t p, (reached X).codes[i]? = some (t, p) → t ≠ 0 →
      p.val + code_length t ≤
        (decode_codes (agon_init_decompression dd) ((reached X).codes.take i)).window_size := by
  induction X using List.reverseRecOn with
  | nil =>
    intro i t p h
    simp [reached, compress_bytes, agon_init_compression] at h
  | append_singleton P b ih =>
    intro i t p hget ht
    rw [reached_snoc] at hget ⊢
    have hok := reachable_ok P
    obtain ⟨_, hws, _, _, _⟩ := reached_sim dd P
    have hstep : ((agon_compress_byte (reached P) b).codes = (reached P).codes) ∨
        (∃ c, (agon_compress_byte (reached P) b).codes = (reached P).codes ++ [c] ∧
          (c.1 ≠ 0 → c.2.val + code_length c.1 ≤ (reached P).window_size)) := by
      by_cases h15 : (reached P).string_size = 15
      · right
        rcases compress_byte_cases (reached P) b hok h15 with
          ⟨len, s, hlen, hb, hsv, _, hc, _⟩ | ⟨hc, _⟩
        · refine ⟨_, hc, fun _ => ?_⟩
          simp only [hsv, (length_tag_cases len hlen).2.2]
          exact hb
        · exact ⟨_, hc, fun h => absurd rfl h⟩
      · left
        exact (compress_byte_idle (reached P) b hok (by have := hok.1; unfold reached at *; omega)).2.1
    rcases hstep with hc | ⟨c, hc, hbound⟩
    · rw [hc] at hget ⊢
      exact ih i t p hget ht
    · rw [hc] at hget ⊢
      by_cases hi : i < (reached P).codes.length
      · rw [List.getElem?_append_left hi] at hget
        rw [List.take_append_of_le_length (by omega)]
        exact ih i t p hget ht
      · have hlen : i < ((reached P).codes ++ [c]).length := by
          by_contra hnot
          rw [List.getElem?_eq_none (by omega)] at hget
          exact Option.noConfusion hget
        rw [List.length_append, List.length_singleton] at hlen
        have hieq : i = (reached P).codes.length := by omega
        rw [hieq, List.getElem?_concat_length] at hget
        have hceq : c = (t, p) := Option.some.inj hget
        rw [hieq, List.take_left' rfl, hws]
        have := hbound (by rw [hceq]; exact ht)
        rw [hceq] at this
        exact this

/-- Claim C20. Back-references are always in bounds: for every input consumed so far
and every next byte, a back-reference written by the call has a start `s` with
`s + L <= window_size <= 256`, its payload is `s` without truncation, and the search of
the call gives the same result without the mask on the window index; and for the whole
encoder output, every back-reference reaches the decoder when the decoder's window
holds at least `payload + L` written slots, at most 256, so the copy reads written
slots only and does not wrap. -/
theorem backrefs_in_bounds (dd : DecompressionData) (X : List Byte) :
    (∀ b t p, (agon_compress_byte (reached X) b).codes = (reached X).codes ++ [(t, p)] →
      t ≠ 0 →
      ∃ s, p = toByte s ∧ (toByte s).val = s ∧ s + code_length t ≤ (reached X).window_size ∧
        (reached X).window_size ≤ 256) ∧
    (∀ b len, find_match (push_string (reached X) b) len =
      find_match_unmasked (push_string (reached X) b) len) ∧
    (∀ i t p, (encode X).codes[i]? = some (t, p) → t ≠ 0 →
      p.val + code_length t ≤
        (decode_codes (agon_init_decompression dd) ((encode X).codes.take i)).window_size ∧
      (decode_codes (agon_init_decompression dd) ((encode X).codes.take i)).window_size ≤
        256) := by
  have hok := reachable_ok X
  refine ⟨?_, ?_, ?_⟩
  · intro b t p hemit ht
    by_cases h15 : (reached X).string_size = 15
    · rcases compress_byte_cases (reached X) b hok h15 with
        ⟨len, s, hlen, hb, hsv, _, hc, _⟩ | ⟨hc, _⟩
      · rw [hc] at hemit
        have hpair := snoc_inj _ _ _ hemit
        have htag : length_tag len = t := congrArg Prod.fst hpair
        have hp : toByte s = p := congrArg Prod.snd hpair
        have tl := (length_tag_cases len hlen).2.2
        rw [htag] at tl
        exact ⟨s, hp.symm, hsv, by rw [tl]; exact hb, hok.2.2.2.1⟩
      · rw [hc] at hemit
        have := congrArg Prod.fst (snoc_inj _ _ _ hemit)
        exact absurd this.symm ht
    · exfalso
      have hc := (compress_byte_idle (reached X) b hok
        (by have := hok.1; unfold reached at *; omega)).2.1
      rw [hc] at hemit
      have := congrArg List.length hemit
      simp at this
  · intro b len
    apply find_match_unmasked_eq
    rw [(push_string_ok (reached X) b hok).2.2.2.1]
    exact hok.2.2.2.1
  · intro i t p hget ht
    have henc : (encode X).codes = (reached X).codes ++ (lookahead (reached X)).map literal :=
      finish_codes (reached X)
    have htags := (encode_facts dd X).2.1
    have hi : i < (reached X).codes.length := by
      by_contra hnot
      rw [henc, List.getElem?_append_right (by omega), List.getElem?_map] at hget
      cases hl : (lookahead (reached X))[i - (reached X).codes.length]? with
      | none => rw [hl] at hget; exact Option.noConfusion hget
      | some x =>
        rw [hl] at hget
        have := congrArg Prod.fst (Option.some.inj hget)
        exact ht this.symm
    have htake : (encode X).codes.take i = (reached X).codes.take i := by
      rw [henc, List.take_append_of_le_length (by omega)]
    rw [htake]
    rw [henc, List.getElem?_append_left hi] at hget
    refine ⟨reached_backrefs_bounded dd X i t p hget ht, ?_⟩
    have hsub : ∀ c ∈ (reached X).codes.take i, c.1 < 4 := fun c hc =>
      (reached_packInv X).2.2.1 c (List.mem_of_mem_take hc)
    rw [decode_codes_window_size _ _ hsub (Nat.zero_le 256)]
    omega

/-- Instance of C20: the back-reference (1, 0) written at the 20th byte of 20 x 0xAA. -/
theorem backrefs_in_bounds_witness :
    ∃ s, (0 : Byte) = toByte s ∧ (toByte s).val = s ∧
      s + code_length 1 ≤ (reached (List.replicate 19 0xAA)).window_size ∧
      (reached (List.replicate 19 0xAA)).window_size ≤ 256 :=
  (backrefs_in_bounds blank_decompression (List.replicate 19 0xAA)).1 0xAA 1 0
    reached_19_aa_emits (by decide)

/-! ## Runs that wrap around the end of the window array -/

/-- Claim C17 (as amended). With a full window (256 bytes) and a full lookahead, the
call writes a back-reference exactly when, for a length L of 16, 8 or 4, some start `s`
with `s + L <= 256` has the run `window_data[s .. s+L)` equal to the L oldest lookahead
bytes; a run that would wrap from slot 255 to slot 0 is not among the candidates. -/
theorem in_range_match_found (cd : CompressionData) (b : Byte) (hsize : cd.string_size = 15)
    (hr : cd.string_read_index < 16) (hw : cd.window_size = 256) :
    (HasMatch (push_string cd b) 16 ∨ HasMatch (push_string cd b) 8 ∨
      HasMatch (push_string cd b) 4) ↔
    ∃ t p, t ≠ 0 ∧ (agon_compress_byte cd b).codes = cd.codes ++ [(t, p)] := by
  rcases compress_byte_decision cd b hsize hr (by omega) with
    ⟨len, s, hlen, _, m1, m2, _, hcodes, _, _⟩ | ⟨n16, n8, n4, hcodes, _⟩
  · have hmatch : HasMatch (push_string cd b) len := ⟨s, m1, m2⟩
    have t1 := (length_tag_cases len hlen).1
    constructor
    · intro _
      exact ⟨length_tag len, toByte s, by omega, hcodes⟩
    · intro _
      rcases hlen with rfl | rfl | rfl
      · exact Or.inl hmatch
      · exact Or.inr (Or.inl hmatch)
      · exact Or.inr (Or.inr hmatch)
  · constructor
    · rintro (h | h | h)
      · exact absurd h n16
      · exact absurd h n8
      · exact absurd h n4
    · rintro ⟨t, p, ht, hc⟩
      rw [hcodes] at hc
      have := congrArg Prod.fst (snoc_inj _ _ _ hc)
      exact absurd this.symm ht

/-- Instance of C17 (as amended): in `full_state` the 16 lookahead bytes 10..25 stand
in the window slots 10..25. -/
theorem in_range_match_found_witness :
    HasMatch (push_string full_state 25) 16 ∧
    ∃ t p, t ≠ 0 ∧ (agon_compress_byte full_state 25).codes = full_state.codes ++ [(t, p)] :=
  ⟨⟨10, by decide, by decide⟩,
    (in_range_match_found full_state 25 (by decide) (by decide) (by decide)).1
      (Or.inl ⟨10, by decide, by decide⟩)⟩

/-- After 256 literals the window array is full and holds the first 256 input bytes
in order. If the next four input bytes equal the slots 254, 255, 0, 1 (a run that
wraps) and no substring of the input repeats, the call still writes a literal. -/
theorem wrapped_run_gives_literal (P : List Byte) (b : Byte) (hP : P.length = 271)
    (hno : NoRepeat (P ++ [b])) (b0 : P[254]? = (P ++ [b])[256]?)
    (b1 : P[255]? = (P ++ [b])[257]?) (b2 : P[0]? = (P ++ [b])[258]?)
    (b3 : P[1]? = (P ++ [b])[259]?) :
    (reached P).window_size = 256 ∧ (push_string (reached P) b).string_size = 16 ∧
    (∀ i, i < 4 → (push_string (reached P) b).window_data ((254 + i) % 256) =
      (push_string (reached P) b).string_data
        (((push_string (reached P) b).string_read_index + i) % 16)) ∧
    ∃ p, (agon_compress_byte (reached P) b).codes = (reached P).codes ++ [(0, p)] := by
  obtain ⟨W, hW, hsz⟩ := literal_phase P (by omega) (noRepeat_of_append P [b] hno)
  obtain ⟨W', hW', _⟩ := literal_phase (P ++ [b])
    (by rw [List.length_append, List.length_singleton]; omega) hno
  have hsnoc := reached_snoc P b
  have hsim := reached_sim blank_decompression P
  unfold reached at hsnoc hsim ⊢
  rw [hsnoc] at hW'
  generalize compress_bytes agon_init_compression P = cd at *
  obtain ⟨hok, hws, hwi, hwd, hout⟩ := hsim
  have hla := lookahead_push cd b hok
  obtain ⟨p1, p2, p3, p4, p5, p6, p7⟩ := push_string_ok cd b hok
  have h15 : cd.string_size = 15 := by rw [hsz, hP]; rfl
  obtain ⟨w1, w2, w3⟩ := decode_literals_window (agon_init_decompression blank_decompression)
    rfl rfl W
  rw [hW] at hws hwd hout
  rw [decode_literals] at hout
  have hout' : W ++ lookahead cd = P := by
    simpa [agon_init_decompression] using hout
  have hlalen : (lookahead cd).length = 15 := by rw [lookahead, slice_length, h15]
  have hWlen : W.length = 256 := by
    have := congrArg List.length hout'
    rw [List.length_append, hlalen, hP] at this
    omega
  have hsize : cd.window_size = 256 := by rw [← hws, w2, hWlen]; rfl
  have hinput : P ++ [b] = W ++ lookahead (push_string cd b) := by
    rw [hla, ← List.append_assoc, hout']
  have hwin : ∀ k j, k < 256 → j = k → P[k]? = some (cd.window_data j) := by
    intro k j hk hj
    rw [hj, ← hout', List.getElem?_append_left (by omega),
      w3 k (by omega) (fun k' a b => by omega), Nat.mod_eq_of_lt hk,
      hwd k (by omega)]
  have hlook : ∀ i n, i < 16 → n = 256 + i → (P ++ [b])[n]? =
      some ((push_string cd b).string_data (((push_string cd b).string_read_index + i) % 16)) := by
    intro i n hi hn
    rw [hn, hinput, List.getElem?_append_right (by omega),
      show 256 + i - W.length = i by omega]
    exact slice_getElem _ 16 _ _ i (by have := hok.2.1; omega) (by omega)
  refine ⟨hsize, by omega, ?_, ?_⟩
  · intro i hi
    rw [p6]
    have e0 := hwin 254 ((254 + 0) % 256) (by decide) (by decide)
    have e1 := hwin 255 ((254 + 1) % 256) (by decide) (by decide)
    have e2 := hwin 0 ((254 + 2) % 256) (by decide) (by decide)
    have e3 := hwin 1 ((254 + 3) % 256) (by decide) (by decide)
    have l0 := hlook 0 256 (by decide) (by decide)
    have l1 := hlook 1 257 (by decide) (by decide)
    have l2 := hlook 2 258 (by decide) (by decide)
    have l3 := hlook 3 259 (by decide) (by decide)
    rw [b0, l0] at e0
    rw [b1, l1] at e1
    rw [b2, l2] at e2
    rw [b3, l3] at e3
    have : i = 0 ∨ i = 1 ∨ i = 2 ∨ i = 3 := by omega
    rcases this with rfl | rfl | rfl | rfl
    · exact (Option.some.inj e0).symm
    · exact (Option.some.inj e1).symm
    · exact (Option.some.inj e2).symm
    · exact (Option.some.inj e3).symm
  · rcases compress_byte_cases cd b hok h15 with ⟨len, s, hlen, _, _, _, hc, _⟩ | ⟨hc, _⟩
    · exfalso
      have hmem : (length_tag len, toByte s) ∈ W'.map literal := by
        rw [← hW', hc]
        simp
      obtain ⟨x, _, hx⟩ := List.mem_map.1 hmem
      have h0 : 0 = length_tag len := congrArg Prod.fst hx
      have := (length_tag_cases len hlen).1
      omega
    · exact ⟨_, hc⟩

set_option maxRecDepth 1000000 in
set_option maxHeartbeats 4000000 in
theorem wrap_input_keys : (gram_keys (wrap_head ++ [200])).Nodup :=
  nodup_of_split (gram_keys (wrap_head ++ [200])) 253 (by decide) (by decide) (by decide)

set_option maxRecDepth 100000 in
theorem wrap_input_bytes :
    wrap_head.length = 271 ∧ wrap_head[254]? = (wrap_head ++ [200])[256]? ∧
    wrap_head[255]? = (wrap_head ++ [200])[257]? ∧
    wrap_head[0]? = (wrap_head ++ [200])[258]? ∧
    wrap_head[1]? = (wrap_head ++ [200])[259]? := by decide

/-- Counterexample to C17 as stated: after the 271 bytes of `wrap_head` the window is
full (slot `j` holds the byte `j`) and the next byte 200 fills the lookahead with
254, 255, 0, 1, ...; the run of the slots 254, 255, 0, 1, which wraps from slot 255 to
slot 0, equals the 4 oldest lookahead bytes, yet the call writes a literal. -/
theorem wrapped_run_not_searched :
    (reached wrap_head).window_size = 256 ∧
    (push_string (reached wrap_head) 200).string_size = 16 ∧
    (∀ i, i < 4 → (push_string (reached wrap_head) 200).window_data ((254 + i) % 256) =
      (push_string (reached wrap_head) 200).string_data
        (((push_string (reached wrap_head) 200).string_read_index + i) % 16)) ∧
    ∃ p, (agon_compress_byte (reached wrap_head) 200).codes =
      (reached wrap_head).codes ++ [(0, p)] :=
  wrapped_run_gives_literal wrap_head 200 wrap_input_bytes.1
    (noRepeat_of_keys _ wrap_input_keys) wrap_input_bytes.2.1 wrap_input_bytes.2.2.1
    wrap_input_bytes.2.2.2.1 wrap_input_bytes.2.2.2.2

/-! ## All-literal encoding beyond the first round of the window -/

theorem noSeamRun_of_append (P Q : List Byte) (h : NoSeamRun (P ++ Q)) : NoSeamRun P := by
  intro k hk a ha h256 hlen h1 hw hw2 hrun
  apply h k (by rw [List.length_append]; omega) a ha h256
    (by rw [List.length_append]; omega) h1 hw hw2
  intro i hi
  have hrun' := hrun i hi
  rw [List.getElem?_append_left (by omega)]
  by_cases hia : i < a
  · rw [if_pos hia] at hrun' ⊢
    rw [List.getElem?_append_left (by omega)]
    exact hrun'
  · rw [if_neg hia] at hrun' ⊢
    rw [List.getElem?_append_left (by omega)]
    exact hrun'

theorem noSeamRun_short (X : List Byte) (h : X.length ≤ 272) : NoSeamRun X := by
  intro k _ a _ h256 hlen
  omega

theorem window_source_spec (k j : Nat) (hj : j < k) (hj2 : j < 256) :
    window_source k j < k ∧ window_source k j % 256 = j ∧
    ∀ k', window_source k j < k' → k' < k → k' % 256 ≠ window_source k j % 256 := by
  unfold window_source
  split <;> refine ⟨by omega, by omega, fun k' h1 h2 => by omega⟩

/-- While every code word written is a literal, the window holds the newest written
bytes: slot `j` holds the byte of input position `window_source k j`. -/
theorem literal_window (P W : List Byte) (hW : (reached P).codes = W.map literal) :
    (reached P).window_size = min W.length 256 ∧ W ++ lookahead (reached P) = P ∧
    ∀ j, j < W.length → j < 256 →
      W[window_source W.length j]? = some ((reached P).window_data j) := by
  obtain ⟨hok, hws, hwi, hwd, hout⟩ := reached_sim blank_decompression P
  obtain ⟨w1, w2, w3⟩ := decode_literals_window (agon_init_decompression blank_decompression)
    rfl rfl W
  rw [hW] at hws hwd hout
  rw [decode_literals] at hout
  have hsize : (reached P).window_size = min W.length 256 := by rw [← hws, w2]
  refine ⟨hsize, by simpa [agon_init_decompression] using hout, ?_⟩
  intro j hj hj2
  obtain ⟨s1, s2, s3⟩ := window_source_spec W.length j hj hj2
  rw [w3 (window_source W.length j) s1 (fun k' a b => s3 k' a b), s2,
    hwd j (by rw [hsize]; omega)]

/-- With `k` literals written and a full lookahead, the search for a length-4 match
succeeds exactly when some run of four window slots holds the four input bytes at
position `k`. -/
theorem hasMatch_iff_windowRun (P W : List Byte) (b : Byte)
    (hW : (reached P).codes = W.map literal) (h15 : (reached P).string_size = 15) :
    HasMatch (push_string (reached P) b) 4 ↔ WindowRun (P ++ [b]) W.length := by
  obtain ⟨hsize, hout, hwin⟩ := literal_window P W hW
  have hok := (reached_sim blank_decompression P).1
  have hla := lookahead_push (reached P) b hok
  obtain ⟨p1, p2, p3, p4, p5, p6, p7⟩ := push_string_ok (reached P) b hok
  obtain ⟨o1, o2, o3, o4, o5, o6⟩ := hok
  have hinput : P ++ [b] = W ++ lookahead (push_string (reached P) b) := by
    rw [hla, ← List.append_assoc, hout]
  have hleft : ∀ j, j < W.length → j < 256 →
      (P ++ [b])[window_source W.length j]? =
        some ((push_string (reached P) b).window_data j) := by
    intro j hj hj2
    rw [hinput, List.getElem?_append_left (window_source_spec W.length j hj hj2).1, p6]
    exact hwin j hj hj2
  have hright : ∀ i, i < 4 → (P ++ [b])[W.length + i]? =
      some ((push_string (reached P) b).string_data
        (((push_string (reached P) b).string_read_index + i) % 16)) := by
    intro i hi
    rw [hinput, List.getElem?_append_right (by omega),
      show W.length + i - W.length = i by omega]
    exact slice_getElem _ 16 _ _ i (by omega) (by omega)
  unfold HasMatch WindowRun MatchAt
  rw [p4, hsize]
  constructor
  · rintro ⟨s, hs, hm⟩
    refine ⟨s, by omega, by omega, ?_⟩
    intro i hi
    rw [hleft (s + i) (by omega) (by omega), hright i hi, hm i hi]
  · rintro ⟨s, hs1, hs2, hm⟩
    refine ⟨s, by omega, ?_⟩
    intro i hi
    have := hm i hi
    rw [hleft (s + i) (by omega) (by omega), hright i hi] at this
    exact Option.some.inj this

/-- A run of four window slots that holds the four input bytes at position `k` is
either a substring of the input that starts before `k`, or it spans the write
position. -/
theorem seamRun_of_windowRun (X : List Byte) (k : Nat) (hk : k + 4 ≤ X.length)
    (hno : NoRepeat X) (h : WindowRun X k) :
    ∃ a, a < 4 ∧ 256 < k ∧ 1 ≤ a ∧ a ≤ k % 256 ∧ k % 256 ≤ 252 + a ∧ SeamRun X k a := by
  obtain ⟨s, hs1, hs2, hrun⟩ := h
  by_cases h1 : s + 4 ≤ k % 256
  · exfalso
    apply noRepeat_four X hno (k - k % 256 + s) k (by omega) hk
    intro i hi
    have e : window_source k (s + i) = k - k % 256 + s + i := by
      unfold window_source
      rw [if_pos (by omega)]
      omega
    rw [← e]
    exact hrun i hi
  · by_cases h2 : k % 256 ≤ s
    · exfalso
      apply noRepeat_four X hno (k - k % 256 - 256 + s) k (by omega) hk
      intro i hi
      have e : window_source k (s + i) = k - k % 256 - 256 + s + i := by
        unfold window_source
        rw [if_neg (by omega)]
        omega
      rw [← e]
      exact hrun i hi
    · refine ⟨k % 256 - s, by omega, by omega, by omega, by omega, by omega, ?_⟩
      intro i hi
      by_cases hia : i < k % 256 - s
      · rw [if_pos hia, ← hrun i hi]
        congr 1
        unfold window_source
        rw [if_pos (by omega)]
        omega
      · rw [if_neg hia, ← hrun i hi]
        congr 1
        unfold window_source
        rw [if_neg (by omega)]
        omega

theorem windowRun_of_seamRun (X : List Byte) (k a : Nat) (h256 : 256 < k)
    (hw : a ≤ k % 256) (hw2 : k % 256 ≤ 252 + a) (h : SeamRun X k a) :
    WindowRun X k := by
  refine ⟨k % 256 - a, by omega, by omega, ?_⟩
  intro i hi
  rw [h i hi]
  by_cases hia : i < a
  · rw [if_pos hia]
    congr 1
    unfold window_source
    rw [if_pos (by omega)]
    omega
  · rw [if_neg hia]
    congr 1
    unfold window_source
    rw [if_neg (by omega)]
    omega

theorem seamRun_take (X : List Byte) (k a n : Nat) (hn : k + 4 ≤ n) (h : SeamRun X k a) :
    SeamRun (X.take n) k a := by
  intro i hi
  have := h i hi
  rw [List.getElem?_take_of_lt (by omega)]
  by_cases hia : i < a
  · rw [if_pos hia] at this ⊢
    rw [List.getElem?_take_of_lt (by omega)]
    exact this
  · rw [if_neg hia] at this ⊢
    rw [List.getElem?_take_of_lt (by omega)]
    exact this

/-- One call from a state in which only literals have been written: below a full
lookahead nothing is written; from a full lookahead a back-reference is written when
some window run holds the next four bytes, and a literal otherwise. -/
theorem literal_step (P W : List Byte) (b : Byte) (hW : (reached P).codes = W.map literal)
    (hsz : (reached P).string_size = min P.length 15) :
    (P.length < 15 → (reached (P ++ [b])).codes = (reached P).codes ∧
      (reached (P ++ [b])).string_size = P.length + 1) ∧
    (15 ≤ P.length → WindowRun (P ++ [b]) W.length →
      ∃ t s, t ≠ 0 ∧ (reached (P ++ [b])).codes = (reached P).codes ++ [(t, s)]) ∧
    (15 ≤ P.length → ¬ WindowRun (P ++ [b]) W.length →
      ∃ p, (reached (P ++ [b])).codes = (W ++ [p]).map literal ∧
        (reached (P ++ [b])).string_size = 15) := by
  have hok := (reached_sim blank_decompression P).1
  rw [reached_snoc]
  refine ⟨?_, ?_, ?_⟩
  · intro hlt
    obtain ⟨e1, e2, _⟩ := compress_byte_idle (reached P) b hok (by omega)
    refine ⟨e2, ?_⟩
    rw [e1, (push_string_ok (reached P) b hok).1, hsz]
    omega
  · intro hge hrun
    have h15 : (reached P).string_size = 15 := by omega
    have hm := (hasMatch_iff_windowRun P W b hW h15).2 hrun
    rcases compress_byte_decision (reached P) b h15 hok.2.1 hok.2.2.2.1 with
      ⟨len, s, hlen, _, _, _, _, hcodes, _, _⟩ | ⟨_, _, n4, _, _⟩
    · exact ⟨length_tag len, toByte s, by have := (length_tag_cases len hlen).1; omega, hcodes⟩
    · exact absurd hm n4
  · intro hge hrun
    have h15 : (reached P).string_size = 15 := by omega
    rcases compress_byte_decision (reached P) b h15 hok.2.1 hok.2.2.2.1 with
      ⟨len, s, hlen, _, m1, m2, _, _, _, _⟩ | ⟨_, _, _, hcodes, hsize⟩
    · exfalso
      apply hrun
      rw [← hasMatch_iff_windowRun P W b hW h15]
      exact ⟨s, by omega, fun i hi => m2 i (by omega)⟩
    · refine ⟨(push_string (reached P) b).string_data
        (push_string (reached P) b).string_read_index, ?_, hsize⟩
      rw [hcodes, hW, List.map_append]
      rfl

/-- While no substring of length 4 repeats and no seam run occurs, every code word
written so far is a literal and the lookahead holds the last 15 bytes. -/
theorem literal_phase_seam (P : List Byte) (hno : NoRepeat P) (hs : NoSeamRun P) :
    ∃ W : List Byte, (reached P).codes = W.map literal ∧
      (reached P).string_size = min P.length 15 := by
  induction P using List.reverseRecOn with
  | nil => exact ⟨[], rfl, rfl⟩
  | append_singleton P b ih =>
    obtain ⟨W, hW, hsz⟩ := ih (noRepeat_of_append P [b] hno) (noSeamRun_of_append P [b] hs)
    obtain ⟨s1, _, s3⟩ := literal_step P W b hW hsz
    obtain ⟨_, hout, _⟩ := literal_window P W hW
    have hlen : W.length + (reached P).string_size = P.length := by
      have := congrArg List.length hout
      rw [List.length_append, lookahead, slice_length] at this
      exact this
    rw [List.length_append, List.length_singleton]
    by_cases hlt : P.length < 15
    · obtain ⟨e1, e2⟩ := s1 hlt
      exact ⟨W, by rw [e1, hW], by rw [e2]; omega⟩
    · have hnorun : ¬ WindowRun (P ++ [b]) W.length := by
        intro hrun
        obtain ⟨a, ha, h256, h1, hw, hw2, hseam⟩ := seamRun_of_windowRun (P ++ [b]) W.length
          (by rw [List.length_append, List.length_singleton]; omega) hno hrun
        exact hs W.length (by rw [List.length_append, List.length_singleton]; omega) a ha h256
          (by rw [List.length_append, List.length_singleton]; omega) h1 hw hw2 hseam
      obtain ⟨p, e1, e2⟩ := s3 (by omega) hnorun
      exact ⟨W ++ [p], e1, by rw [e2]; omega⟩

theorem literal_of_tags (l : List (Nat × Byte)) (h : ∀ c ∈ l, c.1 = 0) :
    l = (l.map Prod.snd).map literal := by
  induction l with
  | nil => rfl
  | cons c cs ih =>
    have h0 := h c (List.mem_cons_self c cs)
    rw [List.map_cons, List.map_cons, ← ih (fun d hd => h d (List.mem_cons_of_mem c hd))]
    congr 1
    exact Prod.ext h0 rfl

/-- The code words written for a head of the input stay in front of those written
for the whole input. -/
theorem reached_codes_append (P Y : List Byte) :
    ∃ t, (reached (P ++ Y)).codes = (reached P).codes ++ t := by
  induction Y using List.reverseRecOn with
  | nil => exact ⟨[], by simp⟩
  | append_singleton Y b ih =>
    obtain ⟨t, ht⟩ := ih
    have hok := (reached_sim blank_decompression (P ++ Y)).1
    rw [← List.append_assoc, reached_snoc]
    by_cases hlt : (reached (P ++ Y)).string_size < 15
    · exact ⟨t, by rw [(compress_byte_idle _ b hok hlt).2.1, ht]⟩
    · have h15 : (reached (P ++ Y)).string_size = 15 := by have := hok.1; omega
      rcases compress_byte_decision (reached (P ++ Y)) b h15 hok.2.1 hok.2.2.2.1 with
        ⟨len, s, _, _, _, _, _, hcodes, _, _⟩ | ⟨_, _, _, hcodes, _⟩
      · exact ⟨t ++ [(length_tag len, toByte s)], by rw [hcodes, ht, List.append_assoc]⟩
      · exact ⟨t ++ [(0, (push_string (reached (P ++ Y)) b).string_data
          (push_string (reached (P ++ Y)) b).string_read_index)],
          by rw [hcodes, ht, List.append_assoc]⟩

/-- While every code word written is a literal, the lookahead holds the last 15
bytes. -/
theorem phase_of_literals (P : List Byte) (h : ∀ c ∈ (reached P).codes, c.1 = 0) :
    (reached P).string_size = min P.length 15 := by
  induction P using List.reverseRecOn with
  | nil => rfl
  | append_singleton P b ih =>
    obtain ⟨t, ht⟩ := reached_codes_append P [b]
    have hP : ∀ c ∈ (reached P).codes, c.1 = 0 := fun c hc =>
      h c (by rw [ht]; exact List.mem_append_left t hc)
    have hsz := ih hP
    have hW := literal_of_tags _ hP
    obtain ⟨s1, s2, s3⟩ := literal_step P _ b hW hsz
    rw [List.length_append, List.length_singleton]
    by_cases hlt : P.length < 15
    · rw [(s1 hlt).2]; omega
    · by_cases hrun : WindowRun (P ++ [b]) ((reached P).codes.map Prod.snd).length
      · exfalso
        obtain ⟨tag, s, htag, hcodes⟩ := s2 (by omega) hrun
        exact htag (h (tag, s) (by rw [hcodes]; simp))
      · obtain ⟨p, _, e2⟩ := s3 (by omega) hrun
        rw [e2]; omega

/-- An encoding that consists of literals only has met no seam run. -/
theorem noSeamRun_of_literals (X : List Byte) (hall : ∀ c ∈ (encode X).codes, c.1 = 0) :
    NoSeamRun X := by
  intro k hk a ha h256 hlen h1 hw hw2 hrun
  have hX : X = (X.take (k + 15) ++ [X[k + 15]]) ++ X.drop (k + 16) := by
    rw [List.append_assoc, List.singleton_append, List.getElem_cons_drop,
      List.take_append_drop]
  have htake : X.take (k + 16) = X.take (k + 15) ++ [X[k + 15]] := by
    have := congrArg (List.take (k + 16)) hX
    rw [this, List.take_left' (by simp; omega)]
  have hlenP : (X.take (k + 15)).length = k + 15 := by
    rw [List.length_take]; omega
  obtain ⟨t, ht⟩ := reached_codes_append (X.take (k + 15) ++ [X[k + 15]]) (X.drop (k + 16))
  rw [← hX] at ht
  have hfin : (encode X).codes = (reached X).codes ++ (lookahead (reached X)).map literal :=
    finish_codes _
  have hsub : ∀ c ∈ (reached (X.take (k + 15) ++ [X[k + 15]])).codes, c.1 = 0 := fun c hc =>
    hall c (by rw [hfin, ht]; exact List.mem_append_left _ (List.mem_append_left _ hc))
  obtain ⟨t', ht'⟩ := reached_codes_append (X.take (k + 15)) [X[k + 15]]
  have hP : ∀ c ∈ (reached (X.take (k + 15))).codes, c.1 = 0 := fun c hc =>
    hsub c (by rw [ht']; exact List.mem_append_left _ hc)
  have hsz := phase_of_literals _ hP
  have hW := literal_of_tags _ hP
  obtain ⟨_, hout, _⟩ := literal_window _ _ hW
  have hk' : ((reached (X.take (k + 15))).codes.map Prod.snd).length = k := by
    have := congrArg List.length hout
    rw [List.length_append, lookahead, slice_length, hsz, hlenP] at this
    omega
  obtain ⟨_, s2, _⟩ := literal_step _ _ X[k + 15] hW hsz
  rw [hk'] at s2
  have hseam : SeamRun (X.take (k + 15) ++ [X[k + 15]]) k a := by
    rw [← htake]
    exact seamRun_take X k a (k + 16) (by omega) hrun
  obtain ⟨tag, s, htag, hcodes⟩ := s2 (by omega)
    (windowRun_of_seamRun _ k a h256 hw hw2 hseam)
  exact htag (hsub (tag, s) (by rw [hcodes]; simp))

/-- Claim C7 (as amended). All-literal encoding: for every input, of any length, in
which no substring of length 4 or more occurs at two different positions, the encoder
emits exactly one literal code word per input byte, in input order, if and only if
the input has no seam run: no position `k` above 256 with a full lookahead whose four
bytes are the `a` bytes before `k` followed by the `4 - a` bytes from position
`k - 256` on, for an `a` in 1..3 with `a <= k mod 256 <= 252 + a` (a run of four window
slots across the write position). In particular this holds for every such input of at
most 272 bytes. -/
theorem all_literal (X : List Byte) (hno : NoRepeat X) :
    ((encode X).codes = X.map literal ↔ NoSeamRun X) ∧
    (X.length ≤ 272 → (encode X).codes = X.map literal) := by
  have hfin : (encode X).codes = (reached X).codes ++ (lookahead (reached X)).map literal :=
    finish_codes _
  have hlit : NoSeamRun X → (encode X).codes = X.map literal := by
    intro hs
    obtain ⟨W, hW, _⟩ := literal_phase_seam X hno hs
    obtain ⟨_, hout, _⟩ := literal_window X W hW
    rw [hfin, hW, ← List.map_append, hout]
  refine ⟨⟨?_, hlit⟩, fun hlen => hlit (noSeamRun_short X hlen)⟩
  intro hall
  apply noSeamRun_of_literals
  intro c hc
  rw [hall] at hc
  obtain ⟨x, _, rfl⟩ := List.mem_map.1 hc
  rfl

set_option maxRecDepth 1000000 in
/-- The 273-byte input `seam_input` has a seam run: its four bytes at position 257 are
the byte at position 256 followed by the bytes at positions 1, 2, 3. -/
theorem seam_input_seam : SeamRun seam_input 257 1 ∧ ¬ NoSeamRun seam_input := by decide

set_option maxRecDepth 1000000 in
theorem plain_input_keys : (gram_keys plain_input).Nodup :=
  nodup_of_split (gram_keys plain_input) 253 (by decide) (by decide) (by decide)

set_option maxRecDepth 1000000 in
theorem plain_input_seams : NoSeamRun plain_input := by decide

set_option maxRecDepth 100000 in
/-- Instance of C7 (as amended) at the 300-byte input `plain_input`: it has no
repeated substring of length 4 and no seam run; the lookahead is full at each of the
positions 0..284 and the encoder searches the window there (from position 257 on the
window array is full and overwritten cyclically), and every code word is a literal. -/
theorem all_literal_witness :
    NoRepeat plain_input ∧ NoSeamRun plain_input ∧ 272 < plain_input.length ∧
    (encode plain_input).codes = plain_input.map literal :=
  ⟨noRepeat_of_keys _ plain_input_keys, plain_input_seams, by decide,
    (all_literal plain_input (noRepeat_of_keys _ plain_input_keys)).1.2 plain_input_seams⟩

end Agon
